import Mathlib

/-!
Transport middleware chain and redacting log formatter.

A shallow embedding of `common/auth_transport.go` and `common/log_transport.go`
of the Huawei Cloud flavoured Kubernetes provider, together with the parts of
the Go standard library these files call (`encoding/json` scanner and indenter,
`regexp` replacement for the two redaction patterns, `net/http` header access).

Go strings are modelled as `String`; text processing works on the underlying
list of characters.  The model reads text as a sequence of code points, which
coincides with Go's byte-wise processing on every construct used here (all
delimiters are ASCII).
-/

namespace K8sTransport

/-! ## `encoding/json`: the scanner -/

namespace Json

/-- Return codes of a scanner step (`scanner.go`). -/
inductive ScanCode
  | scanContinue
  | scanBeginLiteral
  | scanBeginObject
  | scanObjectKey
  | scanObjectValue
  | scanEndObject
  | scanBeginArray
  | scanArrayValue
  | scanEndArray
  | scanSkipSpace
  | scanEnd
  | scanError
  deriving DecidableEq

/-- Entries of the scanner's parse stack. -/
inductive ParseState
  | parseObjectKey
  | parseObjectValue
  | parseArrayValue
  deriving DecidableEq

/-- The scanner's current step function, as an enumeration. -/
inductive Step
  | stateBeginValueOrEmpty
  | stateBeginValue
  | stateBeginStringOrEmpty
  | stateBeginString
  | stateEndValue
  | stateEndTop
  | stateInString
  | stateInStringEsc
  | stateInStringEscU
  | stateInStringEscU1
  | stateInStringEscU12
  | stateInStringEscU123
  | stateNeg
  | state1
  | state0
  | stateDot
  | stateDot0
  | stateE
  | stateESign
  | stateE0
  | stateT
  | stateTr
  | stateTru
  | stateF
  | stateFa
  | stateFal
  | stateFals
  | stateN
  | stateNu
  | stateNul
  | stateError
  deriving DecidableEq

/-- The scanner: step function, parse stack (innermost entry first), the
`endTop` flag and whether an error has been recorded. -/
structure Scanner where
  step : Step
  parseState : List ParseState
  endTop : Bool
  err : Bool
  deriving DecidableEq

/-- Nesting limit of the scanner. -/
def maxNestingDepth : Nat := 10000

/-- Scanner after `reset`. -/
def Scanner.reset : Scanner :=
  { step := .stateBeginValue, parseState := [], endTop := false, err := false }

/-- Go `isSpace`: space, tab, carriage return, newline. -/
def isSpace (c : Char) : Bool :=
  c == ' ' || c == '\t' || c == '\r' || c == '\n'

/-- Decimal digit test `'0' <= c && c <= '9'`. -/
def isDigit (c : Char) : Bool := 48 ≤ c.toNat && c.toNat ≤ 57

/-- Digit test `'1' <= c && c <= '9'`. -/
def isDigit19 (c : Char) : Bool := 49 ≤ c.toNat && c.toNat ≤ 57

/-- Hexadecimal digit test used in `\u` escapes. -/
def isHex (c : Char) : Bool :=
  isDigit c || (97 ≤ c.toNat && c.toNat ≤ 102) || (65 ≤ c.toNat && c.toNat ≤ 70)

/-- Go `scanner.error`: record the error and move to `stateError`. -/
def Scanner.error (s : Scanner) : ScanCode × Scanner :=
  (.scanError, { s with step := .stateError, err := true })

/-- Go `pushParseState`. -/
def Scanner.pushParseState (s : Scanner) (newParseState : ParseState)
    (successState : ScanCode) : ScanCode × Scanner :=
  let s1 := { s with parseState := newParseState :: s.parseState }
  if s1.parseState.length ≤ maxNestingDepth then (successState, s1) else s1.error

/-- Go `popParseState`. -/
def Scanner.popParseState (s : Scanner) : Scanner :=
  let rest := s.parseState.tail
  if rest.length = 0 then { s with parseState := rest, step := .stateEndTop, endTop := true }
  else { s with parseState := rest, step := .stateEndValue }

/-- Go `stateEndTop`: a non-space byte records an error that is reported by the
next call; the return code is `scanEnd` either way. -/
def stateEndTop (s : Scanner) (c : Char) : ScanCode × Scanner :=
  if !isSpace c then (.scanEnd, (s.error).2) else (.scanEnd, s)

/-- Go `stateEndValue`. -/
def stateEndValue (s : Scanner) (c : Char) : ScanCode × Scanner :=
  match s.parseState with
  | [] => stateEndTop { s with step := .stateEndTop, endTop := true } c
  | ps :: rest =>
    if isSpace c then (.scanSkipSpace, { s with step := .stateEndValue })
    else
      match ps with
      | .parseObjectKey =>
        if c == ':' then
          (.scanObjectKey, { s with parseState := .parseObjectValue :: rest, step := .stateBeginValue })
        else s.error
      | .parseObjectValue =>
        if c == ',' then
          (.scanObjectValue, { s with parseState := .parseObjectKey :: rest, step := .stateBeginString })
        else if c == '}' then (.scanEndObject, s.popParseState)
        else s.error
      | .parseArrayValue =>
        if c == ',' then (.scanArrayValue, { s with step := .stateBeginValue })
        else if c == ']' then (.scanEndArray, s.popParseState)
        else s.error

/-- Go `stateBeginValue`. -/
def stateBeginValue (s : Scanner) (c : Char) : ScanCode × Scanner :=
  if isSpace c then (.scanSkipSpace, s)
  else if c == '{' then
    Scanner.pushParseState { s with step := .stateBeginStringOrEmpty } .parseObjectKey .scanBeginObject
  else if c == '[' then
    Scanner.pushParseState { s with step := .stateBeginValueOrEmpty } .parseArrayValue .scanBeginArray
  else if c == '"' then (.scanBeginLiteral, { s with step := .stateInString })
  else if c == '-' then (.scanBeginLiteral, { s with step := .stateNeg })
  else if c == '0' then (.scanBeginLiteral, { s with step := .state0 })
  else if c == 't' then (.scanBeginLiteral, { s with step := .stateT })
  else if c == 'f' then (.scanBeginLiteral, { s with step := .stateF })
  else if c == 'n' then (.scanBeginLiteral, { s with step := .stateN })
  else if isDigit19 c then (.scanBeginLiteral, { s with step := .state1 })
  else s.error

/-- Go `stateBeginValueOrEmpty`. -/
def stateBeginValueOrEmpty (s : Scanner) (c : Char) : ScanCode × Scanner :=
  if isSpace c then (.scanSkipSpace, s)
  else if c == ']' then stateEndValue s c
  else stateBeginValue s c

/-- Go `stateBeginString`. -/
def stateBeginString (s : Scanner) (c : Char) : ScanCode × Scanner :=
  if isSpace c then (.scanSkipSpace, s)
  else if c == '"' then (.scanBeginLiteral, { s with step := .stateInString })
  else s.error

/-- Go `stateBeginStringOrEmpty`. -/
def stateBeginStringOrEmpty (s : Scanner) (c : Char) : ScanCode × Scanner :=
  if isSpace c then (.scanSkipSpace, s)
  else if c == '}' then
    stateEndValue { s with parseState := .parseObjectValue :: s.parseState.tail } c
  else stateBeginString s c

/-- Go `stateInString`. -/
def stateInString (s : Scanner) (c : Char) : ScanCode × Scanner :=
  if c == '"' then (.scanContinue, { s with step := .stateEndValue })
  else if c == '\\' then (.scanContinue, { s with step := .stateInStringEsc })
  else if c.toNat < 32 then s.error
  else (.scanContinue, s)

/-- Go `stateInStringEsc`. -/
def stateInStringEsc (s : Scanner) (c : Char) : ScanCode × Scanner :=
  if c == 'b' || c == 'f' || c == 'n' || c == 'r' || c == 't' || c == '\\' || c == '/'
      || c == '"' then
    (.scanContinue, { s with step := .stateInString })
  else if c == 'u' then (.scanContinue, { s with step := .stateInStringEscU })
  else s.error

/-- One step of a state that accepts exactly the bytes in `ok` and then moves to `next`. -/
def stateExpect (ok : Char → Bool) (next : Step) (s : Scanner) (c : Char) : ScanCode × Scanner :=
  if ok c then (.scanContinue, { s with step := next }) else s.error

/-- Go `state0`. -/
def state0 (s : Scanner) (c : Char) : ScanCode × Scanner :=
  if c == '.' then (.scanContinue, { s with step := .stateDot })
  else if c == 'e' || c == 'E' then (.scanContinue, { s with step := .stateE })
  else stateEndValue s c

/-- Go `state1`. -/
def state1 (s : Scanner) (c : Char) : ScanCode × Scanner :=
  if isDigit c then (.scanContinue, { s with step := .state1 }) else state0 s c

/-- Go `stateNeg`. -/
def stateNeg (s : Scanner) (c : Char) : ScanCode × Scanner :=
  if c == '0' then (.scanContinue, { s with step := .state0 })
  else if isDigit19 c then (.scanContinue, { s with step := .state1 })
  else s.error

/-- Go `stateDot0`. -/
def stateDot0 (s : Scanner) (c : Char) : ScanCode × Scanner :=
  if isDigit c then (.scanContinue, s)
  else if c == 'e' || c == 'E' then (.scanContinue, { s with step := .stateE })
  else stateEndValue s c

/-- Go `stateESign`. -/
def stateESign (s : Scanner) (c : Char) : ScanCode × Scanner :=
  if isDigit c then (.scanContinue, { s with step := .stateE0 }) else s.error

/-- Go `stateE`. -/
def stateE (s : Scanner) (c : Char) : ScanCode × Scanner :=
  if c == '+' || c == '-' then (.scanContinue, { s with step := .stateESign })
  else stateESign s c

/-- Go `stateE0`. -/
def stateE0 (s : Scanner) (c : Char) : ScanCode × Scanner :=
  if isDigit c then (.scanContinue, s) else stateEndValue s c

/-- Go `scan.step(scan, c)`: dispatch on the current step function. -/
def Scanner.doStep (s : Scanner) (c : Char) : ScanCode × Scanner :=
  match s.step with
  | .stateBeginValueOrEmpty => stateBeginValueOrEmpty s c
  | .stateBeginValue => stateBeginValue s c
  | .stateBeginStringOrEmpty => stateBeginStringOrEmpty s c
  | .stateBeginString => stateBeginString s c
  | .stateEndValue => stateEndValue s c
  | .stateEndTop => stateEndTop s c
  | .stateInString => stateInString s c
  | .stateInStringEsc => stateInStringEsc s c
  | .stateInStringEscU => stateExpect isHex .stateInStringEscU1 s c
  | .stateInStringEscU1 => stateExpect isHex .stateInStringEscU12 s c
  | .stateInStringEscU12 => stateExpect isHex .stateInStringEscU123 s c
  | .stateInStringEscU123 => stateExpect isHex .stateInString s c
  | .stateNeg => stateNeg s c
  | .state1 => state1 s c
  | .state0 => state0 s c
  | .stateDot => stateExpect isDigit .stateDot0 s c
  | .stateDot0 => stateDot0 s c
  | .stateE => stateE s c
  | .stateESign => stateESign s c
  | .stateE0 => stateE0 s c
  | .stateT => stateExpect (· == 'r') .stateTr s c
  | .stateTr => stateExpect (· == 'u') .stateTru s c
  | .stateTru => stateExpect (· == 'e') .stateEndValue s c
  | .stateF => stateExpect (· == 'a') .stateFa s c
  | .stateFa => stateExpect (· == 'l') .stateFal s c
  | .stateFal => stateExpect (· == 's') .stateFals s c
  | .stateFals => stateExpect (· == 'e') .stateEndValue s c
  | .stateN => stateExpect (· == 'u') .stateNu s c
  | .stateNu => stateExpect (· == 'l') .stateNul s c
  | .stateNul => stateExpect (· == 'l') .stateEndValue s c
  | .stateError => (.scanError, s)

/-- Go `scanner.eof`: `true` when the input ended inside a value or after an error
(`scanError`), `false` when a complete top-level value was read (`scanEnd`). -/
def Scanner.eofIsError (s : Scanner) : Bool :=
  if s.err then true
  else if s.endTop then false
  else !(s.doStep ' ').2.endTop

/-- Go `checkValid`: feed every byte to the scanner, stop at the first `scanError`. -/
def checkValid : Scanner → List Char → Bool
  | s, [] => !s.eofIsError
  | s, c :: cs =>
    match s.doStep c with
    | (.scanError, _) => false
    | (_, s1) => checkValid s1 cs

/-- Go `json.Valid`. -/
def Valid (data : List Char) : Bool := checkValid Scanner.reset data

/-- Go `appendNewline`: a newline, the prefix, then `depth` copies of the indent. -/
def appendNewline (pfx indent : List Char) (depth : Int) : List Char :=
  '\n' :: (pfx ++ (List.replicate depth.toNat indent).flatten)

/-- The loop of Go `appendIndent`: returns the bytes appended for the remaining
input and the scanner at the point where the loop ends. -/
def indentLoop (pfx indent : List Char) :
    Scanner → Bool → Int → List Char → List Char × Scanner
  | scan, _, _, [] => ([], scan)
  | scan, needIndent, depth, c :: cs =>
    match scan.doStep c with
    | (.scanSkipSpace, scan1) => indentLoop pfx indent scan1 needIndent depth cs
    | (.scanError, scan1) => ([], scan1)
    | (v, scan1) =>
      let doIndent := needIndent && v != .scanEndObject && v != .scanEndArray
      let needIndent1 := if doIndent then false else needIndent
      let depth1 := if doIndent then depth + 1 else depth
      let out0 := if doIndent then appendNewline pfx indent depth1 else []
      if v == .scanContinue then
        let r := indentLoop pfx indent scan1 needIndent1 depth1 cs
        (out0 ++ c :: r.1, r.2)
      else if c == '{' || c == '[' then
        let r := indentLoop pfx indent scan1 true depth1 cs
        (out0 ++ c :: r.1, r.2)
      else if c == ',' then
        let r := indentLoop pfx indent scan1 needIndent1 depth1 cs
        (out0 ++ c :: (appendNewline pfx indent depth1 ++ r.1), r.2)
      else if c == ':' then
        let r := indentLoop pfx indent scan1 needIndent1 depth1 cs
        (out0 ++ c :: ' ' :: r.1, r.2)
      else if c == '}' || c == ']' then
        if needIndent1 then
          let r := indentLoop pfx indent scan1 false depth1 cs
          (out0 ++ c :: r.1, r.2)
        else
          let r := indentLoop pfx indent scan1 false (depth1 - 1) cs
          (out0 ++ (appendNewline pfx indent (depth1 - 1) ++ c :: r.1), r.2)
      else
        let r := indentLoop pfx indent scan1 needIndent1 depth1 cs
        (out0 ++ c :: r.1, r.2)

/-- Go `json.Indent` into an empty buffer: the indented text, or nothing when the
scanner reports an error at the end of the input. -/
def Indent (src pfx indent : List Char) : List Char :=
  let r := indentLoop pfx indent Scanner.reset false 0 src
  if r.2.eofIsError then [] else r.1

end Json


/-! ## `regexp`: the fragment used by the redaction patterns -/

namespace Regexp

/-- Regular expressions over the constructs that occur in the two redaction
patterns: literals, the empty expression, concatenation, alternation, greedy
(`x*`) and lazy (`x*?`) repetition of a one-character class, numbered capture
groups and the end-of-text anchor `$` (no multi-line flag). -/
inductive Regex
  | lit (c : Char)
  | empty
  | seq (a b : Regex)
  | alt (a b : Regex)
  | star (greedy : Bool) (p : Char → Bool)
  | group (n : Nat) (r : Regex)
  | endText

/-- One way of matching at a position: the text consumed, the text left and the
capture groups recorded (group number, captured text). -/
structure Match where
  consumed : List Char
  rest : List Char
  caps : List (Nat × List Char)

/-- The ways `p*` can match at the start of the input, longest first when greedy and
shortest first when lazy; each is the pair (consumed, rest). -/
def starRuns (greedy : Bool) (p : Char → Bool) : List Char → List (List Char × List Char)
  | [] => [([], [])]
  | c :: cs =>
    if p c then
      let more := (starRuns greedy p cs).map (fun r => (c :: r.1, r.2))
      if greedy then more ++ [([], c :: cs)] else ([], c :: cs) :: more
    else [([], c :: cs)]

/-- All ways of matching `r` at the start of the input, in the order a backtracking
matcher tries them (Go's leftmost-first preference order). -/
def Regex.run : Regex → List Char → List Match
  | .lit c, x :: xs => if x = c then [⟨[x], xs, []⟩] else []
  | .lit _, [] => []
  | .empty, s => [⟨[], s, []⟩]
  | .seq a b, s =>
    (a.run s).flatMap (fun m1 =>
      (b.run m1.rest).map (fun m2 => ⟨m1.consumed ++ m2.consumed, m2.rest, m1.caps ++ m2.caps⟩))
  | .alt a b, s => a.run s ++ b.run s
  | .star g p, s => (starRuns g p s).map (fun r => ⟨r.1, r.2, []⟩)
  | .group n r, s => (r.run s).map (fun m => ⟨m.consumed, m.rest, (n, m.consumed) :: m.caps⟩)
  | .endText, [] => [⟨[], [], []⟩]
  | .endText, _ :: _ => []

/-- The preferred match of `r` starting exactly at the start of the input, if any. -/
def Regex.matchAt (r : Regex) (s : List Char) : Option Match := (r.run s).head?

/-- The literal string `s` as a regular expression. -/
def Regex.ofString : List Char → Regex
  | [] => .empty
  | c :: cs => .seq (.lit c) (Regex.ofString cs)

/-- The alternation `a|b|...` of a non-empty list; the empty list gives the empty
expression, as an empty pattern does. -/
def Regex.alts : List Regex → Regex
  | [] => .empty
  | [r] => r
  | r :: rs => .alt r (Regex.alts rs)

/-- Pieces of a replacement template: literal text or a group reference `$n`. -/
inductive Piece
  | text (s : List Char)
  | ref (n : Nat)

/-- Text of the last recorded capture of group `n`, empty when the group did not
take part in the match. -/
def capture (caps : List (Nat × List Char)) (n : Nat) : List Char :=
  match caps.find? (fun p => p.1 == n) with
  | some p => p.2
  | none => []

/-- Go `Regexp.expand` for a parsed template. -/
def expand (tmpl : List Piece) (m : Match) : List Char :=
  (tmpl.map (fun p => match p with
    | .text s => s
    | .ref n => capture m.caps n)).flatten

/-- The loop of Go `ReplaceAllString`.  `skip` counts the characters of the current
match that are still to be passed over; `afterMatch` tells that the previous match
ended exactly here, where an empty match is not replaced again. -/
def replaceAllAux (r : Regex) (tmpl : List Piece) : Nat → Bool → List Char → List Char
  | _, afterMatch, [] =>
    match r.matchAt [] with
    | some m => if afterMatch then [] else expand tmpl m
    | none => []
  | k + 1, _, _ :: cs => replaceAllAux r tmpl k (k == 0) cs
  | 0, afterMatch, c :: cs =>
    match r.matchAt (c :: cs) with
    | none => c :: replaceAllAux r tmpl 0 false cs
    | some m =>
      match m.consumed.length with
      | 0 =>
        (if afterMatch then [] else expand tmpl m) ++ c :: replaceAllAux r tmpl 0 false cs
      | n + 1 => expand tmpl m ++ replaceAllAux r tmpl n (n == 0) cs

/-- Go `(*Regexp).ReplaceAllString`: every leftmost non-overlapping match is
replaced by the expanded template. -/
def ReplaceAllString (r : Regex) (src : List Char) (tmpl : List Piece) : List Char :=
  replaceAllAux r tmpl 0 false src

/-- The class `\s` of Go regular expressions: `[\t\n\f\r ]`. -/
def isPerlSpace (c : Char) : Bool :=
  c == '\t' || c == '\n' || c == Char.ofNat 12 || c == '\r' || c == ' '

/-- The class `.` without the `s` flag: every character except newline. -/
def isAnyNotNL (c : Char) : Bool := c != '\n'

end Regexp

/-! ## `strings.Split` and `strings.Join` on the newline separator -/

/-- Go `strings.Split(s, "\n")`. -/
def splitLines : List Char → List (List Char)
  | [] => [[]]
  | c :: cs =>
    match splitLines cs with
    | [] => [[]]
    | l :: ls => if c = '\n' then [] :: l :: ls else (c :: l) :: ls

/-- Go `strings.Join(parts, "\n")`. -/
def joinLines : List (List Char) → List Char
  | [] => []
  | [l] => l
  | l :: ls => l ++ '\n' :: joinLines ls

/-! ## `common/log_transport.go`: the redacting formatter -/

/-- Field names whose values are masked. -/
def sensitiveKeywords : List String :=
  ["Authorization", "X-Security-Token", "stringData", "data", "secretName"]

open Regexp in
/-- The group `("K1"|"K2"|...)` of the quoted pattern, built from `sensitiveKeywords`
joined by `"|"` inside `("%s")`. -/
def reg1Key : Regex :=
  .group 1 (Regex.alts (sensitiveKeywords.map
    (fun k => Regex.ofString ('"' :: (k.data ++ ['"'])))))

open Regexp in
/-- The pattern `("K1"|"K2"|...):\s*"(.*?)"`. -/
def reg1 : Regex :=
  .seq reg1Key
    (.seq (.lit ':') (.seq (.star true isPerlSpace)
      (.seq (.lit '"') (.seq (.group 2 (.star false isAnyNotNL)) (.lit '"')))))

open Regexp in
/-- The group `(K1|K2|...)` of the bare pattern, built from `sensitiveKeywords`
joined by `|` inside `(%s)`. -/
def reg2Key : Regex :=
  .group 1 (Regex.alts (sensitiveKeywords.map (fun k => Regex.ofString k.data)))

open Regexp in
/-- The pattern `(K1|K2|...):\s*(.*?)$`. -/
def reg2 : Regex :=
  .seq reg2Key
    (.seq (.lit ':') (.seq (.star true isPerlSpace)
      (.seq (.group 2 (.star false isAnyNotNL)) .endText)))

/-- The mask written in place of a value. -/
def mask : List Char := "******".data

open Regexp in
/-- The replacement `$1: "******"` of the quoted pattern. -/
def repl1 : List Piece := [.ref 1, .text (':' :: ' ' :: '"' :: (mask ++ ['"']))]

open Regexp in
/-- The replacement `$1: ******` of the bare pattern. -/
def repl2 : List Piece := [.ref 1, .text (':' :: ' ' :: mask)]

open Regexp in
/-- The function `removeSensitive` on the characters of its argument: the quoted
pattern is replaced by `$1: "******"`, then the bare pattern by `$1: ******`. -/
def removeSensitiveChars (s : List Char) : List Char :=
  let s1 := ReplaceAllString reg1 s repl1
  ReplaceAllString reg2 s1 repl2

/-- Go `removeSensitive`. -/
def removeSensitive (s : String) : String := ⟨removeSensitiveChars s.data⟩

/-- The function `prettyPrintJsonLines` on the characters of the dump. -/
def prettyPrintJsonLinesChars (b : List Char) : List Char :=
  let parts := splitLines b
  let parts := parts.map (fun p => if Json.Valid p then Json.Indent p [] [' '] else p)
  let parts := parts.map removeSensitiveChars
  joinLines parts

/-- Go `prettyPrintJsonLines`: every line that is valid JSON is replaced by its
indented form (one space per level, empty line start), every line is redacted,
and the lines are joined again. -/
def prettyPrintJsonLines (b : String) : String := ⟨prettyPrintJsonLinesChars b.data⟩

/-- Go `strings.Contains` on character lists: `sub` occurs in `s`. -/
def containsChars : List Char → List Char → Bool
  | [], sub => sub.isEmpty
  | c :: cs, sub => sub.isPrefixOf (c :: cs) || containsChars cs sub

/-- Go `strings.Contains`. -/
def Contains (s sub : String) : Bool := containsChars s.data sub.data

/-! ## `net/http`: headers, requests, responses -/

/-- Go `validHeaderFieldByte`: the token characters of RFC 7230. -/
def validHeaderFieldByte (c : Char) : Bool :=
  let n := c.toNat
  (48 ≤ n && n ≤ 57) || (65 ≤ n && n ≤ 90) || (97 ≤ n && n ≤ 122) ||
    n == 33 || n == 35 || n == 36 || n == 37 || n == 38 || n == 39 || n == 42 || n == 43 ||
    n == 45 || n == 46 || n == 94 || n == 95 || n == 96 || n == 124 || n == 126

/-- The rewriting loop of Go `canonicalMIMEHeaderKey`: upper case at the start and
after every dash, lower case elsewhere. -/
def canonicalLoop : Bool → List Char → List Char
  | _, [] => []
  | upper, c :: cs =>
    let c1 :=
      if upper && (97 ≤ c.toNat && c.toNat ≤ 122) then Char.ofNat (c.toNat - 32)
      else if !upper && (65 ≤ c.toNat && c.toNat ≤ 90) then Char.ofNat (c.toNat + 32)
      else c
    c1 :: canonicalLoop (c1 == '-') cs

/-- Go `textproto.CanonicalMIMEHeaderKey`: a key that contains a byte outside the
token characters is returned unchanged. -/
def CanonicalMIMEHeaderKey (s : String) : String :=
  if s.data.all validHeaderFieldByte then ⟨canonicalLoop true s.data⟩ else s

/-- Go `http.Header`, a map from canonical keys to value lists, as a finite-support
function (`none` is an absent key). -/
abbrev Header := String → Option (List String)

/-- Go `Header.Add`: append `value` to the values of the canonical key. -/
def Header.Add (h : Header) (key value : String) : Header :=
  fun k => if k = CanonicalMIMEHeaderKey key then some ((h k).getD [] ++ [value]) else h k

/-- Go `Header.Set`: the canonical key gets the single value `value`. -/
def Header.Set (h : Header) (key value : String) : Header :=
  fun k => if k = CanonicalMIMEHeaderKey key then some [value] else h k

/-- Go `Header.Values`: all values of the canonical key. -/
def Header.Values (h : Header) (key : String) : List String :=
  (h (CanonicalMIMEHeaderKey key)).getD []

/-- Go `Header.Get`: the first value of the canonical key, or the empty string. -/
def Header.Get (h : Header) (key : String) : String :=
  (h.Values key).head?.getD ""

/-- The empty header map. -/
def Header.empty : Header := fun _ => none

/-- An outgoing request. -/
structure Request where
  Method : String
  URL : String
  Header : Header
  Body : String

/-- A response. -/
structure Response where
  StatusCode : Nat
  Header : Header
  Body : String

/-- Go `error` values, represented by their message. -/
abbrev GoError := String

/-- A Go `map[string]string`, as its entries in iteration order. -/
abbrev GoMap := List (String × String)

/-- Map indexing `m[key]`: the value of the entry with that key, or the zero value. -/
def GoMap.index (m : GoMap) (key : String) : String :=
  match m.find? (fun p => p.1 == key) with
  | some p => p.2
  | none => ""

/-! ## `common/auth_transport.go` and `common/log_transport.go`: the transports -/

def AccessKeyConfiguration : String := "hw_access_key"
def SecretKeyConfiguration : String := "hw_secret_key"
def ProjectIdConfiguration : String := "hw_project_id"
def SecurityTokenConfiguration : String := "hw_security_token"
def ProjectIdHeaderKey : String := "X-Project-Id"
def SecurityTokenHeaderKey : String := "X-Security-Token"

/-- Go `HuaweiCloudCredential`. -/
structure HuaweiCloudCredential where
  AccessKey : String
  SecretKey : String
  ProjectId : String
  SecurityToken : String

/-- Go `(*HuaweiCloudCredential).Validation`: an error when the project id is empty
while an access key or a secret key is given. -/
def HuaweiCloudCredential.Validation (c : HuaweiCloudCredential) : Option GoError :=
  if c.ProjectId.length == 0 && (c.AccessKey.length != 0 || c.SecretKey.length != 0) then
    some "\"hw_project_id\", \"hw_access_key\" and \"hw_secret_key\" are required"
  else none

/-- The values of `http.RoundTripper` that occur: the nil interface, a transport
from outside this package (the base transport, given by what it answers), and the
three transports of package `common` with their fields. -/
inductive RoundTripper
  | nil
  | external (handle : Request → Option Response × Option GoError)
  | logTransport (name : String) (transport : RoundTripper)
  | authTransport (hcc : HuaweiCloudCredential) (next : RoundTripper)
  | headerTransport (headers : GoMap) (next : RoundTripper)

/-- Go `ExternalHeaderTransport`, the object behind a `*ExternalHeaderTransport`. -/
structure ExternalHeaderTransport where
  headers : GoMap
  next : RoundTripper

/-- A `*ExternalHeaderTransport` used as an `http.RoundTripper`. -/
def ExternalHeaderTransport.toRoundTripper (e : ExternalHeaderTransport) : RoundTripper :=
  .headerTransport e.headers e.next

/-- What a round trip leaves behind, in order: log records, calls of the signer and
calls of a transport from outside (with the request as it was handed over). -/
inductive Event
  | log (record : String)
  | sign (key secret : String) (req : Request)
  | send (req : Request)

/-- The collaborators of the transports.  `Sign` is the signer of package
`common/signer` (`Signer{Key, Secret}.Sign(req)`): it returns the request as it
left it and its error.  `DumpRequest` and `DumpResponse` are those of
`net/http/httputil` with the body included, `IsDebugOrHigher` is the logging
level query and `goSyntax` renders an error under the verb `%#v`. -/
structure Env where
  IsDebugOrHigher : Bool
  DumpRequest : Request → Except GoError String
  DumpResponse : Option Response → Except GoError String
  Sign : String → String → Request → Request × Option GoError
  goSyntax : GoError → String

/-- Go `LogReqMsg` filled in with the transport name and the formatted dump. -/
def LogReqMsg (name dump : String) : String :=
  "[DEBUG] " ++ name ++ " API Request Details:\n" ++
  "----[ REQUEST ]---------------------------------------\n" ++ dump ++
  "\n------------------------------------------------------"

/-- Go `LogRespMsg` filled in with the transport name and the formatted dump. -/
def LogRespMsg (name dump : String) : String :=
  "[DEBUG] " ++ name ++ " API Response Details:\n" ++
  "----[ RESPONSE ]--------------------------------------\n" ++ dump ++
  "\n------------------------------------------------------"

/-- The record `LogTransport.RoundTrip` writes for the request when debugging. -/
def requestRecord (env : Env) (name : String) (req : Request) : String :=
  match env.DumpRequest req with
  | .ok reqData => LogReqMsg name (prettyPrintJsonLines reqData)
  | .error err => "[ERROR] " ++ name ++ " API Request error: " ++ env.goSyntax err

/-- The record `LogTransport.RoundTrip` writes for the response when debugging. -/
def responseRecord (env : Env) (name : String) (resp : Option Response) : String :=
  match env.DumpResponse resp with
  | .ok respData => LogRespMsg name (prettyPrintJsonLines respData)
  | .error err => "[ERROR] " ++ name ++ " API Response error: " ++ env.goSyntax err

/-- The result of a round trip: the returned pair and the events in order. -/
structure Outcome where
  resp : Option Response
  err : Option GoError
  trace : List Event

/-- The loop of `ExternalHeaderTransport.RoundTrip`: for every key of the map, in
iteration order, `req.Header.Set(key, e.headers[key])`. -/
def setHeaders (headers : GoMap) (h : Header) : Header :=
  (headers.map (·.1)).foldl (fun acc key => acc.Set key (headers.index key)) h

/-- The headers `HuaweiCloudAuthTransport.RoundTrip` adds before signing. -/
def addAuthHeaders (hcc : HuaweiCloudCredential) (req : Request) : Request :=
  let req1 := { req with Header := req.Header.Add ProjectIdHeaderKey hcc.ProjectId }
  if hcc.SecurityToken.length != 0 then
    { req1 with Header := req1.Header.Add SecurityTokenHeaderKey hcc.SecurityToken }
  else req1

/-- The method `RoundTrip` of every round tripper; `none` is a nil dereference.
* external transport: answers, one `send` event;
* `LogTransport.RoundTrip`;
* `HuaweiCloudAuthTransport.RoundTrip`;
* `ExternalHeaderTransport.RoundTrip`. -/
def RoundTrip (env : Env) : RoundTripper → Request → Option Outcome
  | .nil, _ => none
  | .external handle, req => some ⟨(handle req).1, (handle req).2, [.send req]⟩
  | .logTransport name transport, req =>
    let before := if env.IsDebugOrHigher then [Event.log (requestRecord env name req)] else []
    match RoundTrip env transport req with
    | none => none
    | some out =>
      match out.err with
      | some err => some ⟨out.resp, some err, before ++ out.trace⟩
      | none =>
        let after :=
          if env.IsDebugOrHigher then [Event.log (responseRecord env name out.resp)] else []
        some ⟨out.resp, none, before ++ out.trace ++ after⟩
  | .authTransport hcc next, req =>
    let req1 := addAuthHeaders hcc req
    let signed := env.Sign hcc.AccessKey hcc.SecretKey req1
    match signed.2 with
    | some err =>
      some ⟨none, some err,
        [.sign hcc.AccessKey hcc.SecretKey req1, .log ("[ERROR] error signing request: " ++ err)]⟩
    | none =>
      match RoundTrip env next signed.1 with
      | none => none
      | some out => some ⟨out.resp, out.err, .sign hcc.AccessKey hcc.SecretKey req1 :: out.trace⟩
  | .headerTransport headers next, req =>
    RoundTrip env next { req with Header := setHeaders headers req.Header }

/-- Go `NewLogTransport`. -/
def NewLogTransport (name : String) (t : RoundTripper) : RoundTripper := .logTransport name t

/-- Go `NewExternalHeaderTransport`: nil for an empty map. -/
def NewExternalHeaderTransport (headers : GoMap) : Option ExternalHeaderTransport :=
  if headers.length == 0 then none else some { headers := headers, next := .nil }

/-- What wrapper functions can change besides returning a round tripper: the log,
and the object behind the `*ExternalHeaderTransport` given to `BuildWrappers`. -/
structure World where
  log : List String
  externalHeader : Option ExternalHeaderTransport

/-- Go `transport.WrapperFunc`. -/
abbrev WrapperFunc := RoundTripper → World → RoundTripper × World

/-- Go `debugLogWrapper`. -/
def debugLogWrapper : WrapperFunc := fun rt w => (NewLogTransport "Kubernetes" rt, w)

/-- Go `(*HuaweiCloudCredential).TransportWrapper`. -/
def HuaweiCloudCredential.TransportWrapper (c : HuaweiCloudCredential) : WrapperFunc :=
  fun rt w =>
    match c.Validation with
    | some _ => (rt, w)
    | none =>
      if c.ProjectId = "" then
        (rt, { w with log := w.log ++
          ["[TRACE] do not use Huawei Cloud Certification transport for request"] })
      else
        (.authTransport c rt, { w with log := w.log ++
          ["[TRACE] use Huawei Cloud Certification transport for request"] })

/-- Go `(*ExternalHeaderTransport).TransportWrapper` on the object: the round
tripper it returns and the object afterwards. -/
def ExternalHeaderTransport.TransportWrapper (e : ExternalHeaderTransport)
    (rt : RoundTripper) : RoundTripper × ExternalHeaderTransport :=
  if e.headers.length == 0 then (rt, e) else (rt, { e with next := rt })

/-- The method value `externalHeader.TransportWrapper` as a wrapper function. -/
def ExternalHeaderTransport.wrapperFunc (e : ExternalHeaderTransport) : WrapperFunc :=
  fun rt w =>
    let r := (w.externalHeader.getD e).TransportWrapper rt
    (r.1, { w with externalHeader := some r.2 })

/-- Go `transport.Wrappers` of client-go for non-nil wrapper functions: nil for no
function, else the function that applies them in order. -/
def Wrappers (fns : List WrapperFunc) : Option WrapperFunc :=
  if fns.length == 0 then none
  else some (fun rt w => fns.foldl (fun acc fn => fn acc.1 acc.2) (rt, w))

/-- Go `BuildWrappers`. -/
def BuildWrappers (c : HuaweiCloudCredential) (externalHeader : Option ExternalHeaderTransport) :
    Option WrapperFunc × Option GoError :=
  match c.Validation with
  | some err => (none, some err)
  | none =>
    let wrappers : List WrapperFunc := []
    let wrappers := wrappers ++ [debugLogWrapper]
    let wrappers := wrappers ++ [c.TransportWrapper]
    let wrappers :=
      match externalHeader with
      | some e => wrappers ++ [e.wrapperFunc]
      | none => wrappers
    (Wrappers wrappers, none)

/-- The world in which the wrapper function built from `externalHeader` first runs. -/
def World.init (externalHeader : Option ExternalHeaderTransport) : World :=
  { log := [], externalHeader := externalHeader }

/-- The chain `BuildWrappers(c, externalHeader)(base)`: the round tripper the
returned wrapper function gives for `base`, when there is one. -/
def buildChain (c : HuaweiCloudCredential) (externalHeader : Option ExternalHeaderTransport)
    (base : RoundTripper) : Option RoundTripper :=
  match (BuildWrappers c externalHeader).1 with
  | some wrap => some (wrap base (World.init externalHeader)).1
  | none => none

/-- A character that may stand unescaped inside a JSON string: not a double quote,
not a backslash, not a control character. -/
def plainChar (c : Char) : Prop := c ≠ '"' ∧ c ≠ '\\' ∧ 32 ≤ c.toNat

instance (c : Char) : Decidable (plainChar c) :=
  inferInstanceAs (Decidable (c ≠ '"' ∧ c ≠ '\\' ∧ 32 ≤ c.toNat))

/-! ## JSON objects with string members, for stating what the formatter does -/

/-- A member of a JSON object with a string value: key and value as written between
the quotes. -/
abbrev Member := List Char × List Char

/-- The text after the opening quote of a member in compact form: `k":"v"`. -/
def compactMemberTail (m : Member) : List Char := m.1 ++ '"' :: ':' :: '"' :: (m.2 ++ ['"'])

/-- A member in compact form: `"k":"v"`. -/
def compactMember (m : Member) : List Char := '"' :: compactMemberTail m

/-- A member as the indenter writes it: `"k": "v"`. -/
def indentedMember (m : Member) : List Char :=
  '"' :: (m.1 ++ '"' :: ':' :: ' ' :: '"' :: (m.2 ++ ['"']))

/-- The one-line object `{"k1":"v1","k2":"v2",...}`. -/
def compactObject (ms : List Member) : List Char :=
  '{' :: (List.intercalate [','] (ms.map compactMember) ++ ['}'])

/-- The object over several lines, one member per line, indented by one space. -/
def indentedObject (ms : List Member) : List Char :=
  '{' :: '\n' :: ' ' :: (List.intercalate [',', '\n', ' '] (ms.map indentedMember) ++ ['\n', '}'])

/-- A member with its value replaced by the mask when its key is a sensitive keyword. -/
def maskMember (m : Member) : Member :=
  if m.1 ∈ sensitiveKeywords.map String.data then (m.1, mask) else m

/-- Key and value of the member need no escaping. -/
def plainMember (m : Member) : Prop := (∀ c ∈ m.1, plainChar c) ∧ (∀ c ∈ m.2, plainChar c)

instance (m : Member) : Decidable (plainMember m) :=
  inferInstanceAs (Decidable ((∀ c ∈ m.1, plainChar c) ∧ (∀ c ∈ m.2, plainChar c)))

/-- Scanner inside a string that is an object key. -/
def inKey : Json.Scanner := ⟨.stateInString, [.parseObjectKey], false, false⟩

/-- Scanner inside a string that is an object value. -/
def inValue : Json.Scanner := ⟨.stateInString, [.parseObjectValue], false, false⟩

/-- Scanner after an object value. -/
def afterValue : Json.Scanner := ⟨.stateEndValue, [.parseObjectValue], false, false⟩

/-! ## Observations on traces and sample inputs -/

/-- The requests handed to a transport from outside, in order. -/
def sentRequests : List Event → List Request
  | [] => []
  | .send r :: es => r :: sentRequests es
  | _ :: es => sentRequests es

/-- The number of calls of the signer. -/
def signCalls : List Event → Nat
  | [] => 0
  | .sign _ _ _ :: es => signCalls es + 1
  | _ :: es => signCalls es

/-- The credential invariant is violated: no project id, but an access key or a
secret key. -/
def HuaweiCloudCredential.Violates (c : HuaweiCloudCredential) : Prop :=
  c.ProjectId = "" ∧ (c.AccessKey ≠ "" ∨ c.SecretKey ≠ "")

/-- A request without headers. -/
def sampleRequest : Request :=
  { Method := "GET", URL := "https://cluster.example/api/v1/pods", Header := Header.empty, Body := "" }

/-- A base transport that answers every request with status 200 and the request body. -/
def echoTransport : Request → Option Response × Option GoError :=
  fun r => (some { StatusCode := 200, Header := Header.empty, Body := r.Body }, none)

/-- Collaborators with debugging off and a signer that accepts every request as it is. -/
def quietEnv : Env :=
  { IsDebugOrHigher := false
    DumpRequest := fun r => .ok r.Body
    DumpResponse := fun _ => .ok ""
    Sign := fun _ _ r => (r, none)
    goSyntax := fun e => e }

/-- Collaborators with debugging on and a signer that rejects every request. -/
def failingSignEnv : Env :=
  { IsDebugOrHigher := true
    DumpRequest := fun r => .ok r.Body
    DumpResponse := fun _ => .ok ""
    Sign := fun _ _ r => (r, some "signing failed")
    goSyntax := fun e => e }

/-- The credential of the end-to-end scenario: keys and project, no session token. -/
def scenarioCredential : HuaweiCloudCredential :=
  { AccessKey := "AK", SecretKey := "SK", ProjectId := "proj-1", SecurityToken := "" }

/-- A credential with nothing but a session token. -/
def anonymousCredential : HuaweiCloudCredential :=
  { AccessKey := "", SecretKey := "", ProjectId := "", SecurityToken := "tok" }

/-! ## Further observations and sample inputs for the signing transport -/

/-- The requests handed to the signer, in order. -/
def signRequests : List Event → List Request
  | [] => []
  | .sign _ _ r :: es => r :: signRequests es
  | _ :: es => signRequests es

/-- Modelled from the spec: the contract of the signer of package `common/signer`
(not among the sources) that it "never removes existing headers except ones it
owns", for a header `key` it does not own: whatever request it is given, it leaves
the entry of that header as it found it. -/
def Env.SignerKeeps (env : Env) (key : String) : Prop :=
  ∀ (k s : String) (r : Request),
    (env.Sign k s r).1.Header (CanonicalMIMEHeaderKey key) = r.Header (CanonicalMIMEHeaderKey key)

/-- At least one, but not all, of project id, access key and secret key are given. -/
def HuaweiCloudCredential.Partial (c : HuaweiCloudCredential) : Prop :=
  (c.ProjectId ≠ "" ∨ c.AccessKey ≠ "" ∨ c.SecretKey ≠ "") ∧
  ¬ (c.ProjectId ≠ "" ∧ c.AccessKey ≠ "" ∧ c.SecretKey ≠ "")

instance (c : HuaweiCloudCredential) : Decidable c.Partial :=
  inferInstanceAs (Decidable ((c.ProjectId ≠ "" ∨ c.AccessKey ≠ "" ∨ c.SecretKey ≠ "") ∧
    ¬ (c.ProjectId ≠ "" ∧ c.AccessKey ≠ "" ∧ c.SecretKey ≠ "")))

/-- A request that already carries the headers `X-Project-Id: other` and
`X-Security-Token: old`. -/
def taggedRequest : Request :=
  { Method := "GET", URL := "https://cluster.example/api/v1/pods",
    Header := (Header.empty.Set "X-Project-Id" "other").Set "X-Security-Token" "old", Body := "" }

/-- A credential with a project id and nothing else. -/
def projectOnlyCredential : HuaweiCloudCredential :=
  { AccessKey := "", SecretKey := "", ProjectId := "proj-1", SecurityToken := "" }

/-- A credential with a project id and an access key, without secret key. -/
def noSecretCredential : HuaweiCloudCredential :=
  { AccessKey := "AK", SecretKey := "", ProjectId := "proj-1", SecurityToken := "" }

/-- A credential with keys, project id and a session token. -/
def tokenCredential : HuaweiCloudCredential :=
  { AccessKey := "AK", SecretKey := "SK", ProjectId := "proj-1", SecurityToken := "tok" }

/-! ## `util/util.go`: resource identifiers -/

/-- Go `strings.Split(s, sep)` for a separator of one character. -/
def splitOn (sep : Char) : List Char → List (List Char)
  | [] => [[]]
  | c :: cs =>
    match splitOn sep cs with
    | [] => [[]]
    | l :: ls => if c = sep then [] :: l :: ls else (c :: l) :: ls

/-- Go `strings.Split` with a one-character separator, on strings. -/
def Split (s : String) (sep : Char) : List String := (splitOn sep s.data).map String.mk

/-- Go `strings.Join`. -/
def Join : List String → String → String
  | [], _ => ""
  | [a], _ => a
  | a :: rest, sep => a ++ sep ++ Join rest sep

/-- Go `schema.GroupVersion` of apimachinery. -/
structure GroupVersion where
  Group : String
  Version : String
  deriving DecidableEq

/-- Go `schema.GroupVersionKind` of apimachinery. -/
structure GroupVersionKind where
  Group : String
  Version : String
  Kind : String
  deriving DecidableEq

/-- Go `schema.ParseGroupVersion`: empty and `/` give the empty group version, a
string without slash is a version, one slash separates group and version, more
slashes are an error (`none`). -/
def ParseGroupVersion (gv : String) : Option GroupVersion :=
  if gv.length == 0 || gv = "/" then some ⟨"", ""⟩
  else
    match splitOn '/' gv.data with
    | [v] => some ⟨"", String.mk v⟩
    | [g, v] => some ⟨String.mk g, String.mk v⟩
    | _ => none

/-- Go `schema.FromAPIVersionAndKind`. -/
def FromAPIVersionAndKind (apiVersion kind : String) : GroupVersionKind :=
  match ParseGroupVersion apiVersion with
  | some gv => ⟨gv.Group, gv.Version, kind⟩
  | none => ⟨"", "", kind⟩

/-- The three errors of `ParseResourceID`, by the message they are made with:
"ID must contain apiVersion, kind, and name", "ID must be in key=value format" and
"ID contained unknown key", each with the id (and the key) they quote. -/
inductive ParseIDError
  | mustContain (id : String)
  | notKeyValue (id : String)
  | unknownKey (id key : String)
  deriving DecidableEq

/-- The variables `apiVersion`, `kind`, `name`, `namespace` of `ParseResourceID`. -/
structure IDFields where
  apiVersion : String
  kind : String
  name : String
  nameSpace : String
  deriving DecidableEq

/-- The loop of `ParseResourceID` over the parts of the id. -/
def parseParts (id : String) : List String → IDFields → Except ParseIDError IDFields
  | [], f => .ok f
  | p :: ps, f =>
    match Split p '=' with
    | [key, val] =>
      if key = "apiVersion" then parseParts id ps { f with apiVersion := val }
      else if key = "kind" then parseParts id ps { f with kind := val }
      else if key = "name" then parseParts id ps { f with name := val }
      else if key = "namespace" then parseParts id ps { f with nameSpace := val }
      else .error (.unknownKey id key)
    | _ => .error (.notKeyValue id)

/-- Go `ParseResourceID`: group-version-kind, name, namespace and error. -/
def ParseResourceID (id : String) : GroupVersionKind × String × String × Option ParseIDError :=
  let parts := Split id ','
  if parts.length < 3 || parts.length > 4 then (⟨"", "", ""⟩, "", "", some (.mustContain id))
  else
    match parseParts id parts ⟨"", "", "", "default"⟩ with
    | .error e => (⟨"", "", ""⟩, "", "", some e)
    | .ok f => (FromAPIVersionAndKind f.apiVersion f.kind, f.name, f.nameSpace, none)

/-- The part `key=value` of an id. -/
def idPart (p : String × String) : String := p.1 ++ "=" ++ p.2

/-- The id contains a part `key=value` for the key. -/
def hasPart (id key : String) : Prop :=
  ∃ p ∈ Split id ',', ∃ val : String, p = key ++ "=" ++ val

/-- The assignment the loop of `ParseResourceID` makes for a part with a known key. -/
def IDFields.assign (f : IDFields) (p : String × String) : IDFields :=
  if p.1 = "apiVersion" then { f with apiVersion := p.2 }
  else if p.1 = "kind" then { f with kind := p.2 }
  else if p.1 = "name" then { f with name := p.2 }
  else if p.1 = "namespace" then { f with nameSpace := p.2 }
  else f

/-- The keys `ParseResourceID` knows. -/
def idKeys : List String := ["apiVersion", "kind", "name", "namespace"]

/-- The line, read as JSON text, opens an object or an array that is not closed
right away: after white space comes `{` or `[`, and after further white space a
character other than the matching closing bracket. -/
def opensNonEmpty (line : List Char) : Bool :=
  match line.dropWhile Json.isSpace with
  | o :: r =>
    match r.dropWhile Json.isSpace with
    | c :: _ => (o == '{' && c != '}') || (o == '[' && c != ']')
    | [] => false
  | [] => false

/-- Scanner right after the opening brace of an object. -/
def afterBrace : Json.Scanner := ⟨.stateBeginStringOrEmpty, [.parseObjectKey], false, false⟩

/-- Scanner right after the opening bracket of an array. -/
def afterBracket : Json.Scanner := ⟨.stateBeginValueOrEmpty, [.parseArrayValue], false, false⟩

/-- White space is skipped by the scanner in this state, which stays as it is. -/
def skipsSpace (s : Json.Scanner) : Prop :=
  ∀ c, Json.isSpace c = true → s.doStep c = (.scanSkipSpace, s)

/-- The text starts with a quoted keyword, a colon, white space and a quoted value
without quote or newline inside: the texts at whose start the quoted pattern matches. -/
def quotedAt (s : List Char) : Prop :=
  ∃ K ∈ sensitiveKeywords, ∃ w v rest,
    s = '"' :: (K.data ++ '"' :: ':' :: (w ++ '"' :: (v ++ '"' :: rest))) ∧
    (∀ c ∈ w, Regexp.isPerlSpace c = true) ∧ (∀ c ∈ v, c ≠ '"' ∧ c ≠ '\n')

/-- The text starts with a keyword and a colon. -/
def keyAt (s : List Char) : Prop :=
  ∃ K ∈ sensitiveKeywords, ∃ t, s = K.data ++ ':' :: t

/-- Texts the quoted replacement leaves as they are: read from the left, every
position either has no match of the quoted pattern or starts an already masked pair. -/
inductive Stable1 : List Char → Prop
  | nil : Stable1 []
  | skip (c : Char) (cs : List Char) :
      reg1.run (c :: cs) = [] → Stable1 cs → Stable1 (c :: cs)
  | masked (K : String) (rest : List Char) :
      K ∈ sensitiveKeywords → Stable1 rest →
      Stable1 ('"' :: (K.data ++ '"' :: ':' :: ' ' :: '"' :: (mask ++ '"' :: rest)))
/-! ## `encoding/base64`: the standard encoding -/

namespace Base64

/-- The alphabet `encodeStd` of the standard encoding. -/
def encodeStd : List Char :=
  "ABCDEFGHIJKLMNOPQRSTUVWXYZabcdefghijklmnopqrstuvwxyz0123456789+/".data

/-- The padding character `StdPadding`. -/
def StdPadding : Char := '='

/-- The table `enc.encode`: the character written for a six-bit value. -/
def encode (i : Nat) : Char := encodeStd.getD i 'A'

/-- The table `enc.decodeMap`: the six-bit value of a character of the alphabet and
`0xFF` for every other character. -/
def decodeMap (c : Char) : Nat :=
  let i := encodeStd.indexOf c
  if i < 64 then i else 0xFF

/-- Go `(*Encoding).Encode` for `StdEncoding`, on a slice of bytes: every three bytes
give four characters, a remainder of one or two bytes gives two or three characters and
padding. -/
def Encode : List Nat → List Char
  | b0 :: b1 :: b2 :: rest =>
    let val := (b0 <<< 16) ||| (b1 <<< 8) ||| b2
    encode ((val >>> 18) &&& 0x3F) :: encode ((val >>> 12) &&& 0x3F) ::
      encode ((val >>> 6) &&& 0x3F) :: encode (val &&& 0x3F) :: Encode rest
  | [b0, b1] =>
    let val := (b0 <<< 16) ||| (b1 <<< 8)
    [encode ((val >>> 18) &&& 0x3F), encode ((val >>> 12) &&& 0x3F),
      encode ((val >>> 6) &&& 0x3F), StdPadding]
  | [b0] =>
    let val := b0 <<< 16
    [encode ((val >>> 18) &&& 0x3F), encode ((val >>> 12) &&& 0x3F), StdPadding, StdPadding]
  | [] => []

/-- Go `(*Encoding).EncodeToString`. -/
def EncodeToString (src : List Nat) : String := String.mk (Encode src)

/-- Go `CorruptInputError`: the offset of the offending input. -/
abbrev CorruptInputError := Int

/-- The end of `decodeQuantum`: the six-bit values in `dbuf` (missing ones are zero) are
joined into 24 bits and split into three bytes, of which `dlen - 1` are written. -/
def assemble (dbuf : List Nat) (dlen : Nat) : List Nat :=
  let val := (dbuf.getD 0 0 <<< 18) ||| (dbuf.getD 1 0 <<< 12) ||| (dbuf.getD 2 0 <<< 6)
    ||| dbuf.getD 3 0
  [(val >>> 16) % 256, (val >>> 8) % 256, (val >>> 0) % 256].take (dlen - 1)

/-- The characters `decodeQuantum` skips: `\n` and `\r`. -/
def isNewline (c : Char) : Bool := c == '\n' || c == '\r'

/-- The part of `decodeQuantum` after the padding was read: newlines are skipped,
anything left is trailing garbage (reported at its offset), and the bytes of the last
quantum are written in either case. -/
def afterPadding (dbuf : List Nat) (j : Nat) (rest : List Char) (si : Nat) (dst : List Nat) :
    List Nat × Option CorruptInputError :=
  let si1 := si + (rest.takeWhile isNewline).length
  match rest.dropWhile isNewline with
  | [] => (dst ++ assemble dbuf j, none)
  | _ :: _ => (dst ++ assemble dbuf j, some (si1 : Int))

/-- Go `(*Encoding).Decode` for `StdEncoding` (not strict): `Decode` calls `decodeQuantum`
until the input is used up or an error is found; both loops are one recursion over the
input here.  `j` counts the six-bit values of the current quantum, `dbuf` holds them,
`si` is the read offset, `dst` holds the bytes written so far.  The result is the bytes
written and the error.  The eight- and four-character fast paths of `Decode` decode
the same quanta as `decodeQuantum` and are not told apart. -/
def decodeFrom : Nat → List Nat → List Char → Nat → List Nat →
    List Nat × Option CorruptInputError
  | j, _, [], si, dst =>
    if j = 0 then (dst, none) else (dst, some ((si : Int) - (j : Int)))
  | j, dbuf, c :: rest, si0, dst =>
    let si := si0 + 1
    let out := decodeMap c
    if out ≠ 0xFF then
      if j + 1 < 4 then decodeFrom (j + 1) (dbuf ++ [out]) rest si dst
      else decodeFrom 0 [] rest si (dst ++ assemble (dbuf ++ [out]) 4)
    else if c = '\n' ∨ c = '\r' then decodeFrom j dbuf rest si dst
    else if c ≠ StdPadding then (dst, some ((si : Int) - 1))
    else
      match j with
      | 0 => (dst, some ((si : Int) - 1))
      | 1 => (dst, some ((si : Int) - 1))
      | 2 =>
        let si1 := si + (rest.takeWhile isNewline).length
        match rest.dropWhile isNewline with
        | [] => (dst, some (si1 : Int))
        | d :: rest2 =>
          if d ≠ StdPadding then (dst, some ((si1 : Int) - 1))
          else afterPadding dbuf 2 rest2 (si1 + 1) dst
      | _ => afterPadding dbuf j rest si dst

/-- Go `(*Encoding).DecodeString` for `StdEncoding`: the decoded bytes and the error. -/
def DecodeString (s : String) : List Nat × Option CorruptInputError :=
  decodeFrom 0 [] s.data 0 []

end Base64

/-! ## `util/util.go`: maps of base64 text -/

/-- A Go map with string keys, as its entries in iteration order; the keys of the
entries of a map are distinct. -/
abbrev StringMap (V : Type) := List (String × V)

/-- The assignment `m[k] = v`: the entry with key `k` gets the value `v`, a new entry is
added when there is none. -/
def StringMap.set {V : Type} : StringMap V → String → V → StringMap V
  | [], k, v => [(k, v)]
  | (k0, v0) :: m, k, v => if k0 = k then (k, v) :: m else (k0, v0) :: StringMap.set m k v

/-- A value of type `interface{}` as far as the type assertion `v.(string)` tells:
a string, or a value of another type. -/
inductive Any where
  | str (s : String)
  | other
  deriving DecidableEq

/-- Go `base64EncodeByteMap`: every value is replaced by its base64 text. -/
def base64EncodeByteMap (m : StringMap (List Nat)) : StringMap Any :=
  m.foldl (fun result p => result.set p.1 (Any.str (Base64.EncodeToString p.2))) []

/-- The loop of `base64DecodeStringMap` over the entries still to be visited. -/
def base64DecodeStringMapLoop :
    StringMap Any → StringMap (List Nat) →
      Option (Except Base64.CorruptInputError (StringMap (List Nat)))
  | [], mm => some (.ok mm)
  | (_, .other) :: _, _ => none
  | (k, .str s) :: rest, mm =>
    match Base64.DecodeString s with
    | (d, none) => base64DecodeStringMapLoop rest (mm.set k d)
    | (_, some err) => some (.error err)

/-- Go `base64DecodeStringMap`: every value is decoded; the first decoding error is
returned in place of the map.  `none` stands for the panic of the type assertion
`v.(string)` on a value that is not a string. -/
def base64DecodeStringMap (m : StringMap Any) :
    Option (Except Base64.CorruptInputError (StringMap (List Nat))) :=
  base64DecodeStringMapLoop m []

/-- Go `FlattenByteMapToBase64Map`. -/
def FlattenByteMapToBase64Map (m : StringMap (List Nat)) : StringMap String :=
  m.foldl (fun result p => result.set p.1 (Base64.EncodeToString p.2)) []

/-- The loop of `ExpandBase64MapToByteMap` over the entries still to be visited. -/
def ExpandBase64MapToByteMapLoop :
    StringMap Any → StringMap (List Nat) → Option (StringMap (List Nat))
  | [], result => some result
  | (_, .other) :: _, _ => none
  | (k, .str s) :: rest, result =>
    match Base64.DecodeString s with
    | (b, none) => ExpandBase64MapToByteMapLoop rest (result.set k b)
    | (_, some _) => ExpandBase64MapToByteMapLoop rest result

/-- Go `ExpandBase64MapToByteMap`: every value that decodes is kept decoded, the others
are left out.  `none` stands for the panic of the type assertion `v.(string)`. -/
def ExpandBase64MapToByteMap (m : StringMap Any) : Option (StringMap (List Nat)) :=
  ExpandBase64MapToByteMapLoop m []

/-- A `map[string]string` handed over as a `map[string]interface{}`. -/
def asInterfaceMap (m : StringMap String) : StringMap Any := m.map (fun p => (p.1, Any.str p.2))

/-- No colon of the text is followed by white space that runs up to a newline.  The
flag tells that the text read so far ends with a colon and white space after it. -/
def noNewlineAfterColon : Bool → List Char → Bool
  | _, [] => true
  | pending, c :: cs =>
    if pending && c == '\n' then false
    else noNewlineAfterColon (c == ':' || (pending && Regexp.isPerlSpace c)) cs

/-- What one turn of the loop of `appendIndent` appends for the scanner code `v` (not
`scanSkipSpace`, not `scanError`) and the byte `c`, with empty prefix and one space as
indent, together with the new `needIndent` and `depth`: the branches of `indentLoop`. -/
def indentEmit (v : Json.ScanCode) (c : Char) (needIndent : Bool) (depth : Int) :
    List Char × Bool × Int :=
  let doIndent := needIndent && v != Json.ScanCode.scanEndObject && v != Json.ScanCode.scanEndArray
  let needIndent1 := if doIndent then false else needIndent
  let depth1 := if doIndent then depth + 1 else depth
  let out0 := if doIndent then Json.appendNewline [] [' '] depth1 else []
  if v == Json.ScanCode.scanContinue then (out0 ++ [c], needIndent1, depth1)
  else if c == '{' || c == '[' then (out0 ++ [c], true, depth1)
  else if c == ',' then (out0 ++ c :: Json.appendNewline [] [' '] depth1, needIndent1, depth1)
  else if c == ':' then (out0 ++ [c, ' '], needIndent1, depth1)
  else if c == '}' || c == ']' then
    if needIndent1 then (out0 ++ [c], false, depth1)
    else (out0 ++ (Json.appendNewline [] [' '] (depth1 - 1) ++ [c]), false, depth1 - 1)
  else (out0 ++ [c], needIndent1, depth1)

/-- Scanner states in which the text written so far may end with a colon and white
space: inside a string, before a value, or after an error. -/
def afterColonState (s : Json.Scanner) : Prop :=
  s.step = .stateInString ∨ s.step = .stateBeginValue ∨ s.step = .stateError

/-- The access key and secret key of every call of the signer, in order. -/
def signKeys : List Event → List (String × String)
  | [] => []
  | .sign key secret _ :: es => (key, secret) :: signKeys es
  | _ :: es => signKeys es

/-- No sensitive keyword with a colon behind it is followed by white space that runs up
to a newline. -/
def keyColonClear (s : List Char) : Prop :=
  ∀ a K y, K ∈ sensitiveKeywords → s = a ++ (K.data ++ ':' :: y) →
    '\n' ∉ y.takeWhile Regexp.isPerlSpace

open Regexp Json

/-! ## Theorems: the transports -/

theorem string_length_eq_zero_iff (s : String) : s.length = 0 ↔ s = "" := by
  cases s with
  | mk l =>
    constructor
    · intro h
      have hl : l = [] := List.length_eq_zero.mp h
      subst hl
      rfl
    · intro h
      rw [h]
      rfl

theorem validation_isSome_iff (c : HuaweiCloudCredential) :
    c.Validation.isSome ↔ c.Violates := by
  unfold HuaweiCloudCredential.Validation HuaweiCloudCredential.Violates
  by_cases hp : c.ProjectId = "" <;> by_cases ha : c.AccessKey = "" <;>
    by_cases hs : c.SecretKey = "" <;>
    simp [hp, ha, hs, string_length_eq_zero_iff]

theorem validation_eq_none_iff (c : HuaweiCloudCredential) :
    c.Validation = none ↔ ¬ c.Violates := by
  rw [← validation_isSome_iff]
  cases c.Validation <;> simp

theorem buildChain_none (c : HuaweiCloudCredential) (base : RoundTripper)
    (hv : c.Validation = none) :
    buildChain c none base =
      some (if c.ProjectId = "" then .logTransport "Kubernetes" base
            else .authTransport c (.logTransport "Kubernetes" base)) := by
  by_cases hp : c.ProjectId = "" <;>
    simp [buildChain, BuildWrappers, hv, Wrappers, debugLogWrapper, NewLogTransport,
      HuaweiCloudCredential.TransportWrapper, hp]

theorem buildChain_some (c : HuaweiCloudCredential) (e : ExternalHeaderTransport)
    (base : RoundTripper) (hv : c.Validation = none) :
    buildChain c (some e) base =
      some (if c.ProjectId = "" then .logTransport "Kubernetes" base
            else .authTransport c (.logTransport "Kubernetes" base)) := by
  by_cases hp : c.ProjectId = "" <;>
    by_cases he : e.headers = [] <;>
    simp [buildChain, BuildWrappers, hv, Wrappers, debugLogWrapper, NewLogTransport,
      HuaweiCloudCredential.TransportWrapper, hp, ExternalHeaderTransport.wrapperFunc,
      ExternalHeaderTransport.TransportWrapper, World.init, he]

/-- C1: when the signer returns an error for the request, `HuaweiCloudAuthTransport.RoundTrip`
returns no response and that error; its trace holds the signer call and the error
record only, so no transport below it was invoked, whatever the downstream node is. -/
theorem C1_sign_error_is_returned_without_forwarding (env : Env) (hcc : HuaweiCloudCredential)
    (next : RoundTripper) (req : Request) (e : GoError)
    (hsign : (env.Sign hcc.AccessKey hcc.SecretKey (addAuthHeaders hcc req)).2 = some e) :
    ∃ out, RoundTrip env (.authTransport hcc next) req = some out ∧
      out.resp = none ∧ out.err = some e ∧
      out.trace = [.sign hcc.AccessKey hcc.SecretKey (addAuthHeaders hcc req),
                   .log ("[ERROR] error signing request: " ++ e)] ∧
      sentRequests out.trace = [] := by
  refine ⟨⟨none, some e, [.sign hcc.AccessKey hcc.SecretKey (addAuthHeaders hcc req),
    .log ("[ERROR] error signing request: " ++ e)]⟩, ?_, rfl, rfl, rfl, rfl⟩
  simp [RoundTrip, hsign]

theorem C1_witness :
    (failingSignEnv.Sign scenarioCredential.AccessKey scenarioCredential.SecretKey
        (addAuthHeaders scenarioCredential sampleRequest)).2 = some "signing failed" ∧
    ∃ out, RoundTrip failingSignEnv
        (.authTransport scenarioCredential (.external echoTransport)) sampleRequest = some out ∧
      out.resp = none ∧ out.err = some "signing failed" ∧
      out.trace = [.sign scenarioCredential.AccessKey scenarioCredential.SecretKey
                      (addAuthHeaders scenarioCredential sampleRequest),
                   .log ("[ERROR] error signing request: " ++ "signing failed")] ∧
      sentRequests out.trace = [] :=
  ⟨rfl, C1_sign_error_is_returned_without_forwarding failingSignEnv scenarioCredential
    (.external echoTransport) sampleRequest "signing failed" rfl⟩

/-- C2: `BuildWrappers` returns an error exactly when the credential has an empty
project id together with a non-empty access key or secret key, whatever the
`externalHeader` argument is; it returns a wrapper function exactly when it returns
no error. -/
theorem C2_BuildWrappers_error_iff_invalid (c : HuaweiCloudCredential)
    (externalHeader : Option ExternalHeaderTransport) :
    ((BuildWrappers c externalHeader).2.isSome ↔ c.Violates) ∧
    ((BuildWrappers c externalHeader).1.isSome ↔ (BuildWrappers c externalHeader).2 = none) := by
  rw [← validation_isSome_iff]
  cases hv : c.Validation with
  | some err => simp [BuildWrappers, hv]
  | none => cases externalHeader <;> simp [BuildWrappers, hv, Wrappers]

theorem foldl_set_other (f : String → String) (keys : List String) (h : Header) (k : String)
    (hk : k ∉ keys.map CanonicalMIMEHeaderKey) :
    (keys.foldl (fun acc key => acc.Set key (f key)) h) k = h k := by
  induction keys generalizing h with
  | nil => rfl
  | cons key rest ih =>
    simp only [List.map_cons, List.mem_cons, not_or] at hk
    simp only [List.foldl_cons]
    rw [ih _ hk.2]
    simp [Header.Set, hk.1]

theorem foldl_set_mem (f : String → String) (keys : List String) (h : Header) (key : String)
    (hnd : (keys.map CanonicalMIMEHeaderKey).Nodup) (hmem : key ∈ keys) :
    (keys.foldl (fun acc key => acc.Set key (f key)) h) (CanonicalMIMEHeaderKey key)
      = some [f key] := by
  induction keys generalizing h with
  | nil => cases hmem
  | cons key0 rest ih =>
    simp only [List.map_cons, List.nodup_cons] at hnd
    simp only [List.foldl_cons]
    rcases List.mem_cons.mp hmem with heq | hrest
    · subst heq
      rw [foldl_set_other f rest _ _ hnd.1]
      simp [Header.Set]
    · exact ih _ hnd.2 hrest

theorem index_of_mem (H : GoMap) (p : String × String) (hnd : (H.map (·.1)).Nodup)
    (hmem : p ∈ H) : GoMap.index H p.1 = p.2 := by
  induction H with
  | nil => cases hmem
  | cons q rest ih =>
    simp only [List.map_cons, List.nodup_cons] at hnd
    rcases List.mem_cons.mp hmem with heq | hrest
    · subst heq
      simp [GoMap.index]
    · have hne : q.1 ≠ p.1 := by
        intro h
        apply hnd.1
        rw [h]
        exact List.mem_map_of_mem _ hrest
      have := ih hnd.2 hrest
      simp only [GoMap.index] at this ⊢
      simp [List.find?_cons, hne, this]

theorem nodup_keys_of_canonical (H : GoMap)
    (hd : (H.map (fun p => CanonicalMIMEHeaderKey p.1)).Nodup) : (H.map (·.1)).Nodup := by
  have h : (H.map (fun p => CanonicalMIMEHeaderKey p.1))
      = (H.map (·.1)).map CanonicalMIMEHeaderKey := by simp
  rw [h] at hd
  exact List.Nodup.of_map _ hd

theorem roundTrip_log (env : Env) (name : String) (next : RoundTripper) (r : Request)
    (out : Outcome) (h : RoundTrip env next r = some out) :
    ∃ out1, RoundTrip env (.logTransport name next) r = some out1 ∧
      out1.resp = out.resp ∧ out1.err = out.err ∧
      sentRequests out1.trace = sentRequests out.trace := by
  have sent_append : ∀ a b : List Event, sentRequests (a ++ b) = sentRequests a ++ sentRequests b := by
    intro a b
    induction a with
    | nil => rfl
    | cons e es ih => cases e <;> simp [sentRequests, ih]
  cases herr : out.err with
  | some e =>
    simp only [RoundTrip, h, herr]
    refine ⟨_, rfl, rfl, rfl, ?_⟩
    by_cases hd : env.IsDebugOrHigher <;> simp [hd, sent_append, sentRequests]
  | none =>
    simp only [RoundTrip, h, herr]
    refine ⟨_, rfl, rfl, rfl, ?_⟩
    by_cases hd : env.IsDebugOrHigher <;> simp [hd, sent_append, sentRequests]

theorem roundTrip_auth (env : Env) (hcc : HuaweiCloudCredential) (next : RoundTripper)
    (r : Request) (out : Outcome)
    (hsign : (env.Sign hcc.AccessKey hcc.SecretKey (addAuthHeaders hcc r)).2 = none)
    (h : RoundTrip env next (env.Sign hcc.AccessKey hcc.SecretKey (addAuthHeaders hcc r)).1
      = some out) :
    ∃ out1, RoundTrip env (.authTransport hcc next) r = some out1 ∧
      out1.resp = out.resp ∧ out1.err = out.err ∧
      sentRequests out1.trace = sentRequests out.trace := by
  simp only [RoundTrip, h, hsign]
  exact ⟨_, rfl, rfl, rfl, by simp [sentRequests]⟩

/-- C3 (the code at the scenario of the specification): with the scenario credential
and the header set `X-Custom: v1`, the chain built by `BuildWrappers` sends exactly
one request to the base transport, and that request has no `X-Custom` value at all:
the header set is not applied. -/
theorem C3_external_headers_are_not_applied :
    ((buildChain scenarioCredential (NewExternalHeaderTransport [("X-Custom", "v1")])
        (.external echoTransport)).bind (fun chain => RoundTrip quietEnv chain sampleRequest)).map
      (fun out => (sentRequests out.trace).map (fun r => r.Header.Values "X-Custom"))
    = some [[]] := by
  decide

/-- C4: for a credential with empty project id that passes validation, the chain
`BuildWrappers(c, nil)(base)` is the log transport around the base; a round trip
never calls the signer and hands the base transport the incoming request itself, so
its headers, `X-Project-Id` and `X-Security-Token` included, are those it came with. -/
theorem C4_empty_project_id_chain_leaves_request_alone (env : Env) (c : HuaweiCloudCredential)
    (handle : Request → Option Response × Option GoError) (req : Request)
    (hp : c.ProjectId = "") (hv : c.Validation = none) :
    ∃ chain out, buildChain c none (.external handle) = some chain ∧
      RoundTrip env chain req = some out ∧
      signCalls out.trace = 0 ∧
      sentRequests out.trace = [req] ∧
      (∀ r ∈ sentRequests out.trace, r.Header = req.Header ∧
        r.Header.Values ProjectIdHeaderKey = req.Header.Values ProjectIdHeaderKey ∧
        r.Header.Values SecurityTokenHeaderKey = req.Header.Values SecurityTokenHeaderKey) := by
  have hchain := buildChain_none c (.external handle) hv
  rw [if_pos hp] at hchain
  cases herr : (handle req).2 with
  | some e =>
    refine ⟨_, _, hchain, by simp [RoundTrip, herr]; rfl, ?_, ?_, ?_⟩ <;>
      by_cases hd : env.IsDebugOrHigher <;> simp [hd, sentRequests, signCalls]
  | none =>
    refine ⟨_, _, hchain, by simp [RoundTrip, herr]; rfl, ?_, ?_, ?_⟩ <;>
      by_cases hd : env.IsDebugOrHigher <;> simp [hd, sentRequests, signCalls]

theorem C4_witness :
    anonymousCredential.ProjectId = "" ∧ anonymousCredential.Validation = none ∧
    ∃ chain out, buildChain anonymousCredential none (.external echoTransport) = some chain ∧
      RoundTrip failingSignEnv chain sampleRequest = some out ∧
      signCalls out.trace = 0 ∧
      sentRequests out.trace = [sampleRequest] ∧
      (∀ r ∈ sentRequests out.trace, r.Header = sampleRequest.Header ∧
        r.Header.Values ProjectIdHeaderKey = sampleRequest.Header.Values ProjectIdHeaderKey ∧
        r.Header.Values SecurityTokenHeaderKey
          = sampleRequest.Header.Values SecurityTokenHeaderKey) :=
  ⟨rfl, by decide, C4_empty_project_id_chain_leaves_request_alone failingSignEnv
    anonymousCredential echoTransport sampleRequest rfl (by decide)⟩

theorem roundTrip_chain (env : Env) (c : HuaweiCloudCredential)
    (handle : Request → Option Response × Option GoError) (req : Request)
    (hsign : c.ProjectId ≠ "" →
      (env.Sign c.AccessKey c.SecretKey (addAuthHeaders c req)).2 = none) :
    ∃ out r,
      RoundTrip env (if c.ProjectId = "" then .logTransport "Kubernetes" (.external handle)
        else .authTransport c (.logTransport "Kubernetes" (.external handle))) req = some out ∧
      sentRequests out.trace = [r] ∧ (out.resp, out.err) = handle r := by
  by_cases hp : c.ProjectId = ""
  · rw [if_pos hp]
    obtain ⟨out1, h1, hr, he, hs⟩ := roundTrip_log env "Kubernetes" (.external handle) req
      ⟨(handle req).1, (handle req).2, [.send req]⟩ rfl
    exact ⟨out1, req, h1, by rw [hs]; rfl, by rw [hr, he]⟩
  · rw [if_neg hp]
    obtain ⟨out1, h1, hr, he, hs⟩ := roundTrip_log env "Kubernetes" (.external handle)
      (env.Sign c.AccessKey c.SecretKey (addAuthHeaders c req)).1
      ⟨(handle _).1, (handle _).2, [.send _]⟩ rfl
    obtain ⟨out2, h2, hr2, he2, hs2⟩ := roundTrip_auth env c _ req out1 (hsign hp) h1
    exact ⟨out2, _, h2, by rw [hs2, hs]; rfl, by rw [hr2, he2, hr, he]⟩

/-- C5: for a valid credential, any header set, base transport, debug flag and
request for which the signer (when the chain has a signing node) does not fail, the
chain built by `BuildWrappers` hands exactly one request to the base transport and
returns exactly the pair the base transport returned for it; moreover each of
`LogTransport.RoundTrip`, `HuaweiCloudAuthTransport.RoundTrip` (after a successful
signing) and `ExternalHeaderTransport.RoundTrip` returns the response and the error
of its downstream node unchanged. -/
theorem C5_chain_returns_base_result (env : Env) (c : HuaweiCloudCredential) (H : GoMap)
    (handle : Request → Option Response × Option GoError) (req : Request)
    (hv : c.Validation = none)
    (hsign : c.ProjectId ≠ "" →
      (env.Sign c.AccessKey c.SecretKey (addAuthHeaders c req)).2 = none) :
    (∃ chain out r,
      buildChain c (NewExternalHeaderTransport H) (.external handle) = some chain ∧
      RoundTrip env chain req = some out ∧
      sentRequests out.trace = [r] ∧ (out.resp, out.err) = handle r) ∧
    (∀ (name : String) (next : RoundTripper) (r : Request) (out : Outcome),
      RoundTrip env next r = some out →
      ∃ out1, RoundTrip env (.logTransport name next) r = some out1 ∧
        out1.resp = out.resp ∧ out1.err = out.err) ∧
    (∀ (hcc : HuaweiCloudCredential) (next : RoundTripper) (r : Request) (out : Outcome),
      (env.Sign hcc.AccessKey hcc.SecretKey (addAuthHeaders hcc r)).2 = none →
      RoundTrip env next (env.Sign hcc.AccessKey hcc.SecretKey (addAuthHeaders hcc r)).1
        = some out →
      ∃ out1, RoundTrip env (.authTransport hcc next) r = some out1 ∧
        out1.resp = out.resp ∧ out1.err = out.err) ∧
    (∀ (e : ExternalHeaderTransport) (r : Request),
      RoundTrip env e.toRoundTripper r
        = RoundTrip env e.next { r with Header := setHeaders e.headers r.Header }) := by
  refine ⟨?_, ?_, ?_, ?_⟩
  · obtain ⟨out, r, h1, h2, h3⟩ := roundTrip_chain env c handle req hsign
    cases hH : NewExternalHeaderTransport H with
    | none => exact ⟨_, out, r, buildChain_none c _ hv, h1, h2, h3⟩
    | some e => exact ⟨_, out, r, buildChain_some c e _ hv, h1, h2, h3⟩
  · intro name next r out h
    obtain ⟨out1, h1, hr, he, _⟩ := roundTrip_log env name next r out h
    exact ⟨out1, h1, hr, he⟩
  · intro hcc next r out hs h
    obtain ⟨out1, h1, hr, he, _⟩ := roundTrip_auth env hcc next r out hs h
    exact ⟨out1, h1, hr, he⟩
  · intro e r
    simp [ExternalHeaderTransport.toRoundTripper, RoundTrip]

theorem C5_witness :
    scenarioCredential.Validation = none ∧
    (∃ chain out r,
      buildChain scenarioCredential (NewExternalHeaderTransport [("X-Custom", "v1")])
        (.external echoTransport) = some chain ∧
      RoundTrip quietEnv chain sampleRequest = some out ∧
      sentRequests out.trace = [r] ∧ (out.resp, out.err) = echoTransport r) :=
  ⟨by decide,
   (C5_chain_returns_base_result quietEnv scenarioCredential [("X-Custom", "v1")] echoTransport
      sampleRequest (by decide) (fun _ => rfl)).1⟩

/-- C9: for a valid credential the chain `BuildWrappers(c, nil)(base)` has the log
transport named "Kubernetes" directly around `base`; it is that log transport alone
when the project id is empty and `HuaweiCloudAuthTransport{hcc: c, next: LogTransport{base}}`
otherwise, and in the latter case the record written under debugging and the request
sent to the base are those of the request as the signer left it. -/
theorem C9_chain_nesting_order (c : HuaweiCloudCredential) (base : RoundTripper)
    (hv : c.Validation = none) :
    (c.ProjectId = "" → buildChain c none base = some (.logTransport "Kubernetes" base)) ∧
    (c.ProjectId ≠ "" →
      buildChain c none base = some (.authTransport c (.logTransport "Kubernetes" base))) ∧
    (∀ (env : Env) (handle : Request → Option Response × Option GoError) (req : Request),
      env.IsDebugOrHigher = true →
      (env.Sign c.AccessKey c.SecretKey (addAuthHeaders c req)).2 = none →
      ∃ out, RoundTrip env (.authTransport c (.logTransport "Kubernetes" (.external handle))) req
          = some out ∧
        out.trace.take 3 =
          [.sign c.AccessKey c.SecretKey (addAuthHeaders c req),
           .log (requestRecord env "Kubernetes"
             (env.Sign c.AccessKey c.SecretKey (addAuthHeaders c req)).1),
           .send (env.Sign c.AccessKey c.SecretKey (addAuthHeaders c req)).1]) := by
  refine ⟨?_, ?_, ?_⟩
  · intro hp
    rw [buildChain_none c base hv, if_pos hp]
  · intro hp
    rw [buildChain_none c base hv, if_neg hp]
  · intro env handle req hd hs
    cases herr : (handle (env.Sign c.AccessKey c.SecretKey (addAuthHeaders c req)).1).2 with
    | some e =>
      simp only [RoundTrip, hs, herr, hd]
      exact ⟨_, rfl, rfl⟩
    | none =>
      simp only [RoundTrip, hs, herr, hd]
      exact ⟨_, rfl, rfl⟩

theorem C9_witness :
    scenarioCredential.Validation = none ∧
    scenarioCredential.ProjectId ≠ "" ∧
    buildChain scenarioCredential none (.external echoTransport)
      = some (.authTransport scenarioCredential
          (.logTransport "Kubernetes" (.external echoTransport))) :=
  ⟨by decide, by decide,
   (C9_chain_nesting_order scenarioCredential (.external echoTransport) (by decide)).2.1
     (by decide)⟩

/-- C10 (as the code behaves): two names of the header set that differ only in
letter case are written to the same header, so one of the two pairs is not on the
forwarded request; shown for both iteration orders of the map
`x-a: 1, X-A: 2`. -/
theorem C10_names_differing_in_case_collide :
    ((RoundTrip quietEnv (.headerTransport [("x-a", "1"), ("X-A", "2")] (.external echoTransport))
        sampleRequest).map
      (fun out => (sentRequests out.trace).map (fun r => r.Header.Values "x-a")) = some [["2"]]) ∧
    ((RoundTrip quietEnv (.headerTransport [("X-A", "2"), ("x-a", "1")] (.external echoTransport))
        sampleRequest).map
      (fun out => (sentRequests out.trace).map (fun r => r.Header.Values "X-A")) = some [["1"]]) := by
  decide

/-- C10 (amended): for an `ExternalHeaderTransport` whose header names are pairwise
distinct after canonicalisation, `RoundTrip` returns whatever its downstream node
returns for one call with a request that differs from the incoming one in headers
only: every name of the header set has exactly the single value paired with it, and
every header that is not the canonical form of a name of the set is unchanged. -/
theorem C10_header_transport_overwrites (env : Env) (e : ExternalHeaderTransport)
    (req : Request)
    (hd : (e.headers.map (fun p => CanonicalMIMEHeaderKey p.1)).Nodup) :
    ∃ req1, RoundTrip env e.toRoundTripper req = RoundTrip env e.next req1 ∧
      req1.Method = req.Method ∧ req1.URL = req.URL ∧ req1.Body = req.Body ∧
      (∀ p ∈ e.headers, req1.Header.Values p.1 = [p.2]) ∧
      (∀ k, (∀ p ∈ e.headers, CanonicalMIMEHeaderKey p.1 ≠ k) → req1.Header k = req.Header k) := by
  refine ⟨{ req with Header := setHeaders e.headers req.Header }, ?_, rfl, rfl, rfl, ?_, ?_⟩
  · simp [ExternalHeaderTransport.toRoundTripper, RoundTrip]
  · intro p hp
    have hnd : ((e.headers.map (·.1)).map CanonicalMIMEHeaderKey).Nodup := by
      simpa using hd
    have hmem : p.1 ∈ e.headers.map (·.1) := List.mem_map_of_mem _ hp
    have h := foldl_set_mem (GoMap.index e.headers) (e.headers.map (·.1)) req.Header p.1 hnd hmem
    simp only [Header.Values, setHeaders]
    rw [h, index_of_mem e.headers p (nodup_keys_of_canonical e.headers hd) hp]
    rfl
  · intro k hk
    simp only [setHeaders]
    apply foldl_set_other
    intro hmem
    simp only [List.map_map, List.mem_map, Function.comp] at hmem
    obtain ⟨p, hp, hpk⟩ := hmem
    exact hk p hp hpk

theorem C10_witness :
    ((([("X-Custom", "v1"), ("accept", "json")] : GoMap).map
        (fun p => CanonicalMIMEHeaderKey p.1)).Nodup) ∧
    ∃ req1, RoundTrip quietEnv (ExternalHeaderTransport.toRoundTripper
          ⟨[("X-Custom", "v1"), ("accept", "json")], .external echoTransport⟩) sampleRequest
        = RoundTrip quietEnv (.external echoTransport) req1 ∧
      req1.Method = sampleRequest.Method ∧ req1.URL = sampleRequest.URL ∧
      req1.Body = sampleRequest.Body ∧
      (∀ p ∈ ([("X-Custom", "v1"), ("accept", "json")] : GoMap), req1.Header.Values p.1 = [p.2]) ∧
      (∀ k, (∀ p ∈ ([("X-Custom", "v1"), ("accept", "json")] : GoMap),
        CanonicalMIMEHeaderKey p.1 ≠ k) → req1.Header k = sampleRequest.Header k) :=
  ⟨by decide, C10_header_transport_overwrites quietEnv
    ⟨[("X-Custom", "v1"), ("accept", "json")], .external echoTransport⟩ sampleRequest (by decide)⟩

/-! ## Theorems: the replacement loop and the two patterns -/

theorem replaceAllAux_skip (r : Regex) (tmpl : List Piece) (a rest : List Char) :
    replaceAllAux r tmpl a.length (a.length == 0) (a ++ rest) = replaceAllAux r tmpl 0 true rest := by
  induction a with
  | nil => rfl
  | cons x a ih =>
    simp only [List.length_cons, List.cons_append]
    rw [replaceAllAux]
    exact ih

theorem replaceAllAux_no_match (r : Regex) (tmpl : List Piece) (b : Bool) (c : Char)
    (cs : List Char) (h : r.run (c :: cs) = []) :
    replaceAllAux r tmpl 0 b (c :: cs) = c :: replaceAllAux r tmpl 0 false cs := by
  rw [replaceAllAux]
  simp [Regex.matchAt, h]

theorem replaceAllAux_match (r : Regex) (tmpl : List Piece) (b : Bool) (s : List Char)
    (m : Match) (junk : List Match)
    (h : r.run s = m :: junk) (hne : m.consumed ≠ []) (hs : s = m.consumed ++ m.rest) :
    replaceAllAux r tmpl 0 b s = expand tmpl m ++ replaceAllAux r tmpl 0 true m.rest := by
  cases hc : m.consumed with
  | nil => exact absurd hc hne
  | cons c a =>
    rw [hc] at hs
    subst hs
    rw [List.cons_append, replaceAllAux]
    simp only [Regex.matchAt, ← List.cons_append, h, List.head?_cons, hc, List.length_cons]
    rw [replaceAllAux_skip]

theorem replaceAllAux_nil (r : Regex) (tmpl : List Piece) (b : Bool) (h : r.run [] = []) :
    replaceAllAux r tmpl 0 b [] = [] := by
  rw [replaceAllAux]
  simp [Regex.matchAt, h]

theorem starRuns_greedy_flatMap {β : Type} (p : Char → Bool) (w t : List Char)
    (hw : ∀ c ∈ w, p c = true) (ht : ∀ c cs, t = c :: cs → p c = false)
    (F : List Char × List Char → List β) :
    ∃ junk, (starRuns true p (w ++ t)).flatMap F = F (w, t) ++ junk := by
  induction w generalizing F with
  | nil =>
    cases t with
    | nil => exact ⟨[], by simp [starRuns]⟩
    | cons c cs => exact ⟨[], by simp [starRuns, ht c cs rfl]⟩
  | cons x w ih =>
    have hx : p x = true := hw x (List.mem_cons_self _ _)
    obtain ⟨junk, hj⟩ := ih (fun c hc => hw c (List.mem_cons_of_mem _ hc))
      (fun r => F (x :: r.1, r.2))
    refine ⟨junk ++ F ([], x :: (w ++ t)), ?_⟩
    simp only [List.cons_append, starRuns, hx, if_true, List.flatMap_append, List.flatMap_map,
      List.flatMap_cons, List.flatMap_nil, List.append_nil, List.append_eq]
    rw [hj]
    simp

theorem starRuns_lazy_flatMap {β : Type} (p : Char → Bool) (q : Char) (v r : List Char)
    (hv : ∀ c ∈ v, p c = true ∧ c ≠ q)
    (F : List Char × List Char → List β)
    (hF : ∀ a c t, c ≠ q → F (a, c :: t) = []) :
    ∃ junk, (starRuns false p (v ++ q :: r)).flatMap F = F (v, q :: r) ++ junk := by
  induction v generalizing F with
  | nil =>
    by_cases hq : p q = true
    · exact ⟨_, by simp [starRuns, hq]; rfl⟩
    · exact ⟨[], by simp [starRuns, hq]⟩
  | cons x v ih =>
    have hx := hv x (List.mem_cons_self _ _)
    obtain ⟨junk, hj⟩ := ih (fun c hc => hv c (List.mem_cons_of_mem _ hc))
      (fun r => F (x :: r.1, r.2)) (fun a c t hc => hF _ c t hc)
    refine ⟨junk, ?_⟩
    simp only [List.cons_append, starRuns, hx.1, if_true, Bool.false_eq_true, if_false,
      List.flatMap_cons, List.flatMap_map, hF [] x _ hx.2, List.nil_append, List.append_eq]
    exact hj

theorem starRuns_lazy_to_end {β : Type} (p : Char → Bool) (t : List Char)
    (ht : ∀ c ∈ t, p c = true)
    (F : List Char × List Char → List β)
    (hF : ∀ a c r, F (a, c :: r) = []) :
    (starRuns false p t).flatMap F = F (t, []) := by
  induction t generalizing F with
  | nil => simp [starRuns]
  | cons x t ih =>
    have hx := ht x (List.mem_cons_self _ _)
    have := ih (fun c hc => ht c (List.mem_cons_of_mem _ hc))
      (fun r => F (x :: r.1, r.2)) (fun a c r => hF _ c r)
    simp only [starRuns, hx, if_true, Bool.false_eq_true, if_false,
      List.flatMap_cons, List.flatMap_map, hF [] x _, List.nil_append, List.append_eq]
    exact this

theorem run_seq_group_star (n : Nat) (g : Bool) (p : Char → Bool) (b : Regex) (s : List Char) :
    (Regex.seq (.group n (.star g p)) b).run s
      = (starRuns g p s).flatMap (fun x =>
          (b.run x.2).map (fun m2 => ⟨x.1 ++ m2.consumed, m2.rest, (n, x.1) :: m2.caps⟩)) := by
  simp [Regex.run, List.flatMap_map]

theorem run_seq_star (g : Bool) (p : Char → Bool) (b : Regex) (s : List Char) :
    (Regex.seq (.star g p) b).run s
      = (starRuns g p s).flatMap (fun x =>
          (b.run x.2).map (fun m2 => ⟨x.1 ++ m2.consumed, m2.rest, m2.caps⟩)) := by
  simp [Regex.run, List.flatMap_map]

theorem run_seq_lit (c : Char) (b : Regex) (s : List Char) :
    (Regex.seq (.lit c) b).run (c :: s)
      = (b.run s).map (fun m2 => ⟨c :: m2.consumed, m2.rest, m2.caps⟩) := by
  simp [Regex.run]

theorem reg1Key_run (K : String) (hK : K ∈ sensitiveKeywords) (tail : List Char) :
    reg1Key.run ('"' :: (K.data ++ '"' :: tail))
      = [⟨'"' :: (K.data ++ ['"']), tail, [(1, '"' :: (K.data ++ ['"']))]⟩] := by
  simp only [sensitiveKeywords, List.mem_cons, List.mem_singleton, List.not_mem_nil, or_false] at hK
  rcases hK with h | h | h | h | h <;> subst h <;>
    simp [reg1Key, sensitiveKeywords, Regex.alts, Regex.ofString, Regex.run]

theorem reg2Key_run (K : String) (hK : K ∈ sensitiveKeywords) (tail : List Char) :
    reg2Key.run (K.data ++ ':' :: tail) = [⟨K.data, ':' :: tail, [(1, K.data)]⟩] := by
  simp only [sensitiveKeywords, List.mem_cons, List.mem_singleton, List.not_mem_nil, or_false] at hK
  rcases hK with h | h | h | h | h <;> subst h <;>
    simp [reg2Key, sensitiveKeywords, Regex.alts, Regex.ofString, Regex.run]

theorem reg1_run_of_ne_quote (c : Char) (cs : List Char) (h : c ≠ '"') :
    reg1.run (c :: cs) = [] := by
  simp [reg1, reg1Key, sensitiveKeywords, Regex.alts, Regex.ofString, Regex.run, h]

theorem reg1_run_nil : reg1.run [] = [] := by
  simp [reg1, reg1Key, sensitiveKeywords, Regex.alts, Regex.ofString, Regex.run]

theorem reg2_run_nil : reg2.run [] = [] := by
  simp [reg2, reg2Key, sensitiveKeywords, Regex.alts, Regex.ofString, Regex.run]

theorem value_run (v rest : List Char) (hv : ∀ c ∈ v, c ≠ '"' ∧ c ≠ '\n') :
    ∃ junk, (Regex.seq (.group 2 (.star false isAnyNotNL)) (.lit '"')).run (v ++ '"' :: rest)
      = ⟨v ++ ['"'], rest, [(2, v)]⟩ :: junk := by
  rw [run_seq_group_star]
  obtain ⟨junk, hj⟩ := starRuns_lazy_flatMap isAnyNotNL '"' v rest
    (fun c hc => ⟨by simp [isAnyNotNL, (hv c hc).2], (hv c hc).1⟩)
    (fun x => ((Regex.lit '"').run x.2).map
      (fun m2 => (⟨x.1 ++ m2.consumed, m2.rest, (2, x.1) :: m2.caps⟩ : Match)))
    (fun a c t hc => by simp [Regex.run, hc])
  rw [hj]
  exact ⟨junk, by simp [Regex.run]⟩

theorem reg1_run_quoted (K : String) (hK : K ∈ sensitiveKeywords) (w v rest : List Char)
    (hw : ∀ c ∈ w, isPerlSpace c = true) (hv : ∀ c ∈ v, c ≠ '"' ∧ c ≠ '\n') :
    ∃ junk, reg1.run ('"' :: (K.data ++ '"' :: ':' :: (w ++ '"' :: (v ++ '"' :: rest))))
      = ⟨'"' :: (K.data ++ '"' :: ':' :: (w ++ '"' :: (v ++ ['"']))), rest,
          [(1, '"' :: (K.data ++ ['"'])), (2, v)]⟩ :: junk := by
  obtain ⟨j1, h1⟩ := value_run v rest hv
  obtain ⟨j2, h2⟩ := starRuns_greedy_flatMap isPerlSpace w ('"' :: (v ++ '"' :: rest)) hw
    (fun c cs h => by cases h; rfl)
    (fun x => ((Regex.seq (.lit '"') (.seq (.group 2 (.star false isAnyNotNL)) (.lit '"'))).run
      x.2).map (fun m2 => (⟨x.1 ++ m2.consumed, m2.rest, m2.caps⟩ : Match)))
  unfold reg1
  rw [Regex.run, reg1Key_run K hK, List.flatMap_singleton, run_seq_lit, run_seq_star, h2]
  simp only [run_seq_lit, h1]
  exact ⟨_, by simp; rfl⟩

/-- The quoted pair is replaced as a whole by the quoted mask, whatever follows it. -/
theorem replace1_quoted (K : String) (hK : K ∈ sensitiveKeywords) (w v rest : List Char)
    (b : Bool)
    (hw : ∀ c ∈ w, isPerlSpace c = true) (hv : ∀ c ∈ v, c ≠ '"' ∧ c ≠ '\n') :
    replaceAllAux reg1 repl1 0 b ('"' :: (K.data ++ '"' :: ':' :: (w ++ '"' :: (v ++ '"' :: rest))))
      = '"' :: (K.data ++ '"' :: ':' :: ' ' :: '"' :: (mask ++ '"' :: replaceAllAux reg1 repl1 0 true rest)) := by
  obtain ⟨junk, h⟩ := reg1_run_quoted K hK w v rest hw hv
  rw [replaceAllAux_match reg1 repl1 b _ _ junk h (by simp) (by simp)]
  simp [expand, repl1, capture]

theorem replace2_masked (K : String) (hK : K ∈ sensitiveKeywords) :
    ReplaceAllString reg2 ('"' :: (K.data ++ '"' :: ':' :: ' ' :: '"' :: (mask ++ ['"']))) repl2
      = '"' :: (K.data ++ '"' :: ':' :: ' ' :: '"' :: (mask ++ ['"'])) := by
  simp only [sensitiveKeywords, List.mem_cons, List.mem_singleton, List.not_mem_nil, or_false] at hK
  rcases hK with h | h | h | h | h <;> subst h <;> decide


theorem ofString_run_mem (l s : List Char) (m : Match) (h : m ∈ (Regex.ofString l).run s) :
    m.consumed = l ∧ m.caps = [] ∧ s = l ++ m.rest := by
  induction l generalizing s m with
  | nil =>
    simp only [Regex.ofString, Regex.run, List.mem_singleton] at h
    subst h
    exact ⟨rfl, rfl, rfl⟩
  | cons c l ih =>
    cases s with
    | nil => simp [Regex.ofString, Regex.run] at h
    | cons x xs =>
      by_cases hx : x = c
      · subst hx
        simp only [Regex.ofString, run_seq_lit, List.mem_map] at h
        obtain ⟨m2, hm2, rfl⟩ := h
        obtain ⟨h1, h2, h3⟩ := ih xs m2 hm2
        exact ⟨by simp [h1], h2, by simp [← h3]⟩
      · simp [Regex.ofString, Regex.run, hx] at h

theorem run_group (n : Nat) (r : Regex) (s : List Char) :
    (Regex.group n r).run s
      = (r.run s).map (fun m => ⟨m.consumed, m.rest, (n, m.consumed) :: m.caps⟩) := by
  rw [Regex.run]

theorem run_seq (a b : Regex) (s : List Char) :
    (Regex.seq a b).run s
      = (a.run s).flatMap (fun m1 => (b.run m1.rest).map
          (fun m2 => ⟨m1.consumed ++ m2.consumed, m2.rest, m1.caps ++ m2.caps⟩)) := by
  rw [Regex.run]

theorem run_alt (a b : Regex) (s : List Char) :
    (Regex.alt a b).run s = a.run s ++ b.run s := by
  rw [Regex.run]

theorem alts_ofString_run_mem (l0 : List Char) (ls : List (List Char)) (s : List Char)
    (m : Match) (h : m ∈ (Regex.alts ((l0 :: ls).map Regex.ofString)).run s) :
    ∃ l ∈ l0 :: ls, m.consumed = l ∧ m.caps = [] ∧ s = l ++ m.rest := by
  induction ls generalizing l0 with
  | nil =>
    exact ⟨l0, List.mem_cons_self _ _, ofString_run_mem l0 s m h⟩
  | cons l1 ls ih =>
    simp only [List.map_cons, Regex.alts, run_alt, List.mem_append] at h
    rcases h with h | h
    · exact ⟨l0, List.mem_cons_self _ _, ofString_run_mem l0 s m h⟩
    · obtain ⟨l, hl, hm⟩ := ih l1 (by simpa using h)
      exact ⟨l, List.mem_cons_of_mem _ hl, hm⟩

theorem reg1Key_run_mem (s : List Char) (m : Match) (h : m ∈ reg1Key.run s) :
    ∃ K ∈ sensitiveKeywords, m.caps = [(1, '"' :: (K.data ++ ['"']))] := by
  have hmap : sensitiveKeywords.map (fun k => Regex.ofString ('"' :: (k.data ++ ['"'])))
      = (sensitiveKeywords.map (fun k => '"' :: (k.data ++ ['"']))).map Regex.ofString := by
    rw [List.map_map]
    rfl
  rw [reg1Key, run_group, hmap, List.mem_map] at h
  obtain ⟨m0, hm0, rfl⟩ := h
  obtain ⟨l, hl, h1, h2, _⟩ := alts_ofString_run_mem _ _ s m0 hm0
  have hl1 : l ∈ sensitiveKeywords.map (fun k => '"' :: (k.data ++ ['"'])) := hl
  rw [List.mem_map] at hl1
  obtain ⟨K, hK, rfl⟩ := hl1
  exact ⟨K, hK, by simp [h1, h2]⟩

theorem expand1_of_mem (s : List Char) (m : Match) (h : m ∈ reg1.run s) :
    ∃ K ∈ sensitiveKeywords,
      expand repl1 m = '"' :: (K.data ++ '"' :: ':' :: ' ' :: '"' :: (mask ++ ['"'])) := by
  rw [reg1, run_seq, List.mem_flatMap] at h
  obtain ⟨m1, hm1, h⟩ := h
  obtain ⟨K, hK, hcaps⟩ := reg1Key_run_mem s m1 hm1
  rw [List.mem_map] at h
  obtain ⟨m2, _, rfl⟩ := h
  exact ⟨K, hK, by simp [expand, repl1, capture, hcaps]⟩

theorem expand1_no_newline (s : List Char) (m : Match) (h : m ∈ reg1.run s) :
    '\n' ∉ expand repl1 m := by
  obtain ⟨K, hK, he⟩ := expand1_of_mem s m h
  rw [he]
  simp only [sensitiveKeywords, List.mem_cons, List.mem_singleton, List.not_mem_nil, or_false] at hK
  rcases hK with h | h | h | h | h <;> subst h <;> decide

theorem replace1_no_newline (s : List Char) (k : Nat) (b : Bool) (hs : '\n' ∉ s) :
    '\n' ∉ replaceAllAux reg1 repl1 k b s := by
  induction s generalizing k b with
  | nil =>
    rw [replaceAllAux]
    simp [Regex.matchAt, reg1_run_nil]
  | cons c cs ih =>
    have hc : '\n' ≠ c := fun h => hs (h ▸ List.mem_cons_self _ _)
    have hcs : '\n' ∉ cs := fun h => hs (List.mem_cons_of_mem _ h)
    cases k with
    | succ k =>
      rw [replaceAllAux]
      exact ih _ _ hcs
    | zero =>
      rw [replaceAllAux]
      cases hrun : reg1.run (c :: cs) with
      | nil =>
        simp only [Regex.matchAt, hrun, List.head?_nil, List.mem_cons, not_or]
        exact ⟨hc, ih _ _ hcs⟩
      | cons m junk =>
        have hm : m ∈ reg1.run (c :: cs) := by rw [hrun]; exact List.mem_cons_self _ _
        have he := expand1_no_newline _ m hm
        simp only [Regex.matchAt, hrun, List.head?_cons]
        cases hlen : m.consumed.length with
        | zero =>
          cases b <;> simp [he, hc, ih _ _ hcs]
        | succ n =>
          simp [he, ih _ _ hcs]

theorem replace1_of_no_quote (a s : List Char) (b : Bool) (ha : ∀ c ∈ a, c ≠ '"') :
    ∃ b1, replaceAllAux reg1 repl1 0 b (a ++ s) = a ++ replaceAllAux reg1 repl1 0 b1 s := by
  induction a generalizing b with
  | nil => exact ⟨b, rfl⟩
  | cons c a ih =>
    obtain ⟨b1, h1⟩ := ih false (fun x hx => ha x (List.mem_cons_of_mem _ hx))
    refine ⟨b1, ?_⟩
    rw [List.cons_append, replaceAllAux_no_match _ _ _ _ _
      (reg1_run_of_ne_quote c _ (ha c (List.mem_cons_self _ _))), h1]
    rfl

theorem dropWhile_head (p : Char → Bool) (u : List Char) :
    ∀ c cs, u.dropWhile p = c :: cs → p c = false := by
  induction u with
  | nil => intro c cs h; simp at h
  | cons x u ih =>
    intro c cs h
    by_cases hx : p x = true
    · simp only [List.dropWhile_cons, hx, if_true] at h
      exact ih c cs h
    · simp only [List.dropWhile_cons, hx, Bool.false_eq_true, if_false] at h
      cases h
      simpa using hx

theorem reg2_run_bare (K : String) (hK : K ∈ sensitiveKeywords) (u : List Char)
    (hu : '\n' ∉ u.dropWhile isPerlSpace) :
    ∃ junk, reg2.run (K.data ++ ':' :: u)
      = ⟨K.data ++ ':' :: u, [], [(1, K.data), (2, u.dropWhile isPerlSpace)]⟩ :: junk := by
  obtain ⟨j2, h2⟩ := starRuns_greedy_flatMap isPerlSpace (u.takeWhile isPerlSpace)
    (u.dropWhile isPerlSpace) (fun c hc => (List.mem_takeWhile_imp hc))
    (dropWhile_head isPerlSpace u)
    (fun x => ((Regex.seq (.group 2 (.star false isAnyNotNL)) .endText).run
      x.2).map (fun m2 => (⟨x.1 ++ m2.consumed, m2.rest, m2.caps⟩ : Match)))
  rw [List.takeWhile_append_dropWhile] at h2
  have h3 := starRuns_lazy_to_end isAnyNotNL (u.dropWhile isPerlSpace)
    (fun c hc => by
      have : c ≠ '\n' := fun h => hu (h ▸ hc)
      simp [isAnyNotNL, this])
    (fun x => (Regex.endText.run x.2).map
      (fun m2 => (⟨x.1 ++ m2.consumed, m2.rest, (2, x.1) :: m2.caps⟩ : Match)))
    (fun a c r => by simp [Regex.run])
  unfold reg2
  rw [Regex.run, reg2Key_run K hK, List.flatMap_singleton, run_seq_lit, run_seq_star, h2]
  simp only [run_seq_group_star, h3]
  simp only [Regex.run, List.map_cons, List.map_nil, List.append_nil, List.cons_append,
    List.nil_append, List.map_append, List.takeWhile_append_dropWhile]
  exact ⟨_, rfl⟩

theorem replace2_bare (K : String) (hK : K ∈ sensitiveKeywords) (u : List Char)
    (hu : '\n' ∉ u.dropWhile isPerlSpace) :
    ReplaceAllString reg2 (K.data ++ ':' :: u) repl2 = K.data ++ ':' :: ' ' :: mask := by
  obtain ⟨junk, h⟩ := reg2_run_bare K hK u hu
  unfold ReplaceAllString
  rw [replaceAllAux_match reg2 repl2 false _ _ junk h (by simp) (by simp),
    replaceAllAux_nil _ _ _ reg2_run_nil]
  simp [expand, repl2, capture]

theorem splitLines_of_no_newline (s : List Char) (hs : '\n' ∉ s) : splitLines s = [s] := by
  induction s with
  | nil => rfl
  | cons c cs ih =>
    have hc : c ≠ '\n' := fun h => hs (h ▸ List.mem_cons_self _ _)
    simp [splitLines, ih (fun h => hs (List.mem_cons_of_mem _ h)), hc]

theorem not_valid_bare (K : String) (hK : K ∈ sensitiveKeywords) (u : List Char) :
    Json.Valid (K.data ++ u) = false := by
  simp only [sensitiveKeywords, List.mem_cons, List.mem_singleton, List.not_mem_nil, or_false] at hK
  rcases hK with h | h | h | h | h <;> subst h <;> rfl


theorem removeSensitiveChars_quoted (K : String) (w v : List Char)
    (hK : K ∈ sensitiveKeywords) (hw : ∀ c ∈ w, isPerlSpace c = true)
    (hv : ∀ c ∈ v, c ≠ '"' ∧ c ≠ '\n') :
    removeSensitiveChars ('"' :: (K.data ++ '"' :: ':' :: (w ++ '"' :: (v ++ ['"']))))
      = '"' :: (K.data ++ '"' :: ':' :: ' ' :: '"' :: (mask ++ ['"'])) := by
  have h1 := replace1_quoted K hK w v [] false hw hv
  rw [replaceAllAux_nil _ _ _ reg1_run_nil] at h1
  unfold removeSensitiveChars
  simp only [ReplaceAllString, h1]
  exact replace2_masked K hK

theorem removeSensitiveChars_bare (K : String) (v : List Char)
    (hK : K ∈ sensitiveKeywords) (hv : '\n' ∉ v) :
    removeSensitiveChars (K.data ++ ':' :: ' ' :: v) = K.data ++ ':' :: ' ' :: mask := by
  have hKq : ∀ c ∈ K.data ++ [':', ' '], c ≠ '"' := by
    simp only [sensitiveKeywords, List.mem_cons, List.mem_singleton, List.not_mem_nil,
      or_false] at hK
    rcases hK with h | h | h | h | h <;> subst h <;> decide
  obtain ⟨b1, h1⟩ := replace1_of_no_quote (K.data ++ [':', ' ']) v false hKq
  have hnl := replace1_no_newline v 0 b1 hv
  unfold removeSensitiveChars
  have e1 : K.data ++ ':' :: ' ' :: v = (K.data ++ [':', ' ']) ++ v := by simp
  simp only [ReplaceAllString]
  rw [e1, h1]
  have e2 : (K.data ++ [':', ' ']) ++ replaceAllAux reg1 repl1 0 b1 v
      = K.data ++ ':' :: (' ' :: replaceAllAux reg1 repl1 0 b1 v) := by simp
  rw [e2]
  apply replace2_bare K hK
  intro hmem
  have := List.dropWhile_sublist isPerlSpace |>.subset hmem
  simp only [List.mem_cons] at this
  rcases this with h | h
  · exact absurd h (by decide)
  · exact hnl h

/-! ## Theorems: the JSON scanner inside a string -/

theorem doStep_inString (s : Scanner) (c : Char) (hs : s.step = .stateInString)
    (hc : plainChar c) : s.doStep c = (.scanContinue, s) := by
  obtain ⟨h1, h2, h3⟩ := hc
  unfold Scanner.doStep
  rw [hs]
  simp [stateInString, h1, h2, Nat.not_lt.mpr h3]

theorem checkValid_inString (s : Scanner) (v rest : List Char) (hs : s.step = .stateInString)
    (hv : ∀ c ∈ v, plainChar c) : checkValid s (v ++ rest) = checkValid s rest := by
  induction v with
  | nil => rfl
  | cons c v ih =>
    rw [List.cons_append, checkValid, doStep_inString s c hs (hv c (List.mem_cons_self _ _))]
    exact ih (fun x hx => hv x (List.mem_cons_of_mem _ hx))

theorem indentLoop_inString (pfx indent : List Char) (s : Scanner) (d : Int)
    (v rest : List Char) (hs : s.step = .stateInString) (hv : ∀ c ∈ v, plainChar c) :
    indentLoop pfx indent s false d (v ++ rest)
      = (v ++ (indentLoop pfx indent s false d rest).1,
         (indentLoop pfx indent s false d rest).2) := by
  induction v with
  | nil => rfl
  | cons c v ih =>
    rw [List.cons_append, indentLoop, doStep_inString s c hs (hv c (List.mem_cons_self _ _))]
    simp [ih (fun x hx => hv x (List.mem_cons_of_mem _ hx))]


theorem plain_no_newline (v : List Char) (hv : ∀ c ∈ v, plainChar c) : '\n' ∉ v := by
  intro h
  have := (hv _ h).2.2
  revert this
  decide

theorem plain_no_quote_newline (v : List Char) (hv : ∀ c ∈ v, plainChar c) :
    ∀ c ∈ v, c ≠ '"' ∧ c ≠ '\n' := by
  intro c hc
  refine ⟨(hv c hc).1, ?_⟩
  intro h
  subst h
  exact plain_no_newline v hv hc

/-! ## Theorems: objects with string members -/

theorem intercalate_cons_cons {α : Type} (sep a b : List α) (l : List (List α)) :
    List.intercalate sep (a :: b :: l) = a ++ sep ++ List.intercalate sep (b :: l) := by
  simp [List.intercalate, List.intersperse]

theorem intercalate_singleton' {α : Type} (sep a : List α) :
    List.intercalate sep [a] = a := by
  simp [List.intercalate, List.intersperse]

theorem checkValid_memberTail (m : Member) (hm : plainMember m) (rest : List Char) :
    checkValid inKey (compactMemberTail m ++ rest) = checkValid afterValue rest := by
  unfold compactMemberTail
  rw [List.append_assoc, checkValid_inString inKey m.1 _ rfl hm.1]
  show checkValid inValue (m.2 ++ ['"'] ++ rest) = _
  rw [List.append_assoc, checkValid_inString inValue m.2 _ rfl hm.2]
  rfl

theorem checkValid_members (m : Member) (ms : List Member)
    (hm : ∀ x ∈ m :: ms, plainMember x) :
    checkValid inKey (compactMemberTail m ++
      ((ms.map (fun x => ',' :: compactMember x)).flatten ++ ['}'])) = true := by
  induction ms generalizing m with
  | nil =>
    rw [checkValid_memberTail m (hm m (List.mem_cons_self _ _))]
    rfl
  | cons m1 ms ih =>
    rw [checkValid_memberTail m (hm m (List.mem_cons_self _ _))]
    have := ih m1 (fun x hx => hm x (List.mem_cons_of_mem _ hx))
    simp only [List.map_cons, List.flatten_cons, compactMember, List.cons_append,
      List.append_assoc]
    exact this

theorem intercalate_eq_flatten (sep : List Char) (a : List Char) (l : List (List Char)) :
    List.intercalate sep (a :: l) = a ++ (l.map (fun x => sep ++ x)).flatten := by
  induction l generalizing a with
  | nil => simp [intercalate_singleton']
  | cons b l ih =>
    rw [intercalate_cons_cons, ih b]
    simp

theorem compactObject_cons (m : Member) (ms : List Member) :
    compactObject (m :: ms) = '{' :: '"' :: (compactMemberTail m ++
      ((ms.map (fun x => ',' :: compactMember x)).flatten ++ ['}'])) := by
  simp [compactObject, intercalate_eq_flatten, compactMember, List.map_map, Function.comp_def]

theorem valid_compactObject (m : Member) (ms : List Member)
    (hm : ∀ x ∈ m :: ms, plainMember x) : Valid (compactObject (m :: ms)) = true := by
  rw [compactObject_cons]
  exact checkValid_members m ms hm


theorem indentLoop_memberTail (m : Member) (hm : plainMember m) (rest : List Char) :
    indentLoop [] [' '] inKey false 1 (compactMemberTail m ++ rest)
      = (m.1 ++ '"' :: ':' :: ' ' :: '"' :: (m.2 ++ '"' ::
          (indentLoop [] [' '] afterValue false 1 rest).1),
         (indentLoop [] [' '] afterValue false 1 rest).2) := by
  unfold compactMemberTail
  rw [List.append_assoc, indentLoop_inString [] [' '] inKey 1 m.1 _ rfl hm.1]
  have h2 := indentLoop_inString [] [' '] inValue 1 m.2 ('"' :: rest) rfl hm.2
  have e : indentLoop [] [' '] inKey false 1 (('"' :: ':' :: '"' :: (m.2 ++ ['"'])) ++ rest)
      = ('"' :: ':' :: ' ' :: '"' :: (indentLoop [] [' '] inValue false 1 (m.2 ++ '"' :: rest)).1,
         (indentLoop [] [' '] inValue false 1 (m.2 ++ '"' :: rest)).2) := by
    simp only [List.cons_append, List.append_assoc, List.nil_append]
    rfl
  rw [e, h2]
  have e2 : indentLoop [] [' '] inValue false 1 ('"' :: rest)
      = ('"' :: (indentLoop [] [' '] afterValue false 1 rest).1,
         (indentLoop [] [' '] afterValue false 1 rest).2) := rfl
  rw [e2]

theorem indentLoop_members (m : Member) (ms : List Member)
    (hm : ∀ x ∈ m :: ms, plainMember x) :
    indentLoop [] [' '] inKey false 1 (compactMemberTail m ++
        ((ms.map (fun x => ',' :: compactMember x)).flatten ++ ['}']))
      = (m.1 ++ '"' :: ':' :: ' ' :: '"' :: (m.2 ++ '"' ::
          ((ms.map (fun x => ',' :: '\n' :: ' ' :: indentedMember x)).flatten ++ ['\n', '}'])),
         ⟨.stateEndTop, [], true, false⟩) := by
  induction ms generalizing m with
  | nil =>
    rw [indentLoop_memberTail m (hm m (List.mem_cons_self _ _))]
    rfl
  | cons m1 ms ih =>
    rw [indentLoop_memberTail m (hm m (List.mem_cons_self _ _))]
    have h1 := ih m1 (fun x hx => hm x (List.mem_cons_of_mem _ hx))
    have e : ∀ xs : List Char, indentLoop [] [' '] afterValue false 1 (',' :: '"' :: xs)
        = (',' :: '\n' :: ' ' :: '"' :: (indentLoop [] [' '] inKey false 1 xs).1,
           (indentLoop [] [' '] inKey false 1 xs).2) := fun xs => rfl
    simp only [List.map_cons, List.flatten_cons, List.cons_append, List.append_assoc]
    rw [show compactMember m1 = '"' :: compactMemberTail m1 from rfl]
    simp only [List.cons_append, e, h1]
    simp [indentedMember]

theorem indentedObject_cons (m : Member) (ms : List Member) :
    indentedObject (m :: ms) = '{' :: '\n' :: ' ' :: '"' :: (m.1 ++ '"' :: ':' :: ' ' :: '"' ::
      (m.2 ++ '"' ::
        ((ms.map (fun x => ',' :: '\n' :: ' ' :: indentedMember x)).flatten ++ ['\n', '}']))) := by
  simp [indentedObject, intercalate_eq_flatten, indentedMember, List.map_map, Function.comp_def]

theorem indent_compactObject (m : Member) (ms : List Member)
    (hm : ∀ x ∈ m :: ms, plainMember x) :
    Indent (compactObject (m :: ms)) [] [' '] = indentedObject (m :: ms) := by
  have e : ∀ xs : List Char, indentLoop [] [' '] Scanner.reset false 0 ('{' :: '"' :: xs)
      = ('{' :: '\n' :: ' ' :: '"' :: (indentLoop [] [' '] inKey false 1 xs).1,
         (indentLoop [] [' '] inKey false 1 xs).2) := fun xs => rfl
  rw [compactObject_cons, indentedObject_cons]
  unfold Indent
  rw [e, indentLoop_members m ms hm]
  rfl

theorem append_cons_inj (q : Char) (a b x y : List Char) (ha : q ∉ a) (hb : q ∉ b)
    (h : a ++ q :: x = b ++ q :: y) : a = b ∧ x = y := by
  induction a generalizing b with
  | nil =>
    cases b with
    | nil => simpa using h
    | cons c b =>
      simp only [List.nil_append, List.cons_append, List.cons.injEq] at h
      exact absurd (h.1 ▸ List.mem_cons_self _ _) hb
  | cons c a ih =>
    cases b with
    | nil =>
      simp only [List.nil_append, List.cons_append, List.cons.injEq] at h
      exact absurd (h.1 ▸ List.mem_cons_self _ _) ha
    | cons d b =>
      simp only [List.cons_append, List.cons.injEq] at h
      obtain ⟨h1, h2⟩ := ih b (fun hh => ha (List.mem_cons_of_mem _ hh))
        (fun hh => hb (List.mem_cons_of_mem _ hh)) h.2
      exact ⟨by rw [h.1, h1], h2⟩

theorem run_seq_lit_mem (c : Char) (b : Regex) (t : List Char) (m : Match)
    (h : m ∈ (Regex.seq (.lit c) b).run t) : ∃ t1, t = c :: t1 := by
  cases t with
  | nil => simp [Regex.run] at h
  | cons x xs =>
    by_cases hx : x = c
    · exact ⟨xs, by rw [hx]⟩
    · simp [Regex.run, hx] at h

theorem keyword_no_quote (K : String) (hK : K ∈ sensitiveKeywords) : '"' ∉ K.data := by
  simp only [sensitiveKeywords, List.mem_cons, List.mem_singleton, List.not_mem_nil, or_false] at hK
  rcases hK with h | h | h | h | h <;> subst h <;> decide

/-- A match of the quoted pattern starts with a quoted keyword and a colon. -/
theorem reg1_run_shape (s : List Char) (m : Match) (h : m ∈ reg1.run s) :
    ∃ K ∈ sensitiveKeywords, ∃ r, s = '"' :: (K.data ++ '"' :: ':' :: r) := by
  rw [reg1, run_seq, List.mem_flatMap] at h
  obtain ⟨m1, hm1, h⟩ := h
  rw [List.mem_map] at h
  obtain ⟨m2, hm2, _⟩ := h
  obtain ⟨r, hr⟩ := run_seq_lit_mem _ _ _ m2 hm2
  have hmap : sensitiveKeywords.map (fun k => Regex.ofString ('"' :: (k.data ++ ['"'])))
      = (sensitiveKeywords.map (fun k => '"' :: (k.data ++ ['"']))).map Regex.ofString := by
    rw [List.map_map]
    rfl
  rw [reg1Key, run_group, hmap, List.mem_map] at hm1
  obtain ⟨m0, hm0, rfl⟩ := hm1
  obtain ⟨l, hl, _, _, hs⟩ := alts_ofString_run_mem _ _ s m0 hm0
  have hl1 : l ∈ sensitiveKeywords.map (fun k => '"' :: (k.data ++ ['"'])) := hl
  rw [List.mem_map] at hl1
  obtain ⟨K, hK, rfl⟩ := hl1
  refine ⟨K, hK, r, ?_⟩
  rw [hs]
  simp only at hr
  rw [hr]
  simp

theorem reg1_run_other_key (k rest : List Char) (hq : '"' ∉ k)
    (hk : k ∉ sensitiveKeywords.map String.data) :
    reg1.run ('"' :: (k ++ '"' :: rest)) = [] := by
  rw [List.eq_nil_iff_forall_not_mem]
  intro m hm
  obtain ⟨K, hK, r, hs⟩ := reg1_run_shape _ m hm
  simp only [List.cons.injEq, true_and] at hs
  obtain ⟨h1, _⟩ := append_cons_inj '"' k K.data _ _ hq (keyword_no_quote K hK) hs
  exact hk (h1 ▸ List.mem_map_of_mem _ hK)

theorem reg1_run_no_colon (v rest : List Char) (c : Char) (hq : '"' ∉ v) (hc : c ≠ ':') :
    reg1.run ('"' :: (v ++ '"' :: c :: rest)) = [] := by
  rw [List.eq_nil_iff_forall_not_mem]
  intro m hm
  obtain ⟨K, hK, r, hs⟩ := reg1_run_shape _ m hm
  simp only [List.cons.injEq, true_and] at hs
  obtain ⟨_, h2⟩ := append_cons_inj '"' v K.data _ _ hq (keyword_no_quote K hK) hs
  simp only [List.cons.injEq] at h2
  exact hc h2.1


theorem reg1_run_no_key (c : Char) (rest : List Char) (hc : c ∉ ['A', 'X', 's', 'd']) :
    reg1.run ('"' :: c :: rest) = [] := by
  rw [List.eq_nil_iff_forall_not_mem]
  intro m hm
  obtain ⟨K, hK, r, hs⟩ := reg1_run_shape _ m hm
  simp only [List.cons.injEq, true_and] at hs
  simp only [sensitiveKeywords, List.mem_cons, List.mem_singleton, List.not_mem_nil, or_false] at hK
  rcases hK with h | h | h | h | h <;> subst h <;>
    · simp only [String.data, List.cons_append, List.cons.injEq] at hs
      rw [hs.1] at hc
      exact hc (by decide)

theorem plain_no_quote (v : List Char) (hv : ∀ c ∈ v, plainChar c) : '"' ∉ v :=
  fun h => (hv _ h).1 rfl

theorem mask_plain : ∀ c ∈ mask, plainChar c := by decide

theorem replace1_member (m : Member) (hm : plainMember m) (b : Bool) (c : Char)
    (rest : List Char) (hc : c = ',' ∨ c = '\n') :
    ∃ b1, replaceAllAux reg1 repl1 0 b (indentedMember m ++ c :: rest)
      = indentedMember (maskMember m) ++ replaceAllAux reg1 repl1 0 b1 (c :: rest) := by
  have hcc : c ≠ ':' ∧ c ∉ ['A', 'X', 's', 'd'] := by
    rcases hc with h | h <;> subst h <;> decide
  by_cases hk : m.1 ∈ sensitiveKeywords.map String.data
  · obtain ⟨K, hK, hKd⟩ := List.mem_map.mp hk
    have h := replace1_quoted K hK [' '] m.2 (c :: rest) b (by decide)
      (plain_no_quote_newline m.2 hm.2)
    have hmask : maskMember m = (m.1, mask) := by simp [maskMember, hk]
    refine ⟨true, ?_⟩
    rw [hmask]
    simp only [indentedMember, ← hKd, List.cons_append,
      List.append_assoc, List.singleton_append, List.nil_append] at h ⊢
    exact h
  · have hq1 := plain_no_quote m.1 hm.1
    have hq2 := plain_no_quote m.2 hm.2
    obtain ⟨b1, h1⟩ := replace1_of_no_quote m.1
      ('"' :: ':' :: ' ' :: '"' :: (m.2 ++ '"' :: c :: rest)) false
      (fun x hx => fun h => hq1 (h ▸ hx))
    obtain ⟨b2, h2⟩ := replace1_of_no_quote [':', ' ']
      ('"' :: (m.2 ++ '"' :: c :: rest)) false (by decide)
    obtain ⟨b3, h3⟩ := replace1_of_no_quote m.2 ('"' :: c :: rest) false
      (fun x hx => fun h => hq2 (h ▸ hx))
    refine ⟨false, ?_⟩
    simp only [maskMember, hk, if_false, indentedMember, List.cons_append, List.append_assoc,
      List.nil_append]
    rw [replaceAllAux_no_match _ _ _ _ _ (reg1_run_other_key m.1 _ hq1 hk), h1,
      replaceAllAux_no_match _ _ _ _ _ (reg1_run_no_key ':' _ (by decide))]
    simp only [List.cons_append, List.nil_append] at h2
    rw [h2, replaceAllAux_no_match _ _ _ _ _ (reg1_run_no_colon m.2 _ c hq2 hcc.1), h3,
      replaceAllAux_no_match _ _ _ _ _ (reg1_run_no_key c _ hcc.2)]

theorem replace1_members (m : Member) (ms : List Member)
    (hm : ∀ x ∈ m :: ms, plainMember x) (b : Bool) :
    replaceAllAux reg1 repl1 0 b (indentedMember m ++
        ((ms.map (fun x => ',' :: '\n' :: ' ' :: indentedMember x)).flatten ++ ['\n', '}']))
      = indentedMember (maskMember m) ++
        (((ms.map maskMember).map (fun x => ',' :: '\n' :: ' ' :: indentedMember x)).flatten
          ++ ['\n', '}']) := by
  induction ms generalizing m b with
  | nil =>
    obtain ⟨b1, h1⟩ := replace1_member m (hm m (List.mem_cons_self _ _)) b '\n' ['}']
      (Or.inr rfl)
    have htail : replaceAllAux reg1 repl1 0 b1 ['\n', '}'] = ['\n', '}'] := by
      cases b1 <;> decide
    simp only [List.map_nil, List.flatten_nil, List.nil_append]
    rw [h1, htail]
  | cons m1 ms ih =>
    have ih1 := ih m1 (fun x hx => hm x (List.mem_cons_of_mem _ hx))
    simp only [List.map_cons, List.flatten_cons, List.cons_append, List.append_assoc]
    obtain ⟨b1, h1⟩ := replace1_member m (hm m (List.mem_cons_self _ _)) b ','
      ('\n' :: ' ' :: (indentedMember m1 ++
        ((ms.map (fun x => ',' :: '\n' :: ' ' :: indentedMember x)).flatten ++ ['\n', '}'])))
      (Or.inl rfl)
    obtain ⟨b2, h2⟩ := replace1_of_no_quote [',', '\n', ' '] (indentedMember m1 ++
        ((ms.map (fun x => ',' :: '\n' :: ' ' :: indentedMember x)).flatten ++ ['\n', '}'])) b1
      (by decide)
    simp only [List.cons_append, List.nil_append] at h2
    rw [h1, h2, ih1 b2]


theorem starRuns_mem (g : Bool) (p : Char → Bool) (u : List Char) (x : List Char × List Char)
    (h : x ∈ starRuns g p u) : u = x.1 ++ x.2 ∧ ∀ c ∈ x.1, p c = true := by
  induction u generalizing x with
  | nil =>
    simp only [starRuns, List.mem_singleton] at h
    subst h
    exact ⟨rfl, by simp⟩
  | cons c cs ih =>
    have hbase : x = ([], c :: cs) → (c :: cs = x.1 ++ x.2 ∧ ∀ c ∈ x.1, p c = true) := by
      intro hx
      subst hx
      exact ⟨rfl, by simp⟩
    have hmore : p c = true → x ∈ (starRuns g p cs).map (fun r => (c :: r.1, r.2)) →
        (c :: cs = x.1 ++ x.2 ∧ ∀ c ∈ x.1, p c = true) := by
      intro hp hx
      obtain ⟨y, hy, rfl⟩ := List.mem_map.mp hx
      obtain ⟨h1, h2⟩ := ih y hy
      refine ⟨by simp [← h1], ?_⟩
      intro d hd
      rcases List.mem_cons.mp hd with h | h
      · rw [h]; exact hp
      · exact h2 d h
    by_cases hp : p c = true
    · cases g
      · simp only [starRuns, hp, if_true, Bool.false_eq_true, if_false, List.mem_cons] at h
        exact h.elim hbase (hmore hp)
      · simp only [starRuns, hp, if_true, List.mem_append, List.mem_singleton] at h
        exact h.elim (hmore hp) hbase
    · simp only [starRuns, hp, Bool.false_eq_true, if_false, List.mem_singleton] at h
      exact hbase h

/-- A match of the bare pattern starts with a keyword and a colon, followed by white
space and then text without newline up to the end. -/
theorem reg2_run_shape (s : List Char) (m : Match) (h : m ∈ reg2.run s) :
    ∃ K ∈ sensitiveKeywords, ∃ w t, s = K.data ++ ':' :: (w ++ t) ∧
      (∀ c ∈ w, isPerlSpace c = true) ∧ '\n' ∉ t := by
  rw [reg2, run_seq, List.mem_flatMap] at h
  obtain ⟨m1, hm1, h⟩ := h
  rw [List.mem_map] at h
  obtain ⟨m2, hm2, _⟩ := h
  obtain ⟨r, hr⟩ := run_seq_lit_mem _ _ _ m2 hm2
  rw [hr, run_seq_lit, List.mem_map] at hm2
  obtain ⟨m3, hm3, _⟩ := hm2
  rw [run_seq_star, List.mem_flatMap] at hm3
  obtain ⟨x, hx, hm3⟩ := hm3
  obtain ⟨hx1, hx2⟩ := starRuns_mem _ _ _ x hx
  rw [List.mem_map] at hm3
  obtain ⟨m4, hm4, _⟩ := hm3
  rw [run_seq_group_star, List.mem_flatMap] at hm4
  obtain ⟨y, hy, hm4⟩ := hm4
  obtain ⟨hy1, hy2⟩ := starRuns_mem _ _ _ y hy
  rw [List.mem_map] at hm4
  obtain ⟨m5, hm5, _⟩ := hm4
  have hy0 : y.2 = [] := by
    cases hy2' : y.2 with
    | nil => rfl
    | cons c cs => rw [hy2'] at hm5; simp [Regex.run] at hm5
  have hmap : sensitiveKeywords.map (fun k => Regex.ofString k.data)
      = (sensitiveKeywords.map String.data).map Regex.ofString := by
    rw [List.map_map]
    rfl
  rw [reg2Key, run_group, hmap, List.mem_map] at hm1
  obtain ⟨m0, hm0, rfl⟩ := hm1
  obtain ⟨l, hl, _, _, hs⟩ := alts_ofString_run_mem _ _ s m0 hm0
  have hl1 : l ∈ sensitiveKeywords.map String.data := hl
  rw [List.mem_map] at hl1
  obtain ⟨K, hK, rfl⟩ := hl1
  refine ⟨K, hK, x.1, y.1, ?_, hx2, ?_⟩
  · rw [hs]
    simp only at hr
    rw [hr, hx1, hy1, hy0, List.append_nil]
  · intro hmem
    have := hy2 _ hmem
    simp [isAnyNotNL] at this

theorem keyword_colon_no_quote (K : String) (hK : K ∈ sensitiveKeywords) :
    '"' ∉ K.data ++ [':'] := by
  simp only [sensitiveKeywords, List.mem_cons, List.mem_singleton, List.not_mem_nil, or_false] at hK
  rcases hK with h | h | h | h | h <;> subst h <;> decide

/-- The bare pattern does not match a text in which a double quote is followed,
anywhere later, by a newline. -/
theorem reg2_run_nil_of_quote_newline (a b : List Char) (hb : '\n' ∈ b) :
    reg2.run (a ++ '"' :: b) = [] := by
  rw [List.eq_nil_iff_forall_not_mem]
  intro m hm
  obtain ⟨K, hK, w, t, hs, hw, ht⟩ := reg2_run_shape _ m hm
  have hs1 : a ++ '"' :: b = (K.data ++ ':' :: w) ++ t := by rw [hs]; simp
  rcases List.append_eq_append_iff.mp hs1 with ⟨a1, h1, h2⟩ | ⟨c1, _, h2⟩
  · cases a1 with
    | nil =>
      simp only [List.nil_append] at h2
      exact ht (h2 ▸ List.mem_cons_of_mem _ hb)
    | cons x a1 =>
      simp only [List.cons_append, List.cons.injEq] at h2
      have hx : '"' ∈ K.data ++ ':' :: w := by
        rw [h1, ← h2.1]
        simp
      have hx1 : '"' ∈ (K.data ++ [':']) ++ w := by simpa using hx
      rcases List.mem_append.mp hx1 with h | h
      · exact keyword_colon_no_quote K hK h
      · have := hw _ h
        revert this
        decide
  · apply ht
    rw [h2]
    simp [hb]

theorem replace2_id (X : List Char) (b : Bool) :
    replaceAllAux reg2 repl2 0 b (X ++ ['"', '\n', '}']) = X ++ ['"', '\n', '}'] := by
  induction X generalizing b with
  | nil => cases b <;> decide
  | cons c X ih =>
    have h := reg2_run_nil_of_quote_newline (c :: X) ['\n', '}'] (by decide)
    rw [List.cons_append] at h
    rw [List.cons_append, replaceAllAux_no_match _ _ _ _ _ h, ih]

theorem members_end (m : Member) (ms : List Member) :
    ∃ X, indentedMember m ++
        ((ms.map (fun x => ',' :: '\n' :: ' ' :: indentedMember x)).flatten ++ ['\n', '}'])
      = X ++ ['"', '\n', '}'] := by
  induction ms generalizing m with
  | nil => exact ⟨'"' :: (m.1 ++ '"' :: ':' :: ' ' :: '"' :: m.2), by simp [indentedMember]⟩
  | cons m1 ms ih =>
    obtain ⟨X, hX⟩ := ih m1
    refine ⟨indentedMember m ++ ',' :: '\n' :: ' ' :: X, ?_⟩
    simp only [List.map_cons, List.flatten_cons, List.cons_append, List.append_assoc] at hX ⊢
    rw [hX]

theorem indentedObject_cons1 (m : Member) (ms : List Member) :
    indentedObject (m :: ms) = '{' :: '\n' :: ' ' :: (indentedMember m ++
        ((ms.map (fun x => ',' :: '\n' :: ' ' :: indentedMember x)).flatten ++ ['\n', '}'])) := by
  rw [indentedObject_cons]
  simp [indentedMember]

theorem removeSensitiveChars_indentedObject (m : Member) (ms : List Member)
    (hm : ∀ x ∈ m :: ms, plainMember x) :
    removeSensitiveChars (indentedObject (m :: ms))
      = indentedObject ((m :: ms).map maskMember) := by
  obtain ⟨X, hX⟩ := members_end (maskMember m) (ms.map maskMember)
  unfold removeSensitiveChars
  simp only [ReplaceAllString, List.map_cons]
  rw [indentedObject_cons1, indentedObject_cons1,
    replaceAllAux_no_match _ _ _ _ _ (reg1_run_of_ne_quote _ _ (by decide)),
    replaceAllAux_no_match _ _ _ _ _ (reg1_run_of_ne_quote _ _ (by decide)),
    replaceAllAux_no_match _ _ _ _ _ (reg1_run_of_ne_quote _ _ (by decide)),
    replace1_members m ms hm, hX]
  exact replace2_id ('{' :: '\n' :: ' ' :: X) false

theorem compactObject_no_newline (m : Member) (ms : List Member)
    (hm : ∀ x ∈ m :: ms, plainMember x) : '\n' ∉ compactObject (m :: ms) := by
  have hmem : ∀ x : Member, plainMember x → '\n' ∉ compactMemberTail x := by
    intro x hx
    have h1 := plain_no_newline x.1 hx.1
    have h2 := plain_no_newline x.2 hx.2
    simp [compactMemberTail, h1, h2]
  rw [compactObject_cons]
  have h0 := hmem m (hm m (List.mem_cons_self _ _))
  simp only [List.mem_cons, List.mem_append, List.mem_flatten, List.mem_map, not_or]
  refine ⟨by decide, by decide, h0, ?_, by simp⟩
  rintro ⟨l, ⟨x, hx, rfl⟩, hl⟩
  have h1 := hmem x (hm x (List.mem_cons_of_mem _ hx))
  simp only [compactMember, List.mem_cons] at hl
  rcases hl with h | h | h
  · exact absurd h (by decide)
  · exact absurd h (by decide)
  · exact h1 h

theorem prettyPrint_compactObject (ms : List Member) (hne : ms ≠ [])
    (hm : ∀ x ∈ ms, plainMember x) :
    prettyPrintJsonLinesChars (compactObject ms) = indentedObject (ms.map maskMember) := by
  cases ms with
  | nil => exact absurd rfl hne
  | cons m ms =>
    unfold prettyPrintJsonLinesChars
    rw [splitLines_of_no_newline _ (compactObject_no_newline m ms hm)]
    simp only [List.map_cons, List.map_nil, valid_compactObject m ms hm, if_true,
      indent_compactObject m ms hm, joinLines]
    exact removeSensitiveChars_indentedObject m ms hm

/-! ## Theorems: the formatter -/

/-- C6: for every sensitive key `K`, white space `w` and value `v` without double quote and
newline, `removeSensitive` turns `"K":w"v"` into `"K": "******"`; and the formatted form
of the dump line `"Authorization": "secret-value"` is `"Authorization": "******"`, which
does not contain `secret-value`. -/
theorem C6_quoted_pair_is_masked (K : String) (w v : List Char)
    (hK : K ∈ sensitiveKeywords) (hw : ∀ c ∈ w, Regexp.isPerlSpace c = true)
    (hv : ∀ c ∈ v, c ≠ '"' ∧ c ≠ '\n') :
    removeSensitive ("\"" ++ K ++ "\":" ++ String.mk w ++ "\"" ++ String.mk v ++ "\"")
      = "\"" ++ K ++ "\": \"******\"" ∧
    prettyPrintJsonLines "\"Authorization\": \"secret-value\"" = "\"Authorization\": \"******\"" ∧
    Contains (prettyPrintJsonLines "\"Authorization\": \"secret-value\"") "secret-value" = false := by
  refine ⟨?_, by decide, by decide⟩
  have h := removeSensitiveChars_quoted K w v hK hw hv
  apply String.ext
  simp only [removeSensitive, String.data_append]
  simpa [mask] using h

theorem C6_witness :
    "Authorization" ∈ sensitiveKeywords ∧
    removeSensitive ("\"" ++ "Authorization" ++ "\":" ++ String.mk [' ', '\t'] ++ "\""
        ++ String.mk "secret-value".data ++ "\"")
      = "\"" ++ "Authorization" ++ "\": \"******\"" :=
  ⟨by decide, (C6_quoted_pair_is_masked "Authorization" [' ', '\t'] "secret-value".data
    (by decide) (by decide) (by decide)).1⟩

/-- C7: for every sensitive key `K` and value `v` without newline (carriage returns
allowed), the formatted form of the one-line dump `K: v` is `K: ******`; in particular
the output for `Authorization: secret-value` does not contain `secret-value`. -/
theorem C7_bare_line_is_masked (K : String) (v : List Char)
    (hK : K ∈ sensitiveKeywords) (hv : '\n' ∉ v) :
    prettyPrintJsonLines (K ++ ": " ++ String.mk v) = K ++ ": ******" ∧
    Contains (prettyPrintJsonLines "Authorization: secret-value") "secret-value" = false := by
  refine ⟨?_, by decide⟩
  have hnl : '\n' ∉ K.data ++ ':' :: ' ' :: v := by
    have hKn : '\n' ∉ K.data ++ [':', ' '] := by
      simp only [sensitiveKeywords, List.mem_cons, List.mem_singleton, List.not_mem_nil,
        or_false] at hK
      rcases hK with h | h | h | h | h <;> subst h <;> decide
    intro h
    have e1 : K.data ++ ':' :: ' ' :: v = (K.data ++ [':', ' ']) ++ v := by simp
    rw [e1, List.mem_append] at h
    exact h.elim hKn hv
  apply String.ext
  simp only [prettyPrintJsonLines, prettyPrintJsonLinesChars, String.data_append]
  have e0 : K.data ++ ": ".data ++ v = K.data ++ ':' :: ' ' :: v := by simp
  rw [e0, splitLines_of_no_newline _ hnl]
  simp only [List.map_cons, List.map_nil, not_valid_bare K hK, Bool.false_eq_true, if_false,
    joinLines, removeSensitiveChars_bare K v hK hv]
  simp [mask]

theorem C7_witness :
    "X-Security-Token" ∈ sensitiveKeywords ∧ '\n' ∉ "abc\r".data ∧
    prettyPrintJsonLines ("X-Security-Token" ++ ": " ++ String.mk "abc\r".data)
      = "X-Security-Token" ++ ": ******" :=
  ⟨by decide, by decide,
   (C7_bare_line_is_masked "X-Security-Token" "abc\r".data (by decide) (by decide)).1⟩


/-- C8: the code does not mask the value of a sensitive field name when that value is
not a JSON string.  The data map of a Secret is a JSON object: the formatted output of
the line `{"data":{"password":"cGFzcw=="}}` is the indented object with the value
`cGFzcw==` still in it, and the same holds for `stringData` and for a number. -/
theorem C8_object_value_is_not_masked :
    prettyPrintJsonLines "\x7b\"data\":\x7b\"password\":\"cGFzcw==\"\x7d\x7d"
      = "\x7b\n \"data\": \x7b\n  \"password\": \"cGFzcw==\"\n \x7d\n\x7d" ∧
    Contains (prettyPrintJsonLines "\x7b\"data\":\x7b\"password\":\"cGFzcw==\"\x7d\x7d")
      "cGFzcw==" = true ∧
    Contains (prettyPrintJsonLines "\x7b\"stringData\":\x7b\"password\":\"hunter2\"\x7d\x7d")
      "hunter2" = true ∧
    Contains (prettyPrintJsonLines "\x7b\"secretName\":12345\x7d") "12345" = true := by
  decide

/-- String values of a flat object are masked: for a dump line that is a JSON object in
compact form whose members all have a string key and a string value that need no
escaping, the formatted output is the indented object in which the value of every
member whose key is a sensitive keyword is replaced by the mask, every other member
being unchanged. -/
theorem flat_object_string_values_are_masked (ms : List Member) (hne : ms ≠ [])
    (hm : ∀ x ∈ ms, plainMember x) :
    prettyPrintJsonLines (String.mk (compactObject ms))
      = String.mk (indentedObject (ms.map maskMember)) := by
  apply String.ext
  exact prettyPrint_compactObject ms hne hm

theorem flat_object_string_values_example :
    ([("kind".data, "Secret".data), ("secretName".data, "s3cr3t".data),
        ("stringData".data, "cGFzcw==".data)] : List Member) ≠ [] ∧
    (∀ x ∈ ([("kind".data, "Secret".data), ("secretName".data, "s3cr3t".data),
        ("stringData".data, "cGFzcw==".data)] : List Member), plainMember x) ∧
    prettyPrintJsonLines (String.mk (compactObject
        [("kind".data, "Secret".data), ("secretName".data, "s3cr3t".data),
          ("stringData".data, "cGFzcw==".data)]))
      = String.mk (indentedObject (([("kind".data, "Secret".data),
          ("secretName".data, "s3cr3t".data), ("stringData".data, "cGFzcw==".data)]
            : List Member).map maskMember)) :=
  ⟨by decide, by decide,
   flat_object_string_values_are_masked
     [("kind".data, "Secret".data), ("secretName".data, "s3cr3t".data),
       ("stringData".data, "cGFzcw==".data)] (by decide) (by decide)⟩

/-! ## Theorems: headers of the signing transport, the fast path, partial credentials -/

theorem addAuthHeaders_project_values (c : HuaweiCloudCredential) (req : Request) :
    (addAuthHeaders c req).Header.Values ProjectIdHeaderKey
      = req.Header.Values ProjectIdHeaderKey ++ [c.ProjectId] := by
  have hne : CanonicalMIMEHeaderKey ProjectIdHeaderKey
      ≠ CanonicalMIMEHeaderKey SecurityTokenHeaderKey := by decide
  unfold addAuthHeaders
  by_cases ht : c.SecurityToken.length != 0 <;>
    simp [ht, Header.Values, Header.Add, hne]

theorem addAuthHeaders_token_values (c : HuaweiCloudCredential) (req : Request)
    (ht : c.SecurityToken ≠ "") :
    (addAuthHeaders c req).Header.Values SecurityTokenHeaderKey
      = req.Header.Values SecurityTokenHeaderKey ++ [c.SecurityToken] := by
  have hne : CanonicalMIMEHeaderKey SecurityTokenHeaderKey
      ≠ CanonicalMIMEHeaderKey ProjectIdHeaderKey := by decide
  have hlen : (c.SecurityToken.length != 0) = true := by
    simp [string_length_eq_zero_iff, ht]
  unfold addAuthHeaders
  simp [hlen, Header.Values, Header.Add, hne]

theorem addAuthHeaders_token_entry (c : HuaweiCloudCredential) (req : Request)
    (ht : c.SecurityToken = "") :
    (addAuthHeaders c req).Header (CanonicalMIMEHeaderKey SecurityTokenHeaderKey)
      = req.Header (CanonicalMIMEHeaderKey SecurityTokenHeaderKey) := by
  have hne : CanonicalMIMEHeaderKey SecurityTokenHeaderKey
      ≠ CanonicalMIMEHeaderKey ProjectIdHeaderKey := by decide
  have hlen : (c.SecurityToken.length != 0) = false := by
    rw [ht]
    rfl
  unfold addAuthHeaders
  simp [hlen, Header.Add, hne]

theorem roundTrip_auth_external (env : Env) (c : HuaweiCloudCredential)
    (handle : Request → Option Response × Option GoError) (req : Request)
    (hsign : (env.Sign c.AccessKey c.SecretKey (addAuthHeaders c req)).2 = none) :
    ∃ out, RoundTrip env (.authTransport c (.external handle)) req = some out ∧
      signRequests out.trace = [addAuthHeaders c req] ∧
      sentRequests out.trace = [(env.Sign c.AccessKey c.SecretKey (addAuthHeaders c req)).1] := by
  simp only [RoundTrip, hsign]
  exact ⟨_, rfl, rfl, rfl⟩

/-- C11 (as the code behaves): the project id is appended with `Header.Add`; for a
request that already carries `X-Project-Id: other`, the request handed to the signer
and the request sent on both have the values `other, proj-1`, and the value of the
header (its first value) is `other`, not the project id of the credential. -/
theorem C11_existing_project_header_stays_first :
    (RoundTrip quietEnv (.authTransport scenarioCredential (.external echoTransport))
        taggedRequest).map
      (fun out => ((signRequests out.trace).map (fun r => r.Header.Values "X-Project-Id"),
                   (sentRequests out.trace).map (fun r => r.Header.Get "X-Project-Id")))
    = some ([["other", "proj-1"]], ["other"]) := by
  decide

/-- C11 (amended): `HuaweiCloudAuthTransport.RoundTrip` hands the signer the incoming
request with the project id of the credential appended as the last value of
`X-Project-Id`, after the values the request came with; the value of the header is
the project id when the request came without one.  When signing succeeds the
downstream node gets the request as the signer left it, so with a signer that leaves
`X-Project-Id` alone the same holds for the forwarded request. -/
theorem C11_project_id_is_appended (env : Env) (c : HuaweiCloudCredential)
    (handle : Request → Option Response × Option GoError) (req : Request)
    (hsign : (env.Sign c.AccessKey c.SecretKey (addAuthHeaders c req)).2 = none)
    (hkeep : env.SignerKeeps ProjectIdHeaderKey) :
    ∃ out signed forwarded,
      RoundTrip env (.authTransport c (.external handle)) req = some out ∧
      signRequests out.trace = [signed] ∧ sentRequests out.trace = [forwarded] ∧
      signed.Header.Values ProjectIdHeaderKey = req.Header.Values ProjectIdHeaderKey ++ [c.ProjectId] ∧
      forwarded.Header.Values ProjectIdHeaderKey
        = req.Header.Values ProjectIdHeaderKey ++ [c.ProjectId] ∧
      (req.Header.Values ProjectIdHeaderKey = [] →
        signed.Header.Get ProjectIdHeaderKey = c.ProjectId ∧
        forwarded.Header.Get ProjectIdHeaderKey = c.ProjectId) := by
  obtain ⟨out, h1, h2, h3⟩ := roundTrip_auth_external env c handle req hsign
  have hv := addAuthHeaders_project_values c req
  have hf : (env.Sign c.AccessKey c.SecretKey (addAuthHeaders c req)).1.Header.Values
      ProjectIdHeaderKey = req.Header.Values ProjectIdHeaderKey ++ [c.ProjectId] := by
    rw [← hv]
    simp only [Header.Values]
    rw [hkeep]
  refine ⟨out, _, _, h1, h2, h3, hv, hf, ?_⟩
  intro hnone
  simp [Header.Get, hv, hf, hnone]

theorem C11_witness :
    (quietEnv.Sign scenarioCredential.AccessKey scenarioCredential.SecretKey
        (addAuthHeaders scenarioCredential sampleRequest)).2 = none ∧
    quietEnv.SignerKeeps ProjectIdHeaderKey ∧
    ∃ out signed forwarded,
      RoundTrip quietEnv (.authTransport scenarioCredential (.external echoTransport))
        sampleRequest = some out ∧
      signRequests out.trace = [signed] ∧ sentRequests out.trace = [forwarded] ∧
      signed.Header.Values ProjectIdHeaderKey
        = sampleRequest.Header.Values ProjectIdHeaderKey ++ [scenarioCredential.ProjectId] ∧
      forwarded.Header.Values ProjectIdHeaderKey
        = sampleRequest.Header.Values ProjectIdHeaderKey ++ [scenarioCredential.ProjectId] ∧
      (sampleRequest.Header.Values ProjectIdHeaderKey = [] →
        signed.Header.Get ProjectIdHeaderKey = scenarioCredential.ProjectId ∧
        forwarded.Header.Get ProjectIdHeaderKey = scenarioCredential.ProjectId) :=
  ⟨rfl, fun _ _ _ => rfl,
   C11_project_id_is_appended quietEnv scenarioCredential echoTransport sampleRequest rfl
     (fun _ _ _ => rfl)⟩

/-- C12: with debugging off, `LogTransport.RoundTrip` is the round trip of its
downstream transport on the same request: same response, same error, same events,
so it adds no log record (no dump is formatted); for a base transport from outside
the outcome is the base's answer and the single `send` of the unmodified request. -/
theorem C12_debug_off_is_pass_through (env : Env) (name : String) (next : RoundTripper)
    (req : Request) (hd : env.IsDebugOrHigher = false) :
    RoundTrip env (.logTransport name next) req = RoundTrip env next req ∧
    (∀ handle : Request → Option Response × Option GoError,
      RoundTrip env (.logTransport name (.external handle)) req
        = some ⟨(handle req).1, (handle req).2, [.send req]⟩) := by
  have key : ∀ nx : RoundTripper,
      RoundTrip env (.logTransport name nx) req = RoundTrip env nx req := by
    intro nx
    cases h : RoundTrip env nx req with
    | none => simp [RoundTrip, h]
    | some out =>
      cases herr : out.err with
      | some e =>
        simp only [RoundTrip, h, herr, hd]
        cases out
        simp_all
      | none =>
        simp only [RoundTrip, h, herr, hd]
        cases out
        simp_all
  exact ⟨key next, fun handle => by rw [key]; rfl⟩

theorem C12_witness :
    quietEnv.IsDebugOrHigher = false ∧
    RoundTrip quietEnv (.logTransport "Kubernetes" (.external echoTransport)) sampleRequest
      = RoundTrip quietEnv (.external echoTransport) sampleRequest :=
  ⟨rfl, (C12_debug_off_is_pass_through quietEnv "Kubernetes" (.external echoTransport)
    sampleRequest rfl).1⟩

/-- C15: the code accepts a partially configured credential that has a project id.  A
credential with a project id but without access key and secret key, and one with project
id and access key but without secret key, pass `Validation` and `BuildWrappers` without
error, and the chain built for them calls the signer with the empty keys. -/
theorem C15_project_id_without_keys_is_accepted :
    projectOnlyCredential.Validation = none ∧
    (BuildWrappers projectOnlyCredential none).2 = none ∧
    (BuildWrappers noSecretCredential none).2 = none ∧
    (BuildWrappers projectOnlyCredential none).1.isSome = true ∧
    (BuildWrappers noSecretCredential none).1.isSome = true ∧
    ((buildChain projectOnlyCredential none (.external echoTransport)).bind
        (fun rt => RoundTrip quietEnv rt sampleRequest)).map (fun o => signKeys o.trace)
      = some [("", "")] ∧
    ((buildChain noSecretCredential none (.external echoTransport)).bind
        (fun rt => RoundTrip quietEnv rt sampleRequest)).map (fun o => signKeys o.trace)
      = some [("AK", "")] := by
  decide

/-- What the guard of `Validation` does for a partially configured credential: for a
credential in which at least one but not all of project id, access key and secret key
are given, `BuildWrappers` returns an error exactly when the project id is the missing
one; with a project id it returns a wrapper function whatever the keys are. -/
theorem partial_credential_error_iff_no_project (c : HuaweiCloudCredential)
    (externalHeader : Option ExternalHeaderTransport) (hp : c.Partial) :
    ((BuildWrappers c externalHeader).2.isSome ↔ c.ProjectId = "") ∧
    (c.ProjectId ≠ "" → (BuildWrappers c externalHeader).1.isSome = true) := by
  have hiff : c.Violates ↔ c.ProjectId = "" := by
    unfold HuaweiCloudCredential.Violates
    unfold HuaweiCloudCredential.Partial at hp
    constructor
    · exact fun h => h.1
    · intro h
      refine ⟨h, ?_⟩
      rcases hp.1 with h1 | h1 | h1
      · exact absurd h h1
      · exact Or.inl h1
      · exact Or.inr h1
  have hv := validation_isSome_iff c
  cases hval : c.Validation with
  | some err =>
    rw [hval] at hv
    have : c.ProjectId = "" := hiff.mp (hv.mp rfl)
    simp [BuildWrappers, hval, this]
  | none =>
    rw [hval] at hv
    have hne : c.ProjectId ≠ "" := fun h => by
      have := hv.mpr (hiff.mpr h)
      simp at this
    cases externalHeader <;> simp [BuildWrappers, hval, Wrappers, hne]

theorem partial_credential_example :
    noSecretCredential.Partial ∧
    ((BuildWrappers noSecretCredential none).2.isSome ↔ noSecretCredential.ProjectId = "") ∧
    (noSecretCredential.ProjectId ≠ "" → (BuildWrappers noSecretCredential none).1.isSome = true) :=
  ⟨by decide, partial_credential_error_iff_no_project noSecretCredential none (by decide)⟩

/-- C16: with a signer that leaves `X-Security-Token` alone and does not fail, the
request `HuaweiCloudAuthTransport.RoundTrip` hands to the signer and the request it
forwards carry the session token of the credential under `X-Security-Token` (as the
last value, after those the request came with) when the token is not empty; when the
token is empty the entry of that header is the one of the incoming request, absent
if it was absent. -/
theorem C16_token_header_iff_token (env : Env) (c : HuaweiCloudCredential)
    (handle : Request → Option Response × Option GoError) (req : Request)
    (hsign : (env.Sign c.AccessKey c.SecretKey (addAuthHeaders c req)).2 = none)
    (hkeep : env.SignerKeeps SecurityTokenHeaderKey) :
    ∃ out signed forwarded,
      RoundTrip env (.authTransport c (.external handle)) req = some out ∧
      signRequests out.trace = [signed] ∧ sentRequests out.trace = [forwarded] ∧
      (c.SecurityToken ≠ "" →
        signed.Header.Values SecurityTokenHeaderKey
          = req.Header.Values SecurityTokenHeaderKey ++ [c.SecurityToken] ∧
        forwarded.Header.Values SecurityTokenHeaderKey
          = req.Header.Values SecurityTokenHeaderKey ++ [c.SecurityToken] ∧
        c.SecurityToken ∈ forwarded.Header.Values SecurityTokenHeaderKey) ∧
      (c.SecurityToken = "" →
        signed.Header (CanonicalMIMEHeaderKey SecurityTokenHeaderKey)
          = req.Header (CanonicalMIMEHeaderKey SecurityTokenHeaderKey) ∧
        forwarded.Header (CanonicalMIMEHeaderKey SecurityTokenHeaderKey)
          = req.Header (CanonicalMIMEHeaderKey SecurityTokenHeaderKey)) := by
  obtain ⟨out, h1, h2, h3⟩ := roundTrip_auth_external env c handle req hsign
  refine ⟨out, _, _, h1, h2, h3, ?_, ?_⟩
  · intro ht
    have hv := addAuthHeaders_token_values c req ht
    have hf : (env.Sign c.AccessKey c.SecretKey (addAuthHeaders c req)).1.Header.Values
        SecurityTokenHeaderKey = req.Header.Values SecurityTokenHeaderKey ++ [c.SecurityToken] := by
      rw [← hv]
      simp only [Header.Values]
      rw [hkeep]
    exact ⟨hv, hf, by rw [hf]; simp⟩
  · intro ht
    have hv := addAuthHeaders_token_entry c req ht
    exact ⟨hv, by rw [hkeep, hv]⟩

theorem C16_witness :
    (quietEnv.Sign tokenCredential.AccessKey tokenCredential.SecretKey
        (addAuthHeaders tokenCredential taggedRequest)).2 = none ∧
    quietEnv.SignerKeeps SecurityTokenHeaderKey ∧
    ∃ out signed forwarded,
      RoundTrip quietEnv (.authTransport tokenCredential (.external echoTransport))
        taggedRequest = some out ∧
      signRequests out.trace = [signed] ∧ sentRequests out.trace = [forwarded] ∧
      (tokenCredential.SecurityToken ≠ "" →
        signed.Header.Values SecurityTokenHeaderKey
          = taggedRequest.Header.Values SecurityTokenHeaderKey ++ [tokenCredential.SecurityToken] ∧
        forwarded.Header.Values SecurityTokenHeaderKey
          = taggedRequest.Header.Values SecurityTokenHeaderKey
            ++ [tokenCredential.SecurityToken] ∧
        tokenCredential.SecurityToken ∈ forwarded.Header.Values SecurityTokenHeaderKey) ∧
      (tokenCredential.SecurityToken = "" →
        signed.Header (CanonicalMIMEHeaderKey SecurityTokenHeaderKey)
          = taggedRequest.Header (CanonicalMIMEHeaderKey SecurityTokenHeaderKey) ∧
        forwarded.Header (CanonicalMIMEHeaderKey SecurityTokenHeaderKey)
          = taggedRequest.Header (CanonicalMIMEHeaderKey SecurityTokenHeaderKey)) :=
  ⟨rfl, fun _ _ _ => rfl,
   C16_token_header_iff_token quietEnv tokenCredential echoTransport taggedRequest rfl
     (fun _ _ _ => rfl)⟩

/-- C19: `ExternalHeaderTransport.TransportWrapper` returns the round tripper it was
given; on the object it changes nothing but `next`, which becomes that round tripper
when the header set is not empty.  Hence the chain built with a header set is the
chain built without one, and a round trip through either has the same outcome. -/
theorem C19_header_wrapper_returns_its_argument :
    (∀ (e : ExternalHeaderTransport) (rt : RoundTripper),
      (e.TransportWrapper rt).1 = rt ∧ (e.TransportWrapper rt).2.headers = e.headers ∧
      (e.headers ≠ [] → (e.TransportWrapper rt).2.next = rt)) ∧
    (∀ (c : HuaweiCloudCredential) (H : GoMap) (base : RoundTripper),
      buildChain c (NewExternalHeaderTransport H) base = buildChain c none base) ∧
    (∀ (env : Env) (c : HuaweiCloudCredential) (H : GoMap) (base : RoundTripper) (req : Request),
      (buildChain c (NewExternalHeaderTransport H) base).bind (fun ch => RoundTrip env ch req)
        = (buildChain c none base).bind (fun ch => RoundTrip env ch req)) := by
  have hchain : ∀ (c : HuaweiCloudCredential) (H : GoMap) (base : RoundTripper),
      buildChain c (NewExternalHeaderTransport H) base = buildChain c none base := by
    intro c H base
    cases hv : c.Validation with
    | some err => cases NewExternalHeaderTransport H <;> simp [buildChain, BuildWrappers, hv]
    | none =>
      cases hH : NewExternalHeaderTransport H with
      | none => rfl
      | some e => rw [buildChain_some c e base hv, buildChain_none c base hv]
  refine ⟨?_, hchain, ?_⟩
  · intro e rt
    by_cases he : e.headers = [] <;>
      simp [ExternalHeaderTransport.TransportWrapper, he]
  · intro env c H base req
    rw [hchain]

/-! ## Theorems: resource identifiers -/

theorem splitOn_of_not_mem (sep : Char) (s : List Char) (hs : sep ∉ s) :
    splitOn sep s = [s] := by
  induction s with
  | nil => rfl
  | cons c cs ih =>
    have hc : c ≠ sep := fun h => hs (h ▸ List.mem_cons_self _ _)
    simp [splitOn, ih (fun h => hs (List.mem_cons_of_mem _ h)), hc]

theorem splitOn_ne_nil (sep : Char) (s : List Char) : splitOn sep s ≠ [] := by
  cases s with
  | nil => simp [splitOn]
  | cons c cs =>
    simp only [splitOn]
    split <;> try split
    all_goals simp

theorem splitOn_append (sep : Char) (a b : List Char) (ha : sep ∉ a) :
    splitOn sep (a ++ sep :: b) = a :: splitOn sep b := by
  induction a with
  | nil =>
    cases h : splitOn sep b with
    | nil => exact absurd h (splitOn_ne_nil sep b)
    | cons l ls => simp [splitOn, h]
  | cons c cs ih =>
    have hc : c ≠ sep := fun h => ha (h ▸ List.mem_cons_self _ _)
    simp [splitOn, ih (fun h => ha (List.mem_cons_of_mem _ h)), hc]

theorem Split_Join (parts : List String) (hne : parts ≠ [])
    (hp : ∀ p ∈ parts, ',' ∉ p.data) : Split (Join parts ",") ',' = parts := by
  induction parts with
  | nil => exact absurd rfl hne
  | cons a rest ih =>
    cases rest with
    | nil =>
      simp [Split, Join, splitOn_of_not_mem _ _ (hp a (List.mem_cons_self _ _))]
    | cons b rest =>
      have ih1 := ih (by simp) (fun p h => hp p (List.mem_cons_of_mem _ h))
      simp only [Split] at ih1 ⊢
      have e : (Join (a :: b :: rest) ",").data = a.data ++ ',' :: (Join (b :: rest) ",").data := by
        simp [Join, String.data_append]
      rw [e, splitOn_append _ _ _ (hp a (List.mem_cons_self _ _)), List.map_cons, ih1]

theorem Split_idPart (p : String × String) (h1 : '=' ∉ p.1.data) (h2 : '=' ∉ p.2.data) :
    Split (idPart p) '=' = [p.1, p.2] := by
  have e : (idPart p).data = p.1.data ++ '=' :: p.2.data := by
    simp [idPart, String.data_append]
  simp [Split, e, splitOn_append _ _ _ h1, splitOn_of_not_mem _ _ h2]

theorem idKeys_no_sep (k : String) (hk : k ∈ idKeys) : '=' ∉ k.data ∧ ',' ∉ k.data := by
  simp only [idKeys, List.mem_cons, List.mem_singleton, List.not_mem_nil, or_false] at hk
  rcases hk with h | h | h | h <;> subst h <;> decide

theorem parseParts_known (id : String) (ps : List (String × String)) (f : IDFields)
    (hps : ∀ p ∈ ps, p.1 ∈ idKeys ∧ '=' ∉ p.2.data) :
    parseParts id (ps.map idPart) f = .ok (ps.foldl IDFields.assign f) := by
  induction ps generalizing f with
  | nil => rfl
  | cons p ps ih =>
    obtain ⟨hk, hv⟩ := hps p (List.mem_cons_self _ _)
    have ih1 := fun g => ih g (fun q hq => hps q (List.mem_cons_of_mem _ hq))
    simp only [List.map_cons, parseParts, Split_idPart p (idKeys_no_sep p.1 hk).1 hv,
      List.foldl_cons]
    simp only [idKeys, List.mem_cons, List.mem_singleton, List.not_mem_nil, or_false] at hk
    rcases hk with h | h | h | h <;> simp [h, IDFields.assign, ih1]

/-- Field by field, the loop leaves the value of the only part with that key. -/
theorem foldl_assign_fields (A K N NS : String) (ps : List (String × String)) (f : IDFields)
    (hps : ∀ p ∈ ps, p ∈ [("apiVersion", A), ("kind", K), ("name", N), ("namespace", NS)]) :
    (ps.foldl IDFields.assign f).apiVersion
        = (if ("apiVersion", A) ∈ ps then A else f.apiVersion) ∧
    (ps.foldl IDFields.assign f).kind = (if ("kind", K) ∈ ps then K else f.kind) ∧
    (ps.foldl IDFields.assign f).name = (if ("name", N) ∈ ps then N else f.name) ∧
    (ps.foldl IDFields.assign f).nameSpace
        = (if ("namespace", NS) ∈ ps then NS else f.nameSpace) := by
  induction ps generalizing f with
  | nil => simp
  | cons p ps ih =>
    have hp := hps p (List.mem_cons_self _ _)
    have ih1 := ih (f.assign p) (fun q hq => hps q (List.mem_cons_of_mem _ hq))
    simp only [List.foldl_cons, ih1]
    simp only [List.mem_cons, List.mem_singleton, List.not_mem_nil, or_false] at hp
    rcases hp with h | h | h | h <;> subst h <;>
      simp [IDFields.assign, List.mem_cons, Prod.ext_iff]


theorem parse_of_parts (A K N NS : String) (ps : List (String × String))
    (hA : ',' ∉ A.data ∧ '=' ∉ A.data) (hK : ',' ∉ K.data ∧ '=' ∉ K.data)
    (hN : ',' ∉ N.data ∧ '=' ∉ N.data) (hNS : ',' ∉ NS.data ∧ '=' ∉ NS.data)
    (hlen : ps.length = 3 ∨ ps.length = 4)
    (hps : ∀ p ∈ ps, p ∈ [("apiVersion", A), ("kind", K), ("name", N), ("namespace", NS)]) :
    ParseResourceID (Join (ps.map idPart) ",")
      = (FromAPIVersionAndKind (if ("apiVersion", A) ∈ ps then A else "")
          (if ("kind", K) ∈ ps then K else ""),
         (if ("name", N) ∈ ps then N else ""),
         (if ("namespace", NS) ∈ ps then NS else "default"), none) := by
  have hgood : ∀ p ∈ ps, p.1 ∈ idKeys ∧ '=' ∉ p.2.data ∧ ',' ∉ p.2.data := by
    intro p hp
    have := hps p hp
    simp only [List.mem_cons, List.mem_singleton, List.not_mem_nil, or_false] at this
    rcases this with h | h | h | h <;> subst h <;> simp [idKeys, hA, hK, hN, hNS]
  have hne : ps.map idPart ≠ [] := by
    intro h
    have : ps.length = 0 := by simpa using congrArg List.length h
    omega
  have hcomma : ∀ p ∈ ps.map idPart, ',' ∉ p.data := by
    intro p hp
    obtain ⟨q, hq, rfl⟩ := List.mem_map.mp hp
    obtain ⟨h1, _, h3⟩ := hgood q hq
    simp [idPart, String.data_append, (idKeys_no_sep q.1 h1).2, h3]
  have hfields := foldl_assign_fields A K N NS ps ⟨"", "", "", "default"⟩ hps
  have hparse := parseParts_known (Join (ps.map idPart) ",") ps ⟨"", "", "", "default"⟩
    (fun p hp => ⟨(hgood p hp).1, (hgood p hp).2.1⟩)
  have hlen2 : ¬ ((ps.map idPart).length < 3 ∨ (ps.map idPart).length > 4) := by
    rw [List.length_map]
    omega
  unfold ParseResourceID
  simp only [Split_Join _ hne hcomma, hparse, Bool.or_eq_true, decide_eq_true_eq, hlen2,
    if_false, hfields.1, hfields.2.1, hfields.2.2.1, hfields.2.2.2]

theorem idPart_namespace_not_mem (A K N NS : String) (ps : List (String × String))
    (hp : ps.Perm [("apiVersion", A), ("kind", K), ("name", N)]) :
    ("namespace", NS) ∉ ps := by
  intro h
  have := hp.subset h
  simp [Prod.ext_iff] at this

/-- C17: for values without comma and equals sign, `ParseResourceID` of the parts
`apiVersion=A`, `kind=K`, `name=N`, `namespace=NS` joined by commas in any order gives
the group-version-kind of `A` and `K`, the name `N` and the namespace `NS` without
error; without the namespace part it gives the namespace `default`.  The id of the
documentation gives group empty, version `v1`, kind `Secret`. -/
theorem C17_ParseResourceID_of_well_formed_id (A K N NS : String)
    (ps : List (String × String))
    (hA : ',' ∉ A.data ∧ '=' ∉ A.data) (hK : ',' ∉ K.data ∧ '=' ∉ K.data)
    (hN : ',' ∉ N.data ∧ '=' ∉ N.data) (hNS : ',' ∉ NS.data ∧ '=' ∉ NS.data) :
    (ps.Perm [("apiVersion", A), ("kind", K), ("name", N), ("namespace", NS)] →
      ParseResourceID (Join (ps.map idPart) ",") = (FromAPIVersionAndKind A K, N, NS, none)) ∧
    (ps.Perm [("apiVersion", A), ("kind", K), ("name", N)] →
      ParseResourceID (Join (ps.map idPart) ",")
        = (FromAPIVersionAndKind A K, N, "default", none)) ∧
    ParseResourceID "apiVersion=v1,kind=Secret,namespace=default,name=default-token-qgm6s"
      = (⟨"", "v1", "Secret"⟩, "default-token-qgm6s", "default", none) := by
  refine ⟨?_, ?_, by decide⟩
  · intro hp
    have hmem : ∀ q, q ∈ ps ↔
        q ∈ [("apiVersion", A), ("kind", K), ("name", N), ("namespace", NS)] :=
      fun q => hp.mem_iff
    rw [parse_of_parts A K N NS ps hA hK hN hNS (Or.inr (by simpa using hp.length_eq))
      (fun p h => (hmem p).mp h)]
    simp [hmem]
  · intro hp
    have hmem : ∀ q, q ∈ ps ↔ q ∈ [("apiVersion", A), ("kind", K), ("name", N)] :=
      fun q => hp.mem_iff
    have hns := idPart_namespace_not_mem A K N NS ps hp
    rw [parse_of_parts A K N NS ps hA hK hN hNS (Or.inl (by simpa using hp.length_eq))
      (fun p h => by
        have := (hmem p).mp h
        simp only [List.mem_cons, List.mem_singleton, List.not_mem_nil, or_false] at this ⊢
        tauto)]
    simp [hns, hmem]

theorem C17_witness :
    (',' ∉ "apps/v1".data ∧ '=' ∉ "apps/v1".data) ∧
    (',' ∉ "Deployment".data ∧ '=' ∉ "Deployment".data) ∧
    (',' ∉ "web".data ∧ '=' ∉ "web".data) ∧ (',' ∉ "prod".data ∧ '=' ∉ "prod".data) ∧
    ([("name", "web"), ("namespace", "prod"), ("kind", "Deployment"), ("apiVersion", "apps/v1")]
        : List (String × String)).Perm
      [("apiVersion", "apps/v1"), ("kind", "Deployment"), ("name", "web"), ("namespace", "prod")] ∧
    ParseResourceID (Join (([("name", "web"), ("namespace", "prod"), ("kind", "Deployment"),
        ("apiVersion", "apps/v1")] : List (String × String)).map idPart) ",")
      = (FromAPIVersionAndKind "apps/v1" "Deployment", "web", "prod", none) :=
  ⟨by decide, by decide, by decide, by decide, by decide,
   (C17_ParseResourceID_of_well_formed_id "apps/v1" "Deployment" "web" "prod"
      [("name", "web"), ("namespace", "prod"), ("kind", "Deployment"), ("apiVersion", "apps/v1")]
      (by decide) (by decide) (by decide) (by decide)).1 (by decide)⟩

/-- C18 (the code at an id without name): the id `apiVersion=v1,kind=Secret,namespace=default`
has three parts with known keys, so `ParseResourceID` returns no error, with an empty
name, although the id has no part for the key `name`; likewise an id of three `kind`
parts is accepted. -/
theorem C18_id_without_name_is_accepted :
    ParseResourceID "apiVersion=v1,kind=Secret,namespace=default"
      = (⟨"", "v1", "Secret"⟩, "", "default", none) ∧
    Split "apiVersion=v1,kind=Secret,namespace=default" ','
      = ["apiVersion=v1", "kind=Secret", "namespace=default"] ∧
    ¬ hasPart "apiVersion=v1,kind=Secret,namespace=default" "name" ∧
    (ParseResourceID "kind=a,kind=b,kind=c").2.2.2 = none := by
  refine ⟨by decide, by decide, ?_, by decide⟩
  rintro ⟨p, hp, val, hval⟩
  have hsplit : Split "apiVersion=v1,kind=Secret,namespace=default" ','
      = ["apiVersion=v1", "kind=Secret", "namespace=default"] := by decide
  rw [hsplit] at hp
  have hd := congrArg String.data hval
  simp only [String.data_append] at hd
  simp only [List.mem_cons, List.mem_singleton, List.not_mem_nil, or_false] at hp
  rcases hp with h | h | h <;> subst h <;> simp at hd

/-! ## Theorems: lines the formatter leaves alone -/

theorem joinLines_splitLines (s : List Char) : joinLines (splitLines s) = s := by
  induction s with
  | nil => rfl
  | cons c cs ih =>
    cases h : splitLines cs with
    | nil =>
      rw [h] at ih
      cases cs with
      | nil => simp [splitLines] at h
      | cons d ds => simp [joinLines] at ih
    | cons l ls =>
      rw [h] at ih
      by_cases hc : c = '\n'
      · subst hc
        simp only [splitLines, h, if_true]
        show [] ++ '\n' :: joinLines (l :: ls) = _
        rw [ih]
        rfl
      · simp only [splitLines, h, hc, if_false]
        cases ls with
        | nil =>
          simp only [joinLines] at ih ⊢
          rw [ih]
        | cons l2 ls2 =>
          simp only [joinLines] at ih ⊢
          rw [List.cons_append, ih]

theorem containsChars_of_append (a sub c : List Char) :
    containsChars (a ++ (sub ++ c)) sub = true := by
  induction a with
  | nil =>
    cases hs : sub ++ c with
    | nil =>
      have : sub = [] := (List.append_eq_nil.mp hs).1
      simp [containsChars, this]
    | cons x xs =>
      simp only [List.nil_append, containsChars, Bool.or_eq_true]
      left
      rw [← hs]
      simp [List.isPrefixOf_iff_prefix]
  | cons x a ih =>
    simp only [List.cons_append, containsChars, Bool.or_eq_true]
    right
    exact ih

theorem replaceAllAux_id (r : Regex) (tmpl : List Piece) (p : List Char) (b : Bool)
    (h : ∀ a s, p = a ++ s → r.run s = []) : replaceAllAux r tmpl 0 b p = p := by
  induction p generalizing b with
  | nil => exact replaceAllAux_nil r tmpl b (h [] [] rfl)
  | cons c cs ih =>
    rw [replaceAllAux_no_match r tmpl b c cs (h [] (c :: cs) rfl),
      ih false (fun a s hs => h (c :: a) s (by rw [hs]; rfl))]

theorem removeSensitiveChars_of_no_keyword (p : List Char)
    (hp : ∀ K ∈ sensitiveKeywords, containsChars p K.data = false) :
    removeSensitiveChars p = p := by
  have h1 : ∀ a s, p = a ++ s → reg1.run s = [] := by
    intro a s hs
    rw [List.eq_nil_iff_forall_not_mem]
    intro m hm
    obtain ⟨K, hK, r, hr⟩ := reg1_run_shape s m hm
    have hc := hp K hK
    have e : p = (a ++ ['"']) ++ (K.data ++ ('"' :: ':' :: r)) := by
      rw [hs, hr]
      simp
    rw [e, containsChars_of_append] at hc
    exact Bool.noConfusion hc
  have h2 : ∀ a s, p = a ++ s → reg2.run s = [] := by
    intro a s hs
    rw [List.eq_nil_iff_forall_not_mem]
    intro m hm
    obtain ⟨K, hK, w, t, hr, _, _⟩ := reg2_run_shape s m hm
    have hc := hp K hK
    have e : p = a ++ (K.data ++ (':' :: (w ++ t))) := by rw [hs, hr]
    rw [e, containsChars_of_append] at hc
    exact Bool.noConfusion hc
  unfold removeSensitiveChars
  simp only [ReplaceAllString]
  rw [replaceAllAux_id reg1 repl1 p false h1, replaceAllAux_id reg2 repl2 p false h2]

/-- C14: a dump in which no line is valid JSON and no line contains a sensitive
keyword comes back from `prettyPrintJsonLines` exactly as it was. -/
theorem C14_pass_through_identity (b : String)
    (hjson : ∀ p ∈ splitLines b.data, Json.Valid p = false)
    (hkw : ∀ p ∈ splitLines b.data, ∀ K ∈ sensitiveKeywords, containsChars p K.data = false) :
    prettyPrintJsonLines b = b := by
  apply String.ext
  simp only [prettyPrintJsonLines, prettyPrintJsonLinesChars]
  have e1 : (splitLines b.data).map
      (fun p => if Json.Valid p = true then Json.Indent p [] [' '] else p) = splitLines b.data := by
    conv => rhs; rw [← List.map_id (splitLines b.data)]
    apply List.map_congr_left
    intro p hp
    simp [hjson p hp]
  have e2 : (splitLines b.data).map removeSensitiveChars = splitLines b.data := by
    conv => rhs; rw [← List.map_id (splitLines b.data)]
    apply List.map_congr_left
    intro p hp
    simp [removeSensitiveChars_of_no_keyword p (hkw p hp)]
  rw [e1, e2, joinLines_splitLines]

theorem C14_witness :
    (∀ p ∈ splitLines "GET /api/v1/pods HTTP/1.1\r\nAccept: application/json\r\n\r\n".data,
      Json.Valid p = false) ∧
    (∀ p ∈ splitLines "GET /api/v1/pods HTTP/1.1\r\nAccept: application/json\r\n\r\n".data,
      ∀ K ∈ sensitiveKeywords, containsChars p K.data = false) ∧
    prettyPrintJsonLines "GET /api/v1/pods HTTP/1.1\r\nAccept: application/json\r\n\r\n"
      = "GET /api/v1/pods HTTP/1.1\r\nAccept: application/json\r\n\r\n" :=
  ⟨by decide, by decide,
   C14_pass_through_identity "GET /api/v1/pods HTTP/1.1\r\nAccept: application/json\r\n\r\n"
     (by decide) (by decide)⟩

/-! ## Theorems: the indented rendering of valid JSON -/

theorem indentLoop_of_valid (pfx indent : List Char) (src : List Char) (s : Scanner)
    (ni : Bool) (d : Int) (h : checkValid s src = true) :
    (indentLoop pfx indent s ni d src).2.eofIsError = false := by
  induction src generalizing s ni d with
  | nil =>
    simp only [checkValid, Bool.not_eq_true'] at h
    simpa [indentLoop] using h
  | cons c cs ih =>
    rw [checkValid] at h
    rw [indentLoop]
    rcases hstep : s.doStep c with ⟨v, s1⟩
    rw [hstep] at h
    have key : checkValid s1 cs = true →
        ∀ ni d, (indentLoop pfx indent s1 ni d cs).2.eofIsError = false :=
      fun h1 ni d => ih s1 ni d h1
    cases v <;> simp only [] at h ⊢ <;>
      first
      | exact Bool.noConfusion h
      | simp only [apply_ite Prod.snd, apply_ite Scanner.eofIsError, key h, ite_self]

theorem Indent_of_valid (src : List Char) (h : Valid src = true) :
    Indent src [] [' '] = (indentLoop [] [' '] Scanner.reset false 0 src).1 := by
  unfold Indent
  simp [indentLoop_of_valid [] [' '] src Scanner.reset false 0 h]

theorem skipsSpace_reset : skipsSpace Scanner.reset := by
  intro c hc
  simp [Scanner.doStep, Scanner.reset, stateBeginValue, hc]

theorem skipsSpace_afterBrace : skipsSpace afterBrace := by
  intro c hc
  simp [Scanner.doStep, afterBrace, stateBeginStringOrEmpty, hc]

theorem skipsSpace_afterBracket : skipsSpace afterBracket := by
  intro c hc
  simp [Scanner.doStep, afterBracket, stateBeginValueOrEmpty, hc]

theorem indentLoop_skip (pfx indent : List Char) (s : Scanner) (hs : skipsSpace s)
    (ni : Bool) (d : Int) (ws rest : List Char) (hws : ∀ c ∈ ws, isSpace c = true) :
    indentLoop pfx indent s ni d (ws ++ rest) = indentLoop pfx indent s ni d rest := by
  induction ws with
  | nil => rfl
  | cons c ws ih =>
    rw [List.cons_append, indentLoop, hs c (hws c (List.mem_cons_self _ _))]
    exact ih (fun x hx => hws x (List.mem_cons_of_mem _ hx))

theorem checkValid_skip (s : Scanner) (hs : skipsSpace s) (ws rest : List Char)
    (hws : ∀ c ∈ ws, isSpace c = true) : checkValid s (ws ++ rest) = checkValid s rest := by
  induction ws with
  | nil => rfl
  | cons c ws ih =>
    rw [List.cons_append, checkValid, hs c (hws c (List.mem_cons_self _ _))]
    exact ih (fun x hx => hws x (List.mem_cons_of_mem _ hx))

/-- After an opening bracket, a character that is neither white space nor the closing
bracket begins a value or is an error. -/
theorem doStep_after_open (s : Scanner) (c : Char) (hc : isSpace c = false)
    (hs : (s = afterBrace ∧ c ≠ '}') ∨ (s = afterBracket ∧ c ≠ ']')) :
    (s.doStep c).1 = .scanBeginObject ∨ (s.doStep c).1 = .scanBeginArray ∨
      (s.doStep c).1 = .scanBeginLiteral ∨ (s.doStep c).1 = .scanError := by
  rcases hs with ⟨rfl, h⟩ | ⟨rfl, h⟩
  · simp only [Scanner.doStep, afterBrace, stateBeginStringOrEmpty, hc, stateBeginString,
      Scanner.error]
    simp only [beq_iff_eq, h, Bool.false_eq_true, if_false]
    split_ifs <;> simp
  · simp only [Scanner.doStep, afterBracket, stateBeginValueOrEmpty, hc, stateBeginValue,
      Scanner.error, Scanner.pushParseState]
    simp only [beq_iff_eq, h, Bool.false_eq_true, if_false]
    split_ifs <;> simp

theorem indentLoop_first_member (s : Scanner) (c : Char) (rest : List Char)
    (hv : (s.doStep c).1 = .scanBeginObject ∨ (s.doStep c).1 = .scanBeginArray ∨
      (s.doStep c).1 = .scanBeginLiteral) :
    ∃ Z, (indentLoop [] [' '] s true 0 (c :: rest)).1 = '\n' :: ' ' :: Z := by
  rw [indentLoop]
  rcases hstep : s.doStep c with ⟨v, s1⟩
  rw [hstep] at hv
  have hnl : appendNewline [] [' '] (0 + 1) = ['\n', ' '] := by decide
  have o1 : (ScanCode.scanBeginObject != ScanCode.scanEndObject) = true := by decide
  have o2 : (ScanCode.scanBeginObject != ScanCode.scanEndArray) = true := by decide
  have o3 : (ScanCode.scanBeginObject == ScanCode.scanContinue) = false := by decide
  have a1 : (ScanCode.scanBeginArray != ScanCode.scanEndObject) = true := by decide
  have a2 : (ScanCode.scanBeginArray != ScanCode.scanEndArray) = true := by decide
  have a3 : (ScanCode.scanBeginArray == ScanCode.scanContinue) = false := by decide
  have l1 : (ScanCode.scanBeginLiteral != ScanCode.scanEndObject) = true := by decide
  have l2 : (ScanCode.scanBeginLiteral != ScanCode.scanEndArray) = true := by decide
  have l3 : (ScanCode.scanBeginLiteral == ScanCode.scanContinue) = false := by decide
  rcases hv with h | h | h <;> simp only [] at h <;> subst h <;>
    simp only [o1, o2, o3, a1, a2, a3, l1, l2, l3, hnl, Bool.and_self, if_true,
      Bool.false_eq_true, if_false, apply_ite Prod.fst, List.cons_append, List.nil_append] <;>
    split_ifs <;> exact ⟨_, rfl⟩

theorem checkValid_cons_ne_error (s : Scanner) (c : Char) (cs : List Char)
    (h : checkValid s (c :: cs) = true) : (s.doStep c).1 ≠ .scanError := by
  rw [checkValid] at h
  rcases hstep : s.doStep c with ⟨v, s1⟩
  rw [hstep] at h
  intro hv
  simp only [] at hv
  subst hv
  exact Bool.noConfusion h

theorem checkValid_open_brace (xs : List Char) :
    checkValid Scanner.reset ('{' :: xs) = checkValid afterBrace xs := by
  rw [checkValid]; rfl

theorem checkValid_open_bracket (xs : List Char) :
    checkValid Scanner.reset ('[' :: xs) = checkValid afterBracket xs := by
  rw [checkValid]; rfl

theorem indentLoop_open_brace (xs : List Char) :
    (indentLoop [] [' '] Scanner.reset false 0 ('{' :: xs)).1
      = '{' :: (indentLoop [] [' '] afterBrace true 0 xs).1 := by
  rw [indentLoop]; rfl

theorem indentLoop_open_bracket (xs : List Char) :
    (indentLoop [] [' '] Scanner.reset false 0 ('[' :: xs)).1
      = '[' :: (indentLoop [] [' '] afterBracket true 0 xs).1 := by
  rw [indentLoop]; rfl

/-- After the opening bracket of a valid text that is not closed right away, the
indented form goes on with a newline and one space. -/
theorem indentLoop_after_open (s : Scanner) (hs : skipsSpace s) (ws : List Char) (c : Char)
    (rest : List Char) (hws : ∀ x ∈ ws, isSpace x = true) (hc : isSpace c = false)
    (hopen : (s = afterBrace ∧ c ≠ '}') ∨ (s = afterBracket ∧ c ≠ ']'))
    (hv : checkValid s (ws ++ c :: rest) = true) :
    ∃ Z, (indentLoop [] [' '] s true 0 (ws ++ c :: rest)).1 = '\n' :: ' ' :: Z := by
  rw [checkValid_skip s hs ws _ hws] at hv
  rw [indentLoop_skip [] [' '] s hs true 0 ws _ hws]
  have hne := checkValid_cons_ne_error s c rest hv
  rcases doStep_after_open s c hc hopen with h | h | h | h
  · exact indentLoop_first_member s c rest (Or.inl h)
  · exact indentLoop_first_member s c rest (Or.inr (Or.inl h))
  · exact indentLoop_first_member s c rest (Or.inr (Or.inr h))
  · exact absurd h hne

/-- The indented form of a valid line that opens a non-empty object or array starts with
the opening bracket, a newline and one space. -/
theorem Indent_opens (line : List Char) (hv : Valid line = true)
    (ho : opensNonEmpty line = true) :
    ∃ o Z, (o = '{' ∨ o = '[') ∧ Indent line [] [' '] = o :: '\n' :: ' ' :: Z := by
  rw [Indent_of_valid line hv]
  unfold opensNonEmpty at ho
  have h1 := List.takeWhile_append_dropWhile isSpace line
  have hw1 : ∀ c ∈ line.takeWhile isSpace, isSpace c = true :=
    fun c hc => List.mem_takeWhile_imp hc
  cases hd1 : line.dropWhile isSpace with
  | nil => rw [hd1] at ho; exact Bool.noConfusion ho
  | cons o r =>
    rw [hd1] at ho h1
    simp only [] at ho
    have h2 := List.takeWhile_append_dropWhile isSpace r
    have hw2 : ∀ c ∈ r.takeWhile isSpace, isSpace c = true :=
      fun c hc => List.mem_takeWhile_imp hc
    cases hd2 : r.dropWhile isSpace with
    | nil => rw [hd2] at ho; exact Bool.noConfusion ho
    | cons c rest =>
      rw [hd2] at ho h2
      simp only [] at ho
      have hc : isSpace c = false := dropWhile_head _ _ _ _ hd2
      unfold Valid at hv
      rw [← h1, checkValid_skip _ skipsSpace_reset _ _ hw1] at hv
      rw [← h1, indentLoop_skip _ _ _ skipsSpace_reset _ _ _ _ hw1]
      simp only [Bool.or_eq_true, Bool.and_eq_true, beq_iff_eq, bne_iff_ne, ne_eq] at ho
      rcases ho with ⟨rfl, hne⟩ | ⟨rfl, hne⟩
      · rw [checkValid_open_brace, ← h2] at hv
        rw [indentLoop_open_brace, ← h2]
        obtain ⟨Z, hZ⟩ := indentLoop_after_open afterBrace skipsSpace_afterBrace _ c rest hw2 hc
          (Or.inl ⟨rfl, hne⟩) hv
        exact ⟨'{', Z, Or.inl rfl, by rw [hZ]⟩
      · rw [checkValid_open_bracket, ← h2] at hv
        rw [indentLoop_open_bracket, ← h2]
        obtain ⟨Z, hZ⟩ := indentLoop_after_open afterBracket skipsSpace_afterBracket _ c rest hw2 hc
          (Or.inr ⟨rfl, hne⟩) hv
        exact ⟨'[', Z, Or.inr rfl, by rw [hZ]⟩

theorem reg2_run_of_not_initial (c : Char) (cs : List Char)
    (hc : c ≠ 'A' ∧ c ≠ 'X' ∧ c ≠ 's' ∧ c ≠ 'd') : reg2.run (c :: cs) = [] := by
  rw [List.eq_nil_iff_forall_not_mem]
  intro m hm
  obtain ⟨K, hK, w, t, hs, -, -⟩ := reg2_run_shape _ m hm
  obtain ⟨h1, h2, h3, h4⟩ := hc
  simp only [sensitiveKeywords, List.mem_cons, List.mem_singleton, List.not_mem_nil,
    or_false] at hK
  rcases hK with h | h | h | h | h <;> subst h <;>
    · simp only [String.data, List.cons_append] at hs
      injection hs with hs _
      first | exact h1 hs | exact h2 hs | exact h3 hs | exact h4 hs

/-- Redaction leaves the opening bracket, the newline and the space at the start of an
indented text in place. -/
theorem removeSensitiveChars_opening (o : Char) (Z : List Char) (ho : o = '{' ∨ o = '[') :
    ∃ Z1, removeSensitiveChars (o :: '\n' :: ' ' :: Z) = o :: '\n' :: ' ' :: Z1 := by
  unfold removeSensitiveChars ReplaceAllString
  obtain ⟨b1, h1⟩ := replace1_of_no_quote [o, '\n', ' '] Z false (by
    intro c hc
    simp only [List.mem_cons, List.mem_singleton, List.not_mem_nil, or_false] at hc
    rcases hc with h | h | h <;> subst h
    · rcases ho with h | h <;> subst h <;> decide
    · decide
    · decide)
  simp only [List.cons_append, List.nil_append] at h1
  simp only [h1]
  refine ⟨replaceAllAux reg2 repl2 0 false (replaceAllAux reg1 repl1 0 b1 Z), ?_⟩
  rw [replaceAllAux_no_match _ _ _ _ _ (reg2_run_of_not_initial o _ (by
      rcases ho with h | h <;> subst h <;> decide)),
    replaceAllAux_no_match _ _ _ _ _ (reg2_run_of_not_initial '\n' _ (by decide)),
    replaceAllAux_no_match _ _ _ _ _ (reg2_run_of_not_initial ' ' _ (by decide))]

/-! ## C13: valid JSON lines are indented and redacted -/

/-- C13 (as the code behaves): the line `"data: x"` is valid JSON (a string); its
indented rendering is the line itself, and the formatter emits the one line
`"data: ******`, which is neither the indented rendering nor more than one line.  The
valid lines `1` and `{}` are emitted as they are, on one line. -/
theorem C13_valid_scalar_line_stays_on_one_line :
    Json.Valid "\"data: x\"".data = true ∧
    Json.Indent "\"data: x\"".data [] [' '] = "\"data: x\"".data ∧
    prettyPrintJsonLines "\"data: x\"" = "\"data: ******" ∧
    Contains (prettyPrintJsonLines "\"data: x\"") "\n" = false ∧
    Json.Valid "1".data = true ∧ prettyPrintJsonLines "1" = "1" ∧
    Json.Valid "\x7b\x7d".data = true ∧ prettyPrintJsonLines "\x7b\x7d" = "\x7b\x7d" := by
  decide

/-- C13 (amended): for every dump and each of its lines that is valid JSON, the
formatter emits in place of that line the redaction of its indented rendering (one-space
indent, no prefix), the other lines being formatted in their own places; when the line
opens an object or an array that is not closed right away, the emitted text starts with
the opening bracket, a newline and one space, so it spans more than one line.  The line
`{"a":1}` is rendered as the three lines `{`, ` "a": 1`, `}`. -/
theorem C13_valid_line_is_indented_and_redacted (b : String)
    (before after : List (List Char)) (line : List Char)
    (hb : splitLines b.data = before ++ line :: after) (hv : Json.Valid line = true) :
    (prettyPrintJsonLines b).data
      = joinLines
          (before.map (fun p =>
              removeSensitiveChars (if Json.Valid p then Json.Indent p [] [' '] else p))
            ++ removeSensitiveChars (Json.Indent line [] [' '])
            :: after.map (fun p =>
              removeSensitiveChars (if Json.Valid p then Json.Indent p [] [' '] else p))) ∧
    (opensNonEmpty line = true →
      ∃ o Z, (o = '\x7b' ∨ o = '[') ∧
        removeSensitiveChars (Json.Indent line [] [' ']) = o :: '\n' :: ' ' :: Z) ∧
    prettyPrintJsonLines "\x7b\"a\":1\x7d" = "\x7b\n \"a\": 1\n\x7d" := by
  refine ⟨?_, ?_, by decide⟩
  · simp only [prettyPrintJsonLines, prettyPrintJsonLinesChars, hb, List.map_append,
      List.map_cons, List.map_map, hv, if_true]
    rfl
  · intro ho
    obtain ⟨o, Z, hoc, hZ⟩ := Indent_opens line hv ho
    obtain ⟨Z1, hZ1⟩ := removeSensitiveChars_opening o Z hoc
    exact ⟨o, Z1, hoc, by rw [hZ, hZ1]⟩

theorem C13_witness :
    splitLines "GET /\n [ \"data\", 1]\nx".data
      = ["GET /".data] ++ " [ \"data\", 1]".data :: ["x".data] ∧
    Json.Valid " [ \"data\", 1]".data = true ∧
    opensNonEmpty " [ \"data\", 1]".data = true ∧
    (prettyPrintJsonLines "GET /\n [ \"data\", 1]\nx").data
      = joinLines
          ((["GET /".data] : List (List Char)).map (fun p =>
              removeSensitiveChars (if Json.Valid p then Json.Indent p [] [' '] else p))
            ++ removeSensitiveChars (Json.Indent " [ \"data\", 1]".data [] [' '])
            :: (["x".data] : List (List Char)).map (fun p =>
              removeSensitiveChars (if Json.Valid p then Json.Indent p [] [' '] else p))) ∧
    (∃ o Z, (o = '\x7b' ∨ o = '[') ∧
        removeSensitiveChars (Json.Indent " [ \"data\", 1]".data [] [' '])
          = o :: '\n' :: ' ' :: Z) :=
  have h := C13_valid_line_is_indented_and_redacted "GET /\n [ \"data\", 1]\nx"
    ["GET /".data] ["x".data] " [ \"data\", 1]".data (by decide) (by decide)
  ⟨by decide, by decide, by decide, h.1, h.2.1 (by decide)⟩
/-! ## Theorems: redaction applied twice -/

/-- Two ways of cutting one text at the character `q`, the second at its first
occurrence. -/
theorem split_at_first (q : Char) (u a p r : List Char) (hu : q ∉ u)
    (h : a ++ q :: p = u ++ q :: r) :
    (a = u ∧ p = r) ∨ ∃ a1, a = u ++ q :: a1 ∧ r = a1 ++ q :: p := by
  induction u generalizing a with
  | nil =>
    cases a with
    | nil =>
      left
      simpa using h
    | cons x a =>
      simp only [List.cons_append, List.nil_append, List.cons.injEq] at h
      obtain ⟨rfl, h⟩ := h
      exact Or.inr ⟨a, rfl, h.symm⟩
  | cons y u ih =>
    cases a with
    | nil =>
      simp only [List.cons_append, List.nil_append, List.cons.injEq] at h
      exact absurd (h.1 ▸ List.mem_cons_self _ _) hu
    | cons x a =>
      simp only [List.cons_append, List.cons.injEq] at h
      obtain ⟨rfl, h⟩ := h
      rcases ih a (fun hm => hu (List.mem_cons_of_mem _ hm)) h with ⟨rfl, rfl⟩ | ⟨a1, rfl, rfl⟩
      · exact Or.inl ⟨rfl, rfl⟩
      · exact Or.inr ⟨a1, rfl, rfl⟩

theorem exists_no_quote_prefix (v rest : List Char) (hv : '\n' ∉ v) :
    ∃ v1 rest1, v ++ '"' :: rest = v1 ++ '"' :: rest1 ∧ ∀ c ∈ v1, c ≠ '"' ∧ c ≠ '\n' := by
  induction v with
  | nil => exact ⟨[], rest, rfl, by simp⟩
  | cons x v ih =>
    by_cases hx : x = '"'
    · subst hx
      exact ⟨[], v ++ '"' :: rest, rfl, by simp⟩
    · obtain ⟨v1, rest1, h1, h2⟩ := ih (fun hm => hv (List.mem_cons_of_mem _ hm))
      refine ⟨x :: v1, rest1, by simp [h1], ?_⟩
      intro c hc
      rcases List.mem_cons.mp hc with h | h
      · subst h
        exact ⟨hx, fun hn => hv (hn ▸ List.mem_cons_self _ _)⟩
      · exact h2 c h

/-- A match of the quoted pattern spells a quoted keyword, a colon, white space and a
quoted value. -/
theorem reg1_run_quotedAt (s : List Char) (m : Match) (h : m ∈ reg1.run s) : quotedAt s := by
  obtain ⟨K, hK, r, hs⟩ := reg1_run_shape s m h
  subst hs
  rw [reg1, run_seq, reg1Key_run K hK] at h
  simp only [List.flatMap_cons, List.flatMap_nil, List.append_nil, run_seq_lit,
    List.mem_map] at h
  obtain ⟨m2, ⟨m3, hm3, _⟩, _⟩ := h
  rw [run_seq_star, List.mem_flatMap] at hm3
  obtain ⟨x, hx, hm3⟩ := hm3
  obtain ⟨hx1, hx2⟩ := starRuns_mem _ _ _ x hx
  rw [List.mem_map] at hm3
  obtain ⟨m4, hm4, _⟩ := hm3
  obtain ⟨t1, ht1⟩ := run_seq_lit_mem _ _ _ m4 hm4
  rw [ht1, run_seq_lit, List.mem_map] at hm4
  obtain ⟨m5, hm5, _⟩ := hm4
  rw [run_seq_group_star, List.mem_flatMap] at hm5
  obtain ⟨y, hy, hm5⟩ := hm5
  obtain ⟨hy1, hy2⟩ := starRuns_mem _ _ _ y hy
  rw [List.mem_map] at hm5
  obtain ⟨m6, hm6, _⟩ := hm5
  have hy3 : ∃ t2, y.2 = '"' :: t2 := by
    cases hy2' : y.2 with
    | nil => rw [hy2'] at hm6; simp [Regex.run] at hm6
    | cons c cs =>
      rw [hy2'] at hm6
      by_cases hc : c = '"'
      · exact ⟨cs, by rw [hc]⟩
      · simp [Regex.run, hc] at hm6
  obtain ⟨t2, ht2⟩ := hy3
  have hnl : '\n' ∉ y.1 := by
    intro hmem
    have := hy2 _ hmem
    simp [isAnyNotNL] at this
  obtain ⟨v1, rest1, e1, hv1⟩ := exists_no_quote_prefix y.1 t2 hnl
  refine ⟨K, hK, x.1, v1, rest1, ?_, hx2, hv1⟩
  rw [hx1, ht1, hy1, ht2, e1]

theorem reg1_run_of_quotedAt (s : List Char) (h : quotedAt s) : reg1.run s ≠ [] := by
  obtain ⟨K, hK, w, v, rest, rfl, hw, hv⟩ := h
  obtain ⟨junk, hj⟩ := reg1_run_quoted K hK w v rest hw hv
  rw [hj]
  exact List.cons_ne_nil _ _

theorem reg1_run_nil_iff (s : List Char) : reg1.run s = [] ↔ ¬ quotedAt s := by
  constructor
  · intro h hq
    exact reg1_run_of_quotedAt s hq h
  · intro h
    rw [List.eq_nil_iff_forall_not_mem]
    intro m hm
    exact h (reg1_run_quotedAt s m hm)

theorem keyword_head (K : String) (hK : K ∈ sensitiveKeywords) :
    ∃ c t, K.data = c :: t ∧ c ≠ ':' ∧ c ≠ '"' := by
  simp only [sensitiveKeywords, List.mem_cons, List.mem_singleton, List.not_mem_nil, or_false] at hK
  rcases hK with h | h | h | h | h <;> subst h <;> exact ⟨_, _, rfl, by decide, by decide⟩

theorem keyword_no_colon (K : String) (hK : K ∈ sensitiveKeywords) : ':' ∉ K.data := by
  simp only [sensitiveKeywords, List.mem_cons, List.mem_singleton, List.not_mem_nil, or_false] at hK
  rcases hK with h | h | h | h | h <;> subst h <;> decide

theorem keyword_value (K : String) (hK : K ∈ sensitiveKeywords) :
    ∀ c ∈ K.data, c ≠ '"' ∧ c ≠ '\n' := by
  simp only [sensitiveKeywords, List.mem_cons, List.mem_singleton, List.not_mem_nil, or_false] at hK
  rcases hK with h | h | h | h | h <;> subst h <;> decide

/-- The quoted replacement either changes nothing or first changes the text behind a
quoted keyword. -/
theorem replace1_first_difference (cs : List Char) (b : Bool) :
    replaceAllAux reg1 repl1 0 b cs = cs ∨
    ∃ a K x y, K ∈ sensitiveKeywords ∧ cs = a ++ '"' :: (K.data ++ '"' :: x) ∧
      replaceAllAux reg1 repl1 0 b cs = a ++ '"' :: (K.data ++ '"' :: y) := by
  induction cs generalizing b with
  | nil => exact Or.inl (replaceAllAux_nil _ _ _ reg1_run_nil)
  | cons c cs ih =>
    by_cases hq : quotedAt (c :: cs)
    · obtain ⟨K, hK, w, v, rest, hs, hw, hv⟩ := hq
      right
      refine ⟨[], K, ':' :: (w ++ '"' :: (v ++ '"' :: rest)),
        ':' :: ' ' :: '"' :: (mask ++ '"' :: replaceAllAux reg1 repl1 0 true rest), hK, hs, ?_⟩
      rw [hs, replace1_quoted K hK w v rest b hw hv]
      rfl
    · have hrun := (reg1_run_nil_iff _).mpr hq
      rw [replaceAllAux_no_match _ _ _ _ _ hrun]
      rcases ih false with h | ⟨a, K, x, y, hK, h1, h2⟩
      · left
        rw [h]
      · right
        exact ⟨c :: a, K, x, y, hK, by rw [h1]; rfl, by rw [h2]; rfl⟩

/-- Where the quoted pattern does not match, it does not match after the rest of the
text went through the quoted replacement either. -/
theorem not_quotedAt_after_replace (c : Char) (cs : List Char) (b : Bool)
    (h : ¬ quotedAt (c :: cs)) : ¬ quotedAt (c :: replaceAllAux reg1 repl1 0 b cs) := by
  rcases replace1_first_difference cs b with e | ⟨a, K1, x, y, hK1, e1, e2⟩
  · rw [e]
    exact h
  · rw [e2]
    intro hq
    apply h
    rw [e1]
    obtain ⟨K, hK, w, v, rest, hs, hw, hv⟩ := hq
    simp only [List.cons.injEq] at hs
    obtain ⟨rfl, hs⟩ := hs
    rcases split_at_first '"' K.data a _ _ (keyword_no_quote K hK) hs with
      ⟨ha, h2⟩ | ⟨a1, ha, h2⟩
    · obtain ⟨k, t, hk, hk1, _⟩ := keyword_head K1 hK1
      rw [hk] at h2
      simp only [List.cons_append, List.cons.injEq] at h2
      exact absurd h2.1 hk1
    · cases a1 with
      | nil =>
        simp only [List.nil_append, List.cons.injEq] at h2
        exact absurd h2.1 (by decide)
      | cons z a2 =>
        simp only [List.cons_append, List.cons.injEq] at h2
        obtain ⟨hz, h2⟩ := h2
        have hwq : '"' ∉ w := fun hm => by
          have := hw _ hm
          revert this
          decide
        rcases split_at_first '"' w a2 _ _ hwq h2.symm with ⟨ha2, _⟩ | ⟨a3, ha2, h3⟩
        · refine ⟨K, hK, w, K1.data, x, ?_, hw, keyword_value K1 hK1⟩
          rw [ha, ← hz, ha2]
          simp
        · have hvq : '"' ∉ v := fun hm => (hv _ hm).1 rfl
          rcases split_at_first '"' v a3 _ _ hvq h3.symm with ⟨ha3, _⟩ | ⟨a4, ha3, _⟩
          · refine ⟨K, hK, w, v, K1.data ++ '"' :: x, ?_, hw, hv⟩
            rw [ha, ← hz, ha2, ha3]
            simp
          · refine ⟨K, hK, w, v, a4 ++ '"' :: (K1.data ++ '"' :: x), ?_, hw, hv⟩
            rw [ha, ← hz, ha2, ha3]
            simp

theorem stable1_replace (s : List Char) (b : Bool) :
    Stable1 (replaceAllAux reg1 repl1 0 b s) := by
  generalize hn : s.length = n
  induction n using Nat.strong_induction_on generalizing s b with
  | _ n ih =>
    cases s with
    | nil =>
      rw [replaceAllAux_nil _ _ _ reg1_run_nil]
      exact Stable1.nil
    | cons c cs =>
      by_cases hq : quotedAt (c :: cs)
      · obtain ⟨K, hK, w, v, rest, hs, hw, hv⟩ := hq
        rw [hs, replace1_quoted K hK w v rest b hw hv]
        apply Stable1.masked K _ hK
        refine ih rest.length ?_ rest true rfl
        rw [← hn, hs]
        simp only [List.length_cons, List.length_append]
        omega
      · have hrun := (reg1_run_nil_iff _).mpr hq
        rw [replaceAllAux_no_match _ _ _ _ _ hrun]
        apply Stable1.skip
        · exact (reg1_run_nil_iff _).mpr (not_quotedAt_after_replace c cs false hq)
        · exact ih cs.length (by rw [← hn]; simp) cs false rfl

theorem stable1_fixed (t : List Char) (h : Stable1 t) (b : Bool) :
    replaceAllAux reg1 repl1 0 b t = t := by
  induction h generalizing b with
  | nil => exact replaceAllAux_nil _ _ _ reg1_run_nil
  | skip c cs hrun _ ih => rw [replaceAllAux_no_match _ _ _ _ _ hrun, ih]
  | masked K rest hK _ ih =>
    have h1 := replace1_quoted K hK [' '] mask rest b (by decide) (by decide)
    simp only [List.singleton_append] at h1
    rw [h1, ih]

theorem reg2_run_nil_of_not_keyAt (s : List Char) (h : ¬ keyAt s) : reg2.run s = [] := by
  rw [List.eq_nil_iff_forall_not_mem]
  intro m hm
  obtain ⟨K, hK, w, t, hs, _, _⟩ := reg2_run_shape s m hm
  exact h ⟨K, hK, w ++ t, hs⟩

/-- Whether a text starts with a keyword and a colon does not depend on what follows
a colon in it. -/
theorem keyAt_tail (p x y : List Char) (h : keyAt (p ++ ':' :: y)) : keyAt (p ++ ':' :: x) := by
  obtain ⟨K, hK, t, ht⟩ := h
  rcases split_at_first ':' K.data p y t (keyword_no_colon K hK) ht with ⟨hp, _⟩ | ⟨a1, hp, _⟩
  · exact ⟨K, hK, x, by rw [hp]⟩
  · exact ⟨K, hK, a1 ++ ':' :: x, by rw [hp]; simp⟩

theorem dropWhile_no_newline (p : Char → Bool) (x : List Char) (hx : '\n' ∉ x) :
    '\n' ∉ x.dropWhile p :=
  fun h => hx ((List.dropWhile_sublist p).subset h)

/-- The bare replacement on a text without newline: nothing changes, or everything
from the first keyword with a colon on is masked, and the result is left as it is by
the bare replacement. -/
theorem replace2_cases (t : List Char) (ht : '\n' ∉ t) :
    replaceAllAux reg2 repl2 0 false t = t ∨
    ∃ a K x, K ∈ sensitiveKeywords ∧ t = a ++ (K.data ++ ':' :: x) ∧
      replaceAllAux reg2 repl2 0 false t = a ++ (K.data ++ ':' :: ' ' :: mask) ∧
      replaceAllAux reg2 repl2 0 false (a ++ (K.data ++ ':' :: ' ' :: mask))
        = a ++ (K.data ++ ':' :: ' ' :: mask) := by
  induction t with
  | nil => exact Or.inl (replaceAllAux_nil _ _ _ reg2_run_nil)
  | cons c cs ih =>
    by_cases hk : keyAt (c :: cs)
    · obtain ⟨K, hK, x, hs⟩ := hk
      right
      refine ⟨[], K, x, hK, hs, ?_, ?_⟩
      · rw [hs]
        have hx : '\n' ∉ x := fun h => ht (by rw [hs]; simp [h])
        exact replace2_bare K hK x (dropWhile_no_newline _ x hx)
      · exact replace2_bare K hK (' ' :: mask) (by decide)
    · rw [replaceAllAux_no_match _ _ _ _ _ (reg2_run_nil_of_not_keyAt _ hk)]
      rcases ih (fun h => ht (List.mem_cons_of_mem _ h)) with h | ⟨a, K, x, hK, h1, h2, h3⟩
      · left
        rw [h]
      · right
        refine ⟨c :: a, K, x, hK, by rw [h1]; rfl, by rw [h2]; rfl, ?_⟩
        have hk1 : ¬ keyAt (c :: a ++ (K.data ++ ':' :: ' ' :: mask)) := by
          intro hq
          apply hk
          rw [h1]
          have e : ∀ z, c :: a ++ (K.data ++ ':' :: z) = (c :: a ++ K.data) ++ ':' :: z := by
            intro z
            simp
          rw [show c :: (a ++ (K.data ++ ':' :: x)) = c :: a ++ (K.data ++ ':' :: x) from rfl, e]
          rw [e] at hq
          exact keyAt_tail _ _ _ hq
        have hrun := reg2_run_nil_of_not_keyAt _ hk1
        rw [List.cons_append] at hrun ⊢
        rw [replaceAllAux_no_match _ _ _ _ _ hrun, h3]

theorem replace2_idem (t : List Char) (ht : '\n' ∉ t) :
    replaceAllAux reg2 repl2 0 false (replaceAllAux reg2 repl2 0 false t)
      = replaceAllAux reg2 repl2 0 false t := by
  rcases replace2_cases t ht with h | ⟨a, K, x, _, _, h2, h3⟩
  · rw [h, h]
  · rw [h2, h3]

theorem stable1_of_no_quote (y : List Char) (hy : '"' ∉ y) : Stable1 y := by
  induction y with
  | nil => exact Stable1.nil
  | cons c cs ih =>
    exact Stable1.skip c cs
      (reg1_run_of_ne_quote c cs (fun h => hy (h ▸ List.mem_cons_self _ _)))
      (ih (fun hm => hy (List.mem_cons_of_mem _ hm)))

theorem last_mem_of_append_eq (a b u : List Char) (q : Char) (hb : b ≠ [])
    (h : a ++ b = u ++ [q]) : q ∈ b := by
  rcases List.eq_nil_or_concat b with h0 | ⟨b1, l, rfl⟩
  · exact absurd h0 hb
  · rw [List.concat_eq_append, ← List.append_assoc] at h
    have := List.append_inj' h rfl
    simp only [List.cons.injEq, and_true] at this
    rw [List.concat_eq_append, this.2]
    simp

/-- A match of the quoted pattern ends with a quote, so it does not reach into a
tail without quotes. -/
theorem quotedAt_cut (a T1 T2 : List Char) (hT : '"' ∉ T1)
    (h : quotedAt (a ++ T1)) : quotedAt (a ++ T2) := by
  obtain ⟨K, hK, w, v, rest, hs, hw, hv⟩ := h
  have e : '"' :: (K.data ++ '"' :: ':' :: (w ++ '"' :: (v ++ '"' :: rest)))
      = ('"' :: (K.data ++ '"' :: ':' :: (w ++ '"' :: v)) ++ ['"']) ++ rest := by simp
  rw [e] at hs
  rcases List.append_eq_append_iff.mp hs with ⟨a1, h1, h2⟩ | ⟨c1, h1, _⟩
  · cases a1 with
    | nil =>
      refine ⟨K, hK, w, v, T2, ?_, hw, hv⟩
      rw [List.append_nil] at h1
      rw [← h1]
      simp
    | cons z a2 =>
      have hq := last_mem_of_append_eq a (z :: a2) _ '"' (List.cons_ne_nil _ _) h1.symm
      exact absurd (h2 ▸ List.mem_append_left _ hq) hT
  · refine ⟨K, hK, w, v, c1 ++ T2, ?_, hw, hv⟩
    rw [h1]
    simp

/-- A keyword with its colon does not start inside a masked pair and run over its end. -/
theorem masked_no_key_inside (a a1 : List Char) (K0 K : String)
    (hK0 : K0 ∈ sensitiveKeywords) (hK : K ∈ sensitiveKeywords) (x rest : List Char)
    (ha1 : a1 ≠ [])
    (hE : '"' :: (K0.data ++ '"' :: ':' :: ' ' :: '"' :: (mask ++ ['"'])) = a ++ a1)
    (hT : K.data ++ ':' :: x = a1 ++ rest) : False := by
  rcases List.eq_nil_or_concat a1 with h0 | ⟨a2, l, rfl⟩
  · exact ha1 h0
  · rw [List.concat_eq_append] at hE hT
    have e : '"' :: (K0.data ++ '"' :: ':' :: ' ' :: '"' :: (mask ++ ['"']))
        = ('"' :: (K0.data ++ ['"'])) ++ ':' :: (' ' :: '"' :: mask) ++ ['"'] := by simp
    rw [e, ← List.append_assoc a] at hE
    obtain ⟨hE1, hl⟩ := List.append_inj' hE rfl
    simp only [List.cons.injEq, and_true] at hl
    subst hl
    have hT1 : (K.data ++ [':']) ++ x = a2 ++ '"' :: rest := by
      have e2 : a2 ++ '"' :: rest = a2 ++ ['"'] ++ rest := by simp
      rw [e2, ← hT]
      simp
    have ha2 : ∃ a3, a2 = (K.data ++ [':']) ++ a3 := by
      rcases List.append_eq_append_iff.mp hT1 with ⟨a3, h1, _⟩ | ⟨c1, h1, h2⟩
      · exact ⟨a3, h1⟩
      · cases c1 with
        | nil => exact ⟨[], by rw [h1]; simp⟩
        | cons z c2 =>
          simp only [List.cons_append, List.cons.injEq] at h2
          exfalso
          apply keyword_colon_no_quote K hK
          rw [h1, ← h2.1]
          simp
    obtain ⟨a3, rfl⟩ := ha2
    have hE2 : (a ++ K.data) ++ ':' :: a3
        = ('"' :: (K0.data ++ ['"'])) ++ ':' :: (' ' :: '"' :: mask) := by
      rw [hE1]
      simp
    have hu : ':' ∉ '"' :: (K0.data ++ ['"']) := by
      intro hm
      simp only [List.mem_cons, List.mem_append, List.mem_singleton, List.not_mem_nil,
        or_false] at hm
      rcases hm with h | h | h
      · exact absurd h (by decide)
      · exact keyword_no_colon K0 hK0 h
      · exact absurd h (by decide)
    obtain ⟨k, t, hk, _, _⟩ := keyword_head K hK
    have hKne : K.data ≠ [] := by
      rw [hk]
      exact List.cons_ne_nil _ _
    rcases split_at_first ':' _ _ _ _ hu hE2 with ⟨h1, _⟩ | ⟨a4, _, h2⟩
    · have hq := last_mem_of_append_eq a K.data ('"' :: K0.data) '"' hKne (by rw [h1]; simp)
      exact keyword_no_quote K hK hq
    · have hc : ':' ∈ ' ' :: '"' :: mask := by
        rw [h2]
        simp
      revert hc
      decide

/-- Cutting a stable text at a keyword with a colon and putting a tail without quotes
behind it leaves it stable. -/
theorem stable1_cut (a : List Char) (K : String) (hK : K ∈ sensitiveKeywords)
    (x y : List Char) (hy : '"' ∉ y) (h : Stable1 (a ++ (K.data ++ ':' :: x))) :
    Stable1 (a ++ (K.data ++ ':' :: y)) := by
  have hT : '"' ∉ K.data ++ ':' :: y := by
    intro hm
    rcases List.mem_append.mp hm with h1 | h1
    · exact keyword_no_quote K hK h1
    · rcases List.mem_cons.mp h1 with h2 | h2
      · exact absurd h2 (by decide)
      · exact hy h2
  generalize hn : a.length = n
  induction n using Nat.strong_induction_on generalizing a with
  | _ n ih =>
    generalize ht : a ++ (K.data ++ ':' :: x) = t at h
    cases h with
    | nil =>
      simp at ht
    | skip c cs hrun hst =>
      cases a with
      | nil => exact stable1_of_no_quote _ hT
      | cons c1 a1 =>
        simp only [List.cons_append, List.cons.injEq] at ht
        obtain ⟨rfl, rfl⟩ := ht
        apply Stable1.skip
        · rw [reg1_run_nil_iff] at hrun ⊢
          intro hq
          exact hrun (quotedAt_cut (c1 :: a1) _ _ hT hq)
        · exact ih a1.length (by rw [← hn]; simp) a1 hst rfl
    | masked K0 rest hK0 hst =>
      have e : '"' :: (K0.data ++ '"' :: ':' :: ' ' :: '"' :: (mask ++ '"' :: rest))
          = ('"' :: (K0.data ++ '"' :: ':' :: ' ' :: '"' :: (mask ++ ['"']))) ++ rest := by
        simp
      rw [e] at ht
      rcases List.append_eq_append_iff.mp ht with ⟨a1, h1, h2⟩ | ⟨c1, h1, h2⟩
      · cases a1 with
        | nil =>
          rw [List.append_nil] at h1
          rw [← h1]
          have := Stable1.masked K0 _ hK0 (stable1_of_no_quote _ hT)
          convert this using 1
          simp
        | cons z a2 =>
          exact (masked_no_key_inside a (z :: a2) K0 K hK0 hK x rest (List.cons_ne_nil _ _)
            h1 h2).elim
      · rw [h2] at hst
        have hlen : c1.length < n := by
          rw [← hn, h1]
          simp only [List.length_cons, List.length_append]
          omega
        have := Stable1.masked K0 _ hK0 (ih c1.length hlen c1 hst rfl)
        rw [h1]
        convert this using 1
        simp

theorem stable1_replace2 (t : List Char) (h : Stable1 t) (ht : '\n' ∉ t) :
    Stable1 (replaceAllAux reg2 repl2 0 false t) := by
  rcases replace2_cases t ht with h0 | ⟨a, K, x, hK, h1, h2, _⟩
  · rw [h0]
    exact h
  · rw [h2]
    rw [h1] at h
    exact stable1_cut a K hK x (' ' :: mask) (by decide) h

/-- Redaction applied twice to a text without newline gives what redaction applied once
gives. -/
theorem removeSensitiveChars_idem (s : List Char) (hs : '\n' ∉ s) :
    removeSensitiveChars (removeSensitiveChars s) = removeSensitiveChars s := by
  unfold removeSensitiveChars ReplaceAllString
  simp only []
  have h1 : Stable1 (replaceAllAux reg1 repl1 0 false s) := stable1_replace s false
  have hn1 := replace1_no_newline s 0 false hs
  have h2 := stable1_replace2 _ h1 hn1
  rw [stable1_fixed _ h2 false, replace2_idem _ hn1]

theorem maskMember_plain (m : Member) (hm : plainMember m) : plainMember (maskMember m) := by
  unfold maskMember
  split
  · exact ⟨hm.1, mask_plain⟩
  · exact hm

theorem maskMember_idem (m : Member) : maskMember (maskMember m) = maskMember m := by
  unfold maskMember
  by_cases h : m.1 ∈ sensitiveKeywords.map String.data
  · simp only [h, if_true]
  · simp only [h, if_false]

/-- Redaction applied twice to the indented form of a flat object gives what redaction
applied once gives. -/
theorem removeSensitiveChars_idem_indentedObject (ms : List Member) (hne : ms ≠ [])
    (hm : ∀ x ∈ ms, plainMember x) :
    removeSensitiveChars (removeSensitiveChars (indentedObject ms))
      = removeSensitiveChars (indentedObject ms) := by
  cases ms with
  | nil => exact absurd rfl hne
  | cons m ms =>
    rw [removeSensitiveChars_indentedObject m ms hm]
    have hm1 : ∀ x ∈ maskMember m :: ms.map maskMember, plainMember x := by
      intro x hx
      rw [← List.map_cons] at hx
      obtain ⟨y, hy, rfl⟩ := List.mem_map.mp hx
      exact maskMember_plain y (hm y hy)
    rw [List.map_cons, removeSensitiveChars_indentedObject _ _ hm1, ← List.map_cons,
      List.map_map]
    congr 1
    apply List.map_congr_left
    intro x _
    exact maskMember_idem x

open Base64

/-! ## Theorems: base64 decoding undoes encoding -/

theorem decodeMap_encode : ∀ i, i < 64 → decodeMap (encode i) = i := by decide

theorem decodeMap_padding : decodeMap '=' = 0xFF := by decide

theorem or_eq_add (x y k : Nat) (hx : x % 2 ^ k = 0) (hy : y < 2 ^ k) : x ||| y = x + y := by
  obtain ⟨a, rfl⟩ := Nat.dvd_of_mod_eq_zero hx
  exact (Nat.mul_add_lt_is_or hy a).symm

/-- Three bytes joined by shifts are the number with those base-256 digits. -/
theorem val_of_bytes (b0 b1 b2 : Nat) (h1 : b1 < 256) (h2 : b2 < 256) :
    (b0 <<< 16) ||| (b1 <<< 8) ||| b2 = b0 * 65536 + b1 * 256 + b2 := by
  rw [Nat.shiftLeft_eq, Nat.shiftLeft_eq]
  rw [or_eq_add (b0 * 2 ^ 16) (b1 * 2 ^ 8) 16 (by omega) (by omega)]
  rw [or_eq_add (b0 * 2 ^ 16 + b1 * 2 ^ 8) b2 8 (by omega) (by omega)]

/-- Four six-bit values joined by shifts are the number with those base-64 digits. -/
theorem val_of_sextets (i0 i1 i2 i3 : Nat) (h1 : i1 < 64) (h2 : i2 < 64) (h3 : i3 < 64) :
    (i0 <<< 18) ||| (i1 <<< 12) ||| (i2 <<< 6) ||| i3
      = i0 * 262144 + i1 * 4096 + i2 * 64 + i3 := by
  rw [Nat.shiftLeft_eq, Nat.shiftLeft_eq, Nat.shiftLeft_eq]
  rw [or_eq_add (i0 * 2 ^ 18) (i1 * 2 ^ 12) 18 (by omega) (by omega)]
  rw [or_eq_add (i0 * 2 ^ 18 + i1 * 2 ^ 12) (i2 * 2 ^ 6) 12 (by omega) (by omega)]
  rw [or_eq_add (i0 * 2 ^ 18 + i1 * 2 ^ 12 + i2 * 2 ^ 6) i3 6 (by omega) (by omega)]

theorem sextet_eq0 (val : Nat) : val &&& 0x3F = val % 64 :=
  Nat.and_pow_two_sub_one_eq_mod _ 6

/-- The bytes of a full quantum come back from the six-bit values they were cut into. -/
theorem assemble_full (b0 b1 b2 : Nat) (h0 : b0 < 256) (h1 : b1 < 256) (h2 : b2 < 256) :
    assemble [(b0 * 65536 + b1 * 256 + b2) / 2 ^ 18 % 64,
        (b0 * 65536 + b1 * 256 + b2) / 2 ^ 12 % 64,
        (b0 * 65536 + b1 * 256 + b2) / 2 ^ 6 % 64,
        (b0 * 65536 + b1 * 256 + b2) % 64] 4 = [b0, b1, b2] := by
  unfold assemble
  simp only [List.getD_cons_zero, List.getD_cons_succ]
  rw [val_of_sextets _ _ _ _ (Nat.mod_lt _ (by decide)) (Nat.mod_lt _ (by decide))
    (Nat.mod_lt _ (by decide))]
  simp only [Nat.shiftRight_eq_div_pow]
  have e : [b0, b1, b2].take (4 - 1) = [b0, b1, b2] := rfl
  rw [← e]
  congr 1
  simp only [List.cons.injEq, and_true]
  refine ⟨?_, ?_, ?_⟩ <;> omega

theorem assemble_two (b0 b1 : Nat) (h0 : b0 < 256) (h1 : b1 < 256) :
    assemble [(b0 * 65536 + b1 * 256) / 2 ^ 18 % 64,
        (b0 * 65536 + b1 * 256) / 2 ^ 12 % 64,
        (b0 * 65536 + b1 * 256) / 2 ^ 6 % 64] 3 = [b0, b1] := by
  unfold assemble
  simp only [List.getD_cons_zero, List.getD_cons_succ, List.getD_nil]
  rw [val_of_sextets _ _ _ _ (Nat.mod_lt _ (by decide)) (Nat.mod_lt _ (by decide))
    (by decide)]
  simp only [Nat.shiftRight_eq_div_pow]
  have e : ∀ z, [b0, b1, z].take (3 - 1) = [b0, b1] := fun _ => rfl
  rw [← e ((b0 * 65536 + b1 * 256) % 256)]
  congr 1
  simp only [List.cons.injEq, and_true]
  refine ⟨?_, ?_, ?_⟩ <;> omega

theorem assemble_one (b0 : Nat) (h0 : b0 < 256) :
    assemble [(b0 * 65536) / 2 ^ 18 % 64, (b0 * 65536) / 2 ^ 12 % 64] 2 = [b0] := by
  unfold assemble
  simp only [List.getD_cons_zero, List.getD_cons_succ, List.getD_nil]
  rw [val_of_sextets _ _ _ _ (Nat.mod_lt _ (by decide)) (by decide) (by decide)]
  simp only [Nat.shiftRight_eq_div_pow]
  have e : ∀ y z, [b0, y, z].take (2 - 1) = [b0] := fun _ _ => rfl
  rw [← e ((b0 * 65536) / 256 % 256) ((b0 * 65536) % 256)]
  congr 1
  simp only [List.cons.injEq, and_true]
  refine ⟨?_, ?_, ?_⟩ <;> omega

/-- One character of the alphabet is read as its six-bit value. -/
theorem decodeFrom_valid (j : Nat) (dbuf : List Nat) (i : Nat) (rest : List Char)
    (si : Nat) (dst : List Nat) (hi : i < 64) :
    decodeFrom j dbuf (encode i :: rest) si dst
      = if j + 1 < 4 then decodeFrom (j + 1) (dbuf ++ [i]) rest (si + 1) dst
        else decodeFrom 0 [] rest (si + 1) (dst ++ assemble (dbuf ++ [i]) 4) := by
  rw [decodeFrom.eq_def]
  have hne : i ≠ 0xFF := by omega
  simp only [decodeMap_encode i hi, ne_eq, hne, not_false_eq_true, if_true]

/-- Four characters of the alphabet are read as one quantum. -/
theorem decodeFrom_quantum (i0 i1 i2 i3 : Nat) (rest : List Char) (si : Nat) (dst : List Nat)
    (h0 : i0 < 64) (h1 : i1 < 64) (h2 : i2 < 64) (h3 : i3 < 64) :
    decodeFrom 0 [] (encode i0 :: encode i1 :: encode i2 :: encode i3 :: rest) si dst
      = decodeFrom 0 [] rest (si + 4) (dst ++ assemble [i0, i1, i2, i3] 4) := by
  rw [decodeFrom_valid _ _ _ _ _ _ h0, if_pos (by decide),
    decodeFrom_valid _ _ _ _ _ _ h1, if_pos (by decide),
    decodeFrom_valid _ _ _ _ _ _ h2, if_pos (by decide),
    decodeFrom_valid _ _ _ _ _ _ h3, if_neg (by decide)]
  rfl

theorem decodeFrom_padding_one (dbuf : List Nat) (si : Nat) (dst : List Nat) :
    decodeFrom 3 dbuf [StdPadding] si dst = (dst ++ assemble dbuf 3, none) := by
  rw [decodeFrom.eq_def]
  simp [decodeMap_padding, StdPadding, afterPadding]

theorem decodeFrom_padding_two (dbuf : List Nat) (si : Nat) (dst : List Nat) :
    decodeFrom 2 dbuf [StdPadding, StdPadding] si dst = (dst ++ assemble dbuf 2, none) := by
  rw [decodeFrom.eq_def]
  simp [decodeMap_padding, StdPadding, afterPadding, isNewline, List.dropWhile]

/-- Decoding the encoding of a slice of bytes, from any offset and after any bytes
already written, appends the slice and reports no error. -/
theorem decodeFrom_Encode (v : List Nat) (hv : ∀ b ∈ v, b < 256) (si : Nat) (dst : List Nat) :
    decodeFrom 0 [] (Encode v) si dst = (dst ++ v, none) := by
  induction v using Encode.induct generalizing si dst with
  | case1 b0 b1 b2 rest ih =>
    have h0 : b0 < 256 := hv b0 (by simp)
    have h1 : b1 < 256 := hv b1 (by simp)
    have h2 : b2 < 256 := hv b2 (by simp)
    rw [Encode]
    simp only [val_of_bytes b0 b1 b2 h1 h2, sextet_eq0, Nat.shiftRight_eq_div_pow]
    rw [decodeFrom_quantum _ _ _ _ _ _ _ (Nat.mod_lt _ (by decide)) (Nat.mod_lt _ (by decide))
      (Nat.mod_lt _ (by decide)) (Nat.mod_lt _ (by decide)),
      assemble_full b0 b1 b2 h0 h1 h2,
      ih (fun b hb => hv b (by simp [hb])) (si + 4) (dst ++ [b0, b1, b2])]
    simp
  | case2 b0 b1 =>
    have h0 : b0 < 256 := hv b0 (by simp)
    have h1 : b1 < 256 := hv b1 (by simp)
    rw [Encode]
    have hval : (b0 <<< 16) ||| (b1 <<< 8) = b0 * 65536 + b1 * 256 := by
      have := val_of_bytes b0 b1 0 h1 (by decide)
      simpa using this
    simp only [hval, sextet_eq0, Nat.shiftRight_eq_div_pow]
    rw [decodeFrom_valid _ _ _ _ _ _ (Nat.mod_lt _ (by decide)), if_pos (by decide),
      decodeFrom_valid _ _ _ _ _ _ (Nat.mod_lt _ (by decide)), if_pos (by decide),
      decodeFrom_valid _ _ _ _ _ _ (Nat.mod_lt _ (by decide)), if_pos (by decide),
      decodeFrom_padding_one]
    simp only [List.nil_append, List.cons_append]
    rw [assemble_two b0 b1 h0 h1]
  | case3 b0 =>
    have h0 : b0 < 256 := hv b0 (by simp)
    rw [Encode]
    have hval : b0 <<< 16 = b0 * 65536 := by
      rw [Nat.shiftLeft_eq]
    simp only [hval, sextet_eq0, Nat.shiftRight_eq_div_pow]
    rw [decodeFrom_valid _ _ _ _ _ _ (Nat.mod_lt _ (by decide)), if_pos (by decide),
      decodeFrom_valid _ _ _ _ _ _ (Nat.mod_lt _ (by decide)), if_pos (by decide),
      decodeFrom_padding_two]
    simp only [List.nil_append, List.cons_append]
    rw [assemble_one b0 h0]
  | case4 =>
    rw [Encode, decodeFrom]
    simp

/-- Go `DecodeString` gives back the bytes that `EncodeToString` was given, with no
error. -/
theorem DecodeString_EncodeToString (v : List Nat) (hv : ∀ b ∈ v, b < 256) :
    DecodeString (EncodeToString v) = (v, none) := by
  unfold DecodeString EncodeToString
  rw [decodeFrom_Encode v hv 0 []]
  rfl

/-! ## Theorems: maps of base64 text -/

theorem stringMap_set_new {V : Type} (m : StringMap V) (k : String) (v : V)
    (hk : k ∉ m.map Prod.fst) : m.set k v = m ++ [(k, v)] := by
  induction m with
  | nil => rfl
  | cons p m ih =>
    obtain ⟨k0, v0⟩ := p
    have hne : k0 ≠ k := fun h => hk (by simp [h])
    have hm : k ∉ m.map Prod.fst := fun h => hk (by simp [h])
    simp only [StringMap.set, hne, if_false, ih hm, List.cons_append]

theorem nodup_keys_step {V W : Type} (acc : StringMap W) (k : String) (v : V) (w : W)
    (m : StringMap V)
    (h : (acc.map Prod.fst ++ (((k, v) :: m).map Prod.fst)).Nodup) :
    k ∉ acc.map Prod.fst ∧ ((acc ++ [(k, w)]).map Prod.fst ++ m.map Prod.fst).Nodup := by
  simp only [List.map_cons, List.map_append, List.map_nil, List.append_assoc,
    List.singleton_append] at h ⊢
  refine ⟨?_, h⟩
  intro hk
  have := (List.nodup_append.mp h).2.2
  exact this hk (List.mem_cons_self _ _)

/-- Filling an empty map entry by entry from a map gives the entries in the same order. -/
theorem stringMap_foldl_set {V W : Type} (f : V → W) (m : StringMap V) (acc : StringMap W)
    (h : (acc.map Prod.fst ++ m.map Prod.fst).Nodup) :
    m.foldl (fun result p => result.set p.1 (f p.2)) acc
      = acc ++ m.map (fun p => (p.1, f p.2)) := by
  induction m generalizing acc with
  | nil => simp
  | cons p m ih =>
    obtain ⟨k, v⟩ := p
    obtain ⟨hk, hnd⟩ := nodup_keys_step acc k v (f v) m h
    rw [List.foldl_cons, stringMap_set_new acc k (f v) hk, ih _ hnd]
    simp

theorem base64EncodeByteMap_eq (m : StringMap (List Nat)) (hkeys : (m.map Prod.fst).Nodup) :
    base64EncodeByteMap m = m.map (fun p => (p.1, Any.str (Base64.EncodeToString p.2))) := by
  unfold base64EncodeByteMap
  rw [stringMap_foldl_set (fun v => Any.str (Base64.EncodeToString v)) m [] (by simpa using hkeys)]
  rfl

theorem FlattenByteMapToBase64Map_eq (m : StringMap (List Nat))
    (hkeys : (m.map Prod.fst).Nodup) :
    FlattenByteMapToBase64Map m = m.map (fun p => (p.1, Base64.EncodeToString p.2)) := by
  unfold FlattenByteMapToBase64Map
  rw [stringMap_foldl_set (fun v => Base64.EncodeToString v) m [] (by simpa using hkeys)]
  rfl

theorem expandLoop_encoded (m acc : StringMap (List Nat))
    (hk : (acc.map Prod.fst ++ m.map Prod.fst).Nodup)
    (hb : ∀ p ∈ m, ∀ b ∈ p.2, b < 256) :
    ExpandBase64MapToByteMapLoop
        (m.map (fun p => (p.1, Any.str (Base64.EncodeToString p.2)))) acc
      = some (acc ++ m) := by
  induction m generalizing acc with
  | nil => simp [ExpandBase64MapToByteMapLoop]
  | cons p m ih =>
    obtain ⟨k, v⟩ := p
    obtain ⟨hk1, hnd⟩ := nodup_keys_step acc k v v m hk
    rw [List.map_cons, ExpandBase64MapToByteMapLoop,
      DecodeString_EncodeToString v (hb (k, v) (List.mem_cons_self _ _))]
    simp only []
    rw [stringMap_set_new acc k v hk1,
      ih _ hnd (fun p hp => hb p (List.mem_cons_of_mem _ hp))]
    simp

theorem decodeLoop_encoded (m acc : StringMap (List Nat))
    (hk : (acc.map Prod.fst ++ m.map Prod.fst).Nodup)
    (hb : ∀ p ∈ m, ∀ b ∈ p.2, b < 256) :
    base64DecodeStringMapLoop
        (m.map (fun p => (p.1, Any.str (Base64.EncodeToString p.2)))) acc
      = some (.ok (acc ++ m)) := by
  induction m generalizing acc with
  | nil => simp [base64DecodeStringMapLoop]
  | cons p m ih =>
    obtain ⟨k, v⟩ := p
    obtain ⟨hk1, hnd⟩ := nodup_keys_step acc k v v m hk
    rw [List.map_cons, base64DecodeStringMapLoop,
      DecodeString_EncodeToString v (hb (k, v) (List.mem_cons_self _ _))]
    simp only []
    rw [stringMap_set_new acc k v hk1,
      ih _ hnd (fun p hp => hb p (List.mem_cons_of_mem _ hp))]
    simp

/-! ## C21: base64 map decoding undoes encoding -/

/-- C21: for every map `m` from strings to byte strings (distinct keys, values made of
bytes), `ExpandBase64MapToByteMap (base64EncodeByteMap m)` is `m`,
`base64DecodeStringMap (base64EncodeByteMap m)` is `m` with no error, and decoding the
values of `FlattenByteMapToBase64Map m` with `ExpandBase64MapToByteMap` gives `m` back,
the flattened map having the keys of `m`; none of the calls panics. -/
theorem C21_base64_map_decoding_undoes_encoding (m : StringMap (List Nat))
    (hkeys : (m.map Prod.fst).Nodup) (hbytes : ∀ p ∈ m, ∀ b ∈ p.2, b < 256) :
    ExpandBase64MapToByteMap (base64EncodeByteMap m) = some m ∧
    base64DecodeStringMap (base64EncodeByteMap m) = some (.ok m) ∧
    ExpandBase64MapToByteMap (asInterfaceMap (FlattenByteMapToBase64Map m)) = some m ∧
    (FlattenByteMapToBase64Map m).map Prod.fst = m.map Prod.fst := by
  have hk0 : (([] : StringMap (List Nat)).map Prod.fst ++ m.map Prod.fst).Nodup := by
    simpa using hkeys
  refine ⟨?_, ?_, ?_, ?_⟩
  · rw [base64EncodeByteMap_eq m hkeys]
    unfold ExpandBase64MapToByteMap
    rw [expandLoop_encoded m [] hk0 hbytes]
    rfl
  · rw [base64EncodeByteMap_eq m hkeys]
    unfold base64DecodeStringMap
    rw [decodeLoop_encoded m [] hk0 hbytes]
    rfl
  · rw [FlattenByteMapToBase64Map_eq m hkeys]
    unfold ExpandBase64MapToByteMap asInterfaceMap
    rw [List.map_map]
    have e : ((fun p : String × String => (p.1, Any.str p.2)) ∘
        (fun p : String × List Nat => (p.1, Base64.EncodeToString p.2)))
        = (fun p : String × List Nat => (p.1, Any.str (Base64.EncodeToString p.2))) := rfl
    rw [e, expandLoop_encoded m [] hk0 hbytes]
    rfl
  · rw [FlattenByteMapToBase64Map_eq m hkeys, List.map_map]
    rfl

theorem C21_witness :
    (([("password", [112, 97, 115, 115]), ("empty", []), ("key", [255, 0])] :
        StringMap (List Nat)).map Prod.fst).Nodup ∧
    (∀ p ∈ ([("password", [112, 97, 115, 115]), ("empty", []), ("key", [255, 0])] :
        StringMap (List Nat)), ∀ b ∈ p.2, b < 256) ∧
    base64EncodeByteMap [("password", [112, 97, 115, 115]), ("empty", []), ("key", [255, 0])]
      = [("password", Any.str "cGFzcw=="), ("empty", Any.str ""), ("key", Any.str "/wA=")] ∧
    ExpandBase64MapToByteMap (base64EncodeByteMap
        [("password", [112, 97, 115, 115]), ("empty", []), ("key", [255, 0])])
      = some [("password", [112, 97, 115, 115]), ("empty", []), ("key", [255, 0])] ∧
    base64DecodeStringMap (base64EncodeByteMap
        [("password", [112, 97, 115, 115]), ("empty", []), ("key", [255, 0])])
      = some (.ok [("password", [112, 97, 115, 115]), ("empty", []), ("key", [255, 0])]) :=
  have h := C21_base64_map_decoding_undoes_encoding
    [("password", [112, 97, 115, 115]), ("empty", []), ("key", [255, 0])]
    (by decide) (by decide)
  ⟨by decide, by decide, by decide, h.1, h.2.1⟩

/-! ## Theorems: redaction applied twice to text with newlines -/

theorem noNewlineAfterColon_of_no_newline (s : List Char) (b : Bool) (hs : '\n' ∉ s) :
    noNewlineAfterColon b s = true := by
  induction s generalizing b with
  | nil => rfl
  | cons c cs ih =>
    have hc : c ≠ '\n' := fun h => hs (h ▸ List.mem_cons_self _ _)
    have e : (b && c == '\n') = false := by simp [hc]
    rw [noNewlineAfterColon, e]
    simp only [Bool.false_eq_true, if_false]
    exact ih _ (fun h => hs (List.mem_cons_of_mem _ h))

theorem noNewlineAfterColon_cons (b : Bool) (c : Char) (cs : List Char)
    (h : noNewlineAfterColon b (c :: cs) = true) :
    ¬ (b = true ∧ c = '\n') ∧
      noNewlineAfterColon (c == ':' || (b && isPerlSpace c)) cs = true := by
  rw [noNewlineAfterColon] at h
  by_cases hb : (b && c == '\n') = true
  · rw [if_pos hb] at h
    exact Bool.noConfusion h
  · rw [if_neg hb] at h
    refine ⟨fun hh => hb ?_, h⟩
    simp [hh.1, hh.2]

/-- After a colon and white space no newline follows in the white space that comes next. -/
theorem takeWhile_of_pending (y : List Char) (h : noNewlineAfterColon true y = true) :
    '\n' ∉ y.takeWhile isPerlSpace := by
  induction y with
  | nil => simp
  | cons c cs ih =>
    obtain ⟨h1, h2⟩ := noNewlineAfterColon_cons true c cs h
    have hc : c ≠ '\n' := fun hh => h1 ⟨rfl, hh⟩
    by_cases hp : isPerlSpace c = true
    · have hne : (c == ':') = false := by
        rw [beq_eq_false_iff_ne]
        intro hh
        rw [hh] at hp
        revert hp
        decide
      rw [List.takeWhile_cons, if_pos hp]
      simp only [hne, hp, Bool.true_and, Bool.false_or] at h2
      intro hm
      rcases List.mem_cons.mp hm with hh | hh
      · exact hc hh.symm
      · exact ih h2 hh
    · rw [List.takeWhile_cons, if_neg hp]
      simp

theorem noNewlineAfterColon_colon (p y : List Char) (b : Bool)
    (h : noNewlineAfterColon b (p ++ ':' :: y) = true) :
    '\n' ∉ y.takeWhile isPerlSpace := by
  induction p generalizing b with
  | nil =>
    obtain ⟨_, h2⟩ := noNewlineAfterColon_cons b ':' y h
    simp only [beq_self_eq_true, Bool.true_or] at h2
    exact takeWhile_of_pending y h2
  | cons c cs ih =>
    obtain ⟨_, h2⟩ := noNewlineAfterColon_cons b c _ h
    exact ih _ h2

/-- Behind a double quote the text is read afresh. -/
theorem noNewlineAfterColon_quote (x rest : List Char) (b : Bool)
    (h : noNewlineAfterColon b (x ++ '"' :: rest) = true) :
    noNewlineAfterColon false rest = true := by
  induction x generalizing b with
  | nil =>
    obtain ⟨_, h2⟩ := noNewlineAfterColon_cons b '"' rest h
    have e : ('"' == ':' || (b && isPerlSpace '"')) = false := by
      cases b <;> decide
    rw [e] at h2
    exact h2
  | cons c cs ih =>
    obtain ⟨_, h2⟩ := noNewlineAfterColon_cons b c _ h
    exact ih _ h2

theorem noNewlineAfterColon_quote_of_no_newline (x rest : List Char) (b : Bool)
    (hx : '\n' ∉ x) (h : noNewlineAfterColon false rest = true) :
    noNewlineAfterColon b (x ++ '"' :: rest) = true := by
  induction x generalizing b with
  | nil =>
    rw [List.nil_append, noNewlineAfterColon]
    have e : ('"' == ':' || (b && isPerlSpace '"')) = false := by
      cases b <;> decide
    have e2 : (b && '"' == '\n') = false := by
      cases b <;> decide
    rw [e, e2]
    exact h
  | cons c cs ih =>
    have hc : c ≠ '\n' := fun hh => hx (hh ▸ List.mem_cons_self _ _)
    have e : (b && c == '\n') = false := by simp [hc]
    rw [List.cons_append, noNewlineAfterColon, e]
    simp only [Bool.false_eq_true, if_false]
    exact ih _ (fun hh => hx (List.mem_cons_of_mem _ hh))

/-- The quoted replacement keeps the property that no colon is followed by white space
up to a newline. -/
theorem noNewlineAfterColon_replace1 (s : List Char) (k b : Bool)
    (h : noNewlineAfterColon b s = true) :
    noNewlineAfterColon b (replaceAllAux reg1 repl1 0 k s) = true := by
  generalize hn : s.length = n
  induction n using Nat.strong_induction_on generalizing s k b with
  | _ n ih =>
    cases s with
    | nil =>
      rw [replaceAllAux_nil _ _ _ reg1_run_nil]
      rfl
    | cons c cs =>
      by_cases hq : quotedAt (c :: cs)
      · obtain ⟨K, hK, w, v, rest, hs, hw, hv⟩ := hq
        rw [hs, replace1_quoted K hK w v rest k hw hv]
        rw [hs] at h
        have e1 : '"' :: (K.data ++ '"' :: ':' :: (w ++ '"' :: (v ++ '"' :: rest)))
            = ('"' :: (K.data ++ '"' :: ':' :: (w ++ '"' :: v))) ++ '"' :: rest := by simp
        have e2 : '"' :: (K.data ++ '"' :: ':' :: ' ' :: '"' ::
              (mask ++ '"' :: replaceAllAux reg1 repl1 0 true rest))
            = ('"' :: (K.data ++ '"' :: ':' :: ' ' :: '"' :: mask)) ++
              '"' :: replaceAllAux reg1 repl1 0 true rest := by simp
        rw [e1] at h
        rw [e2]
        apply noNewlineAfterColon_quote_of_no_newline
        · intro hm
          simp only [List.mem_cons, List.mem_append] at hm
          rcases hm with hh | hh | hh | hh | hh | hh | hh
          · exact absurd hh (by decide)
          · exact (keyword_value K hK _ hh).2 rfl
          · exact absurd hh (by decide)
          · exact absurd hh (by decide)
          · exact absurd hh (by decide)
          · exact absurd hh (by decide)
          · revert hh
            decide
        · refine ih rest.length ?_ rest true false (noNewlineAfterColon_quote _ _ _ h) rfl
          rw [← hn, hs]
          simp only [List.length_cons, List.length_append]
          omega
      · have hrun := (reg1_run_nil_iff _).mpr hq
        rw [replaceAllAux_no_match _ _ _ _ _ hrun]
        obtain ⟨h1, h2⟩ := noNewlineAfterColon_cons b c cs h
        rw [noNewlineAfterColon]
        have e : (b && c == '\n') = false := by
          cases hb : b
          · rfl
          · cases hc : (c == '\n')
            · rfl
            · exact absurd ⟨hb, beq_iff_eq.mp hc⟩ h1
        rw [e]
        simp only [Bool.false_eq_true, if_false]
        exact ih cs.length (by rw [← hn]; simp) cs false _ h2 rfl

theorem dropWhile_append_of_all (p : Char → Bool) (w u : List Char)
    (hw : ∀ c ∈ w, p c = true) : (w ++ u).dropWhile p = u.dropWhile p := by
  induction w with
  | nil => rfl
  | cons c w ih =>
    rw [List.cons_append, List.dropWhile_cons, if_pos (hw c (List.mem_cons_self _ _))]
    exact ih (fun x hx => hw x (List.mem_cons_of_mem _ hx))

/-- The bare pattern matches a keyword with a colon, white space and text without
newline up to the end. -/
theorem reg2_run_ne_nil_of_key (K : String) (hK : K ∈ sensitiveKeywords) (w u : List Char)
    (hw : ∀ c ∈ w, isPerlSpace c = true) (hu : '\n' ∉ u) :
    reg2.run (K.data ++ ':' :: (w ++ u)) ≠ [] := by
  have h : '\n' ∉ (w ++ u).dropWhile isPerlSpace := by
    rw [dropWhile_append_of_all _ w u hw]
    exact dropWhile_no_newline _ u hu
  obtain ⟨junk, hj⟩ := reg2_run_bare K hK (w ++ u) h
  rw [hj]
  exact List.cons_ne_nil _ _

/-- The bare replacement on any text: nothing changes, or everything from the first
match on, which starts with a keyword and a colon and runs to the end of the text, is
replaced by the keyword, a colon and the mask. -/
theorem replace2_cases_general (t : List Char) :
    replaceAllAux reg2 repl2 0 false t = t ∨
    ∃ a K x, K ∈ sensitiveKeywords ∧ t = a ++ (K.data ++ ':' :: x) ∧
      '\n' ∉ x.dropWhile isPerlSpace ∧
      replaceAllAux reg2 repl2 0 false t = a ++ (K.data ++ ':' :: ' ' :: mask) ∧
      (∀ a1 a2, a = a1 ++ a2 → a2 ≠ [] → reg2.run (a2 ++ (K.data ++ ':' :: x)) = []) := by
  induction t with
  | nil => exact Or.inl (replaceAllAux_nil _ _ _ reg2_run_nil)
  | cons c cs ih =>
    by_cases hrun : reg2.run (c :: cs) = []
    · rw [replaceAllAux_no_match _ _ _ _ _ hrun]
      rcases ih with h | ⟨a, K, x, hK, h1, hx, h2, h3⟩
      · left
        rw [h]
      · right
        refine ⟨c :: a, K, x, hK, by rw [h1]; rfl, hx, by rw [h2]; rfl, ?_⟩
        intro a1 a2 ha ha2
        cases a1 with
        | nil =>
          rw [List.nil_append] at ha
          rw [← ha, List.cons_append, ← h1]
          exact hrun
        | cons z a1 =>
          rw [List.cons_append, List.cons.injEq] at ha
          exact h3 a1 a2 ha.2 ha2
    · right
      obtain ⟨m, hm⟩ := List.exists_mem_of_ne_nil _ hrun
      obtain ⟨K, hK, w, u, hs, hw, hu⟩ := reg2_run_shape _ m hm
      have hx : '\n' ∉ (w ++ u).dropWhile isPerlSpace := by
        rw [dropWhile_append_of_all _ w u hw]
        exact dropWhile_no_newline _ u hu
      refine ⟨[], K, w ++ u, hK, hs, hx, ?_, ?_⟩
      · rw [hs]
        exact replace2_bare K hK (w ++ u) hx
      · intro a1 a2 ha ha2
        have := List.append_eq_nil.mp ha.symm
        exact absurd this.2 ha2

/-- Where the bare pattern does not match before a keyword with a colon and text
without newline behind it, it does not match with the mask behind the keyword either. -/
theorem reg2_run_nil_after_cut (a2 : List Char) (K : String)
    (x y : List Char) (hx : '\n' ∉ x)
    (h : reg2.run (a2 ++ (K.data ++ ':' :: x)) = []) :
    reg2.run (a2 ++ (K.data ++ ':' :: y)) = [] := by
  rw [List.eq_nil_iff_forall_not_mem]
  intro m hm
  obtain ⟨K2, hK2, w2, t2, hs, hw2, ht2⟩ := reg2_run_shape _ m hm
  have hs1 : (a2 ++ K.data) ++ ':' :: y = K2.data ++ ':' :: (w2 ++ t2) := by
    rw [← hs]
    simp
  have hcw : ':' ∉ w2 := fun hm => by
    have := hw2 _ hm
    revert this
    decide
  rcases split_at_first ':' K2.data _ _ _ (keyword_no_colon K2 hK2) hs1 with
    ⟨h1, _⟩ | ⟨a1, h1, h2⟩
  · apply reg2_run_ne_nil_of_key K2 hK2 [] x (by simp) hx
    have e : K2.data ++ ':' :: ([] ++ x) = a2 ++ (K.data ++ ':' :: x) := by
      rw [← h1]
      simp
    rw [e]
    exact h
  · have hw : ∃ a3, a1 = w2 ++ a3 ∧ '\n' ∉ a3 := by
      rcases List.append_eq_append_iff.mp h2 with ⟨a3, h3, h4⟩ | ⟨c1, h3, h4⟩
      · refine ⟨a3, h3, fun hm => ht2 ?_⟩
        rw [h4]
        exact List.mem_append_left _ hm
      · cases c1 with
        | nil => exact ⟨[], by rw [h3]; simp, by simp⟩
        | cons z c2 =>
          exfalso
          simp only [List.cons_append, List.cons.injEq] at h4
          apply hcw
          rw [h3, ← h4.1]
          simp
    obtain ⟨a3, ha3, hn3⟩ := hw
    apply reg2_run_ne_nil_of_key K2 hK2 w2 (a3 ++ ':' :: x) hw2
    · intro hm
      rcases List.mem_append.mp hm with hh | hh
      · exact hn3 hh
      · rcases List.mem_cons.mp hh with h5 | h5
        · exact absurd h5 (by decide)
        · exact hx h5
    · have e : K2.data ++ ':' :: (w2 ++ (a3 ++ ':' :: x)) = a2 ++ (K.data ++ ':' :: x) := by
        have e1 : a2 ++ (K.data ++ ':' :: x) = (a2 ++ K.data) ++ ':' :: x := by simp
        rw [e1, h1, ha3]
        simp
      rw [e]
      exact h

theorem replace2_fixed_after_cut (a : List Char) (K : String) (hK : K ∈ sensitiveKeywords)
    (x : List Char) (hx : '\n' ∉ x)
    (hfail : ∀ a1 a2, a = a1 ++ a2 → a2 ≠ [] → reg2.run (a2 ++ (K.data ++ ':' :: x)) = []) :
    replaceAllAux reg2 repl2 0 false (a ++ (K.data ++ ':' :: ' ' :: mask))
      = a ++ (K.data ++ ':' :: ' ' :: mask) := by
  induction a with
  | nil => exact replace2_bare K hK (' ' :: mask) (by decide)
  | cons c a ih =>
    have h0 := reg2_run_nil_after_cut (c :: a) K x (' ' :: mask) hx
      (hfail [] (c :: a) rfl (List.cons_ne_nil _ _))
    rw [List.cons_append] at h0 ⊢
    rw [replaceAllAux_no_match _ _ _ _ _ h0,
      ih (fun a1 a2 ha ha2 => hfail (c :: a1) a2 (by rw [ha]; rfl) ha2)]

theorem stable1_replace2_general (t : List Char) (h : Stable1 t) :
    Stable1 (replaceAllAux reg2 repl2 0 false t) := by
  rcases replace2_cases_general t with h0 | ⟨a, K, x, hK, h1, _, h2, _⟩
  · rw [h0]
    exact h
  · rw [h2]
    rw [h1] at h
    exact stable1_cut a K hK x (' ' :: mask) (by decide) h

/-- Redaction applied twice gives what redaction applied once gives, for every text in
which no colon is followed by white space up to a newline. -/
theorem removeSensitiveChars_idem_general (s : List Char)
    (hs : noNewlineAfterColon false s = true) :
    removeSensitiveChars (removeSensitiveChars s) = removeSensitiveChars s := by
  unfold removeSensitiveChars ReplaceAllString
  simp only []
  have h1 : Stable1 (replaceAllAux reg1 repl1 0 false s) := stable1_replace s false
  have hq := noNewlineAfterColon_replace1 s false false hs
  have h2 := stable1_replace2_general _ h1
  rw [stable1_fixed _ h2 false]
  rcases replace2_cases_general (replaceAllAux reg1 repl1 0 false s) with
    h0 | ⟨a, K, x, hK, e1, hx, e2, hfail⟩
  · rw [h0, h0]
  · rw [e2]
    rw [e1] at hq
    have e : a ++ (K.data ++ ':' :: x) = (a ++ K.data) ++ ':' :: x := by simp
    rw [e] at hq
    have ht := noNewlineAfterColon_colon _ _ _ hq
    have hxn : '\n' ∉ x := by
      intro hm
      rw [← List.takeWhile_append_dropWhile isPerlSpace x] at hm
      rcases List.mem_append.mp hm with hh | hh
      · exact ht hh
      · exact hx hh
    exact replace2_fixed_after_cut a K hK x hxn hfail

/-! ## Theorems: the indented rendering has no colon before a newline -/

/-- One turn of the loop appends what `indentEmit` tells and goes on. -/
theorem indentLoop_cons (s : Scanner) (ni : Bool) (d : Int) (c : Char) (cs : List Char)
    (hv1 : (s.doStep c).1 ≠ .scanSkipSpace) (hv2 : (s.doStep c).1 ≠ .scanError) :
    (indentLoop [] [' '] s ni d (c :: cs)).1
      = (indentEmit (s.doStep c).1 c ni d).1 ++
        (indentLoop [] [' '] (s.doStep c).2 (indentEmit (s.doStep c).1 c ni d).2.1
          (indentEmit (s.doStep c).1 c ni d).2.2 cs).1 := by
  rw [indentLoop]
  rcases hstep : s.doStep c with ⟨v, s1⟩
  rw [hstep] at hv1 hv2
  simp only [] at hv1 hv2
  cases v <;> first
    | exact absurd rfl hv1
    | exact absurd rfl hv2
    | (simp only [indentEmit, Bool.and_eq_true, bne_iff_ne, ne_eq, beq_iff_eq, reduceCtorEq,
         not_false_eq_true, not_true_eq_false, and_true, and_false, if_false, if_true]
       cases ni <;>
         simp only [Bool.false_eq_true, if_false, if_true, List.nil_append] <;>
         (try split_ifs) <;>
         simp only [List.append_assoc, List.singleton_append, List.cons_append,
           List.nil_append])

theorem noNewlineAfterColon_spaces (n : Nat) (rest : List Char) :
    noNewlineAfterColon false ((List.replicate n [' ']).flatten ++ rest)
      = noNewlineAfterColon false rest := by
  induction n with
  | zero => rfl
  | succ n ih =>
    rw [List.replicate_succ, List.flatten_cons, List.append_assoc, List.singleton_append,
      noNewlineAfterColon]
    simpa using ih

theorem noNewlineAfterColon_newline (d : Int) (rest : List Char) :
    noNewlineAfterColon false (appendNewline [] [' '] d ++ rest)
      = noNewlineAfterColon false rest := by
  unfold appendNewline
  rw [List.nil_append, List.cons_append, noNewlineAfterColon]
  simpa using noNewlineAfterColon_spaces _ rest

theorem noNewlineAfterColon_false_cons (c : Char) (rest : List Char) :
    noNewlineAfterColon false (c :: rest) = noNewlineAfterColon (c == ':') rest := by
  rw [noNewlineAfterColon]
  simp

theorem noNewlineAfterColon_true_cons (c : Char) (rest : List Char) (hc : c ≠ '\n') :
    noNewlineAfterColon true (c :: rest)
      = noNewlineAfterColon (c == ':' || isPerlSpace c) rest := by
  rw [noNewlineAfterColon]
  simp [hc]

/-- After what one turn appends, a text read afresh goes on after a colon exactly when
the byte of the turn is a colon. -/
theorem indentEmit_fresh (v : ScanCode) (c : Char) (ni : Bool) (d : Int) (rest : List Char) :
    noNewlineAfterColon false ((indentEmit v c ni d).1 ++ rest)
      = noNewlineAfterColon (c == ':') rest := by
  have hout : ∀ (di : Bool) (x : Int) (t : List Char),
      noNewlineAfterColon false ((if di = true then appendNewline [] [' '] x else []) ++ t)
        = noNewlineAfterColon false t := by
    intro di x t
    cases di
    · rfl
    · simp only [if_true]
      exact noNewlineAfterColon_newline x t
  simp only [indentEmit]
  split_ifs <;>
    simp only [List.append_assoc, List.singleton_append, List.cons_append, List.nil_append,
      hout, noNewlineAfterColon_newline, noNewlineAfterColon_false_cons] <;>
    simp_all [noNewlineAfterColon, noNewlineAfterColon_newline, isPerlSpace]

theorem indentEmit_colon (v : ScanCode) (ni : Bool) (d : Int)
    (h1 : v ≠ .scanEndObject) (h2 : v ≠ .scanEndArray) :
    (indentEmit v ':' ni d).2.1 = false := by
  have e1 : (v != ScanCode.scanEndObject) = true := by simp [h1]
  have e2 : (v != ScanCode.scanEndArray) = true := by simp [h2]
  simp only [indentEmit, e1, e2, Bool.and_true]
  cases ni <;> cases (v == ScanCode.scanContinue) <;> rfl

theorem indentEmit_continue (c : Char) (d : Int) :
    indentEmit .scanContinue c false d = ([c], false, d) := by
  simp [indentEmit]

theorem indentEmit_plain (v : ScanCode) (c : Char) (d : Int) (hv : v ≠ .scanContinue)
    (h1 : c ≠ ',') (h2 : c ≠ ':') (h3 : c ≠ '}') (h4 : c ≠ ']') :
    (indentEmit v c false d).1 = [c] := by
  have e : (v == ScanCode.scanContinue) = false := by simp [hv]
  simp only [indentEmit, e, Bool.false_and, Bool.false_eq_true, if_false, List.nil_append]
  split_ifs <;> simp_all

theorem doStep_of_stateInString (s : Scanner) (c : Char) (h : s.step = .stateInString) :
    s.doStep c = stateInString s c := by
  unfold Scanner.doStep
  rw [h]

theorem doStep_of_stateBeginValue (s : Scanner) (c : Char) (h : s.step = .stateBeginValue) :
    s.doStep c = stateBeginValue s c := by
  unfold Scanner.doStep
  rw [h]

theorem doStep_of_stateError (s : Scanner) (c : Char) (h : s.step = .stateError) :
    (s.doStep c).1 = .scanError := by
  unfold Scanner.doStep
  rw [h]

/-- Inside a string every byte that is not an error is passed on, is not a newline, and
leaves the scanner inside the string when it is a colon or white space. -/
theorem stateInString_facts (s : Scanner) (c : Char) (h : s.step = .stateInString)
    (herr : (s.doStep c).1 ≠ .scanError) :
    (s.doStep c).1 = .scanContinue ∧ c ≠ '\n' ∧
      ((c == ':' || isPerlSpace c) = true → (s.doStep c).2.step = .stateInString) := by
  rw [doStep_of_stateInString s c h] at herr ⊢
  unfold stateInString at herr ⊢
  by_cases h1 : c = '"'
  · subst h1
    exact ⟨rfl, by decide, fun hh => absurd hh (by decide)⟩
  · by_cases h2 : c = '\\'
    · subst h2
      exact ⟨rfl, by decide, fun hh => absurd hh (by decide)⟩
    · have e1 : (c == '"') = false := by simp [h1]
      have e2 : (c == '\\') = false := by simp [h2]
      simp only [e1, e2, Bool.false_eq_true, if_false] at herr ⊢
      by_cases h3 : c.toNat < 32
      · rw [if_pos h3] at herr
        exact absurd rfl herr
      · rw [if_neg h3]
        refine ⟨rfl, ?_, fun _ => h⟩
        intro hc
        rw [hc] at h3
        exact h3 (by decide)

theorem pushParseState_ne_continue (s : Scanner) (p : ParseState) (code : ScanCode)
    (h : code ≠ .scanContinue) : (s.pushParseState p code).1 ≠ .scanContinue := by
  unfold Scanner.pushParseState Scanner.error
  simp only []
  by_cases hl : (p :: s.parseState).length ≤ maxNestingDepth
  · rw [if_pos hl]
    exact h
  · rw [if_neg hl]
    exact fun hh => ScanCode.noConfusion hh

theorem stateBeginValue_ne_continue (s : Scanner) (c : Char) :
    (stateBeginValue s c).1 ≠ .scanContinue := by
  unfold stateBeginValue
  by_cases h0 : isSpace c = true
  · rw [if_pos h0]; exact fun hh => ScanCode.noConfusion hh
  rw [if_neg h0]
  by_cases h1 : (c == '{') = true
  · rw [if_pos h1]; exact pushParseState_ne_continue _ _ _ (fun hh => ScanCode.noConfusion hh)
  rw [if_neg h1]
  by_cases h2 : (c == '[') = true
  · rw [if_pos h2]; exact pushParseState_ne_continue _ _ _ (fun hh => ScanCode.noConfusion hh)
  rw [if_neg h2]
  simp only [Scanner.error, apply_ite Prod.fst]
  split_ifs <;> exact fun hh => ScanCode.noConfusion hh

/-- Before a value every byte is white space that is skipped, or an error, or the first
byte of a value: not a newline, not white space, none of `,` `:` `}` `]`. -/
theorem stateBeginValue_facts (s : Scanner) (c : Char) (h : s.step = .stateBeginValue)
    (hskip : (s.doStep c).1 ≠ .scanSkipSpace) (herr : (s.doStep c).1 ≠ .scanError) :
    (s.doStep c).1 ≠ .scanContinue ∧ c ≠ ',' ∧ c ≠ ':' ∧ c ≠ '}' ∧ c ≠ ']' ∧ c ≠ '\n' ∧
      isPerlSpace c = false := by
  rw [doStep_of_stateBeginValue s c h] at hskip herr ⊢
  have key : ∀ x : Char, (x = ',' ∨ x = ':' ∨ x = '}' ∨ x = ']' ∨ x = '\n' ∨
      isPerlSpace x = true) → (stateBeginValue s x).1 = .scanSkipSpace ∨
        (stateBeginValue s x).1 = .scanError := by
    intro x hx
    unfold stateBeginValue
    by_cases hsp : isSpace x = true
    · left
      rw [if_pos hsp]
    · right
      rw [if_neg hsp]
      have hd : isDigit19 x = false := by
        rcases hx with hh | hh | hh | hh | hh | hh
        · subst hh; decide
        · subst hh; decide
        · subst hh; decide
        · subst hh; decide
        · subst hh; decide
        · simp only [isPerlSpace, Bool.or_eq_true, beq_iff_eq] at hh
          rcases hh with (((hh | hh) | hh) | hh) | hh <;> subst hh <;> decide
      have hne : ∀ y : Char, (y = '{' ∨ y = '[' ∨ y = '"' ∨ y = '-' ∨ y = '0' ∨ y = 't' ∨
          y = 'f' ∨ y = 'n') → (x == y) = false := by
        intro y hy
        rw [beq_eq_false_iff_ne]
        intro hxy
        subst hxy
        rcases hx with hh | hh | hh | hh | hh | hh
        · subst hh; revert hy; decide
        · subst hh; revert hy; decide
        · subst hh; revert hy; decide
        · subst hh; revert hy; decide
        · subst hh; revert hy; decide
        · rcases hy with hy | hy | hy | hy | hy | hy | hy | hy <;> subst hy <;>
            exact absurd hh (by decide)
      simp only [hne '{' (by simp), hne '[' (by simp), hne '"' (by simp), hne '-' (by simp),
        hne '0' (by simp), hne 't' (by simp), hne 'f' (by simp), hne 'n' (by simp), hd,
        Bool.false_eq_true, if_false]
      rfl
  have hcont : (stateBeginValue s c).1 ≠ .scanContinue := stateBeginValue_ne_continue s c
  have no : ∀ p : Prop, (p → (c = ',' ∨ c = ':' ∨ c = '}' ∨ c = ']' ∨ c = '\n' ∨
      isPerlSpace c = true)) → ¬ p := by
    intro p hp hpp
    rcases key c (hp hpp) with hh | hh
    · exact hskip hh
    · exact herr hh
  refine ⟨hcont, no _ (fun hh => Or.inl hh), no _ (fun hh => Or.inr (Or.inl hh)),
    no _ (fun hh => Or.inr (Or.inr (Or.inl hh))),
    no _ (fun hh => Or.inr (Or.inr (Or.inr (Or.inl hh)))),
    no _ (fun hh => Or.inr (Or.inr (Or.inr (Or.inr (Or.inl hh))))), ?_⟩
  cases hp : isPerlSpace c
  · rfl
  · exact absurd hp (no _ (fun hh => Or.inr (Or.inr (Or.inr (Or.inr (Or.inr hh))))))
theorem doStep_colon (s : Scanner) :
    (s.doStep ':').1 = .scanError ∨
      ((s.doStep ':').1 ≠ .scanEndObject ∧ (s.doStep ':').1 ≠ .scanEndArray ∧
        afterColonState (s.doStep ':').2) := by
  have f1 : isSpace ':' = false := by decide
  have f2 : isDigit ':' = false := by decide
  have f3 : isDigit19 ':' = false := by decide
  have f4 : isHex ':' = false := by decide
  rcases s with ⟨step, ps, et, er⟩
  rcases ps with _ | ⟨p, rest⟩
  · cases step <;>
      simp [Scanner.doStep, stateBeginValueOrEmpty, stateBeginValue, stateBeginStringOrEmpty,
        stateBeginString, stateEndValue, stateEndTop, stateInString, stateInStringEsc,
        stateExpect, state0, state1, stateNeg, stateDot0, stateE, stateESign, stateE0,
        Scanner.error, afterColonState, f1, f2, f3, f4]
  · cases p <;> cases step <;>
      simp [Scanner.doStep, stateBeginValueOrEmpty, stateBeginValue, stateBeginStringOrEmpty,
        stateBeginString, stateEndValue, stateEndTop, stateInString, stateInStringEsc,
        stateExpect, state0, state1, stateNeg, stateDot0, stateE, stateESign, stateE0,
        Scanner.error, afterColonState, f1, f2, f3, f4]

theorem pushParseState_ne_skip (s : Scanner) (p : ParseState) (code : ScanCode)
    (h : code ≠ .scanSkipSpace) : (s.pushParseState p code).1 ≠ .scanSkipSpace := by
  unfold Scanner.pushParseState Scanner.error
  simp only []
  by_cases hl : (p :: s.parseState).length ≤ maxNestingDepth
  · rw [if_pos hl]
    exact h
  · rw [if_neg hl]
    exact fun hh => ScanCode.noConfusion hh

theorem stateBeginValue_skip (s : Scanner) (c : Char)
    (h : (stateBeginValue s c).1 = .scanSkipSpace) : (stateBeginValue s c).2 = s := by
  unfold stateBeginValue at h ⊢
  by_cases h0 : isSpace c = true
  · rw [if_pos h0]
  rw [if_neg h0] at h
  exfalso
  revert h
  by_cases h1 : (c == '{') = true
  · rw [if_pos h1]; exact pushParseState_ne_skip _ _ _ (fun hh => ScanCode.noConfusion hh)
  rw [if_neg h1]
  by_cases h2 : (c == '[') = true
  · rw [if_pos h2]; exact pushParseState_ne_skip _ _ _ (fun hh => ScanCode.noConfusion hh)
  rw [if_neg h2]
  simp only [Scanner.error, apply_ite Prod.fst]
  split_ifs <;> first | exact fun hh => ScanCode.noConfusion hh | exact fun hh => hh

theorem stateInString_ne_skip (s : Scanner) (c : Char) :
    (stateInString s c).1 ≠ .scanSkipSpace := by
  simp only [stateInString, Scanner.error, apply_ite Prod.fst]
  split_ifs <;> exact fun hh => ScanCode.noConfusion hh

/-- White space that is skipped leaves the scanner in a state after a colon. -/
theorem afterColonState_skip (s : Scanner) (c : Char) (h : afterColonState s)
    (hs : (s.doStep c).1 = .scanSkipSpace) : afterColonState (s.doStep c).2 := by
  rcases h with h | h | h
  · rw [doStep_of_stateInString s c h] at hs
    exact absurd hs (stateInString_ne_skip s c)
  · rw [doStep_of_stateBeginValue s c h] at hs ⊢
    rw [stateBeginValue_skip s c hs]
    exact Or.inr (Or.inl h)
  · have := doStep_of_stateError s c h
    rw [this] at hs
    exact ScanCode.noConfusion hs

theorem indentLoop_skip_one (s : Scanner) (ni : Bool) (d : Int) (c : Char) (cs : List Char)
    (h : (s.doStep c).1 = .scanSkipSpace) :
    indentLoop [] [' '] s ni d (c :: cs) = indentLoop [] [' '] (s.doStep c).2 ni d cs := by
  rw [indentLoop]
  rcases hstep : s.doStep c with ⟨v, s1⟩
  rw [hstep] at h
  simp only [] at h
  subst h
  rfl

theorem indentLoop_error_one (s : Scanner) (ni : Bool) (d : Int) (c : Char) (cs : List Char)
    (h : (s.doStep c).1 = .scanError) :
    (indentLoop [] [' '] s ni d (c :: cs)).1 = [] := by
  rw [indentLoop]
  rcases hstep : s.doStep c with ⟨v, s1⟩
  rw [hstep] at h
  simp only [] at h
  subst h
  rfl

/-- In what the indenter writes, with empty prefix and one space as indent, no colon is
followed by white space up to a newline.  `b` tells that the text written so far ends
with a colon and white space; then no indent is due and the scanner is inside a string,
before a value or after an error. -/
theorem indentLoop_noNewlineAfterColon (src : List Char) (s : Scanner) (ni : Bool) (d : Int)
    (b : Bool) (hI : b = true → ni = false ∧ afterColonState s) :
    noNewlineAfterColon b (indentLoop [] [' '] s ni d src).1 = true := by
  induction src generalizing s ni d b with
  | nil => rfl
  | cons c cs ih =>
    by_cases hskip : (s.doStep c).1 = .scanSkipSpace
    · rw [indentLoop_skip_one s ni d c cs hskip]
      exact ih _ ni d b (fun hb => ⟨(hI hb).1, afterColonState_skip s c (hI hb).2 hskip⟩)
    by_cases herr : (s.doStep c).1 = .scanError
    · rw [indentLoop_error_one s ni d c cs herr]
      rfl
    rw [indentLoop_cons s ni d c cs hskip herr]
    cases b with
    | false =>
      rw [indentEmit_fresh]
      apply ih
      intro hc
      have hc1 : c = ':' := beq_iff_eq.mp hc
      subst hc1
      rcases doStep_colon s with h0 | ⟨h1, h2, h3⟩
      · exact absurd h0 herr
      · exact ⟨indentEmit_colon _ ni d h1 h2, h3⟩
    | true =>
      obtain ⟨hni, hst⟩ := hI rfl
      subst hni
      rcases hst with hst | hst | hst
      · obtain ⟨hv, hc, hnext⟩ := stateInString_facts s c hst herr
        rw [hv, indentEmit_continue, List.singleton_append,
          noNewlineAfterColon_true_cons c _ hc]
        apply ih
        intro hb
        exact ⟨rfl, Or.inl (hnext hb)⟩
      · obtain ⟨hv, h1, h2, h3, h4, h5, h6⟩ := stateBeginValue_facts s c hst hskip herr
        rw [indentEmit_plain _ c d hv h1 h2 h3 h4, List.singleton_append,
          noNewlineAfterColon_true_cons c _ h5]
        apply ih
        intro hb
        have e : (c == ':') = false := by simp [h2]
        rw [e, h6] at hb
        exact absurd hb (by decide)
      · exact absurd (doStep_of_stateError s c hst) herr

/-- In the indented rendering of valid JSON no colon is followed by white space up to a
newline. -/
theorem Indent_noNewlineAfterColon (p : List Char) (hv : Valid p = true) :
    noNewlineAfterColon false (Indent p [] [' ']) = true := by
  rw [Indent_of_valid p hv]
  exact indentLoop_noNewlineAfterColon p Scanner.reset false 0 false
    (fun hb => absurd hb (by decide))

theorem splitLines_no_newline (b : List Char) : ∀ p ∈ splitLines b, '\n' ∉ p := by
  induction b with
  | nil =>
    intro p hp
    simp only [splitLines, List.mem_singleton] at hp
    rw [hp]
    simp
  | cons c cs ih =>
    intro p hp
    rw [splitLines] at hp
    cases hsp : splitLines cs with
    | nil =>
      rw [hsp] at hp
      simp only [List.mem_singleton] at hp
      rw [hp]
      simp
    | cons l ls =>
      rw [hsp] at hp ih
      simp only [] at hp
      by_cases hc : c = '\n'
      · rw [if_pos hc] at hp
        rcases List.mem_cons.mp hp with h | h
        · rw [h]
          simp
        · exact ih p h
      · rw [if_neg hc] at hp
        rcases List.mem_cons.mp hp with h | h
        · rw [h]
          intro hm
          rcases List.mem_cons.mp hm with h1 | h1
          · exact hc h1.symm
          · exact ih l (List.mem_cons_self _ _) h1
        · exact ih p (List.mem_cons_of_mem _ h)

/-! ## Theorems: redaction applied twice, keywords before a newline -/

theorem keyColonClear_of_no_newline (s : List Char) (hs : '\n' ∉ s) : keyColonClear s := by
  intro a K y _ he hm
  apply hs
  rw [he]
  have := (List.takeWhile_sublist isPerlSpace).subset hm
  simp [this]

theorem keyColonClear_of_noNewlineAfterColon (s : List Char)
    (hs : noNewlineAfterColon false s = true) : keyColonClear s := by
  intro a K y _ he
  have e : a ++ (K.data ++ ':' :: y) = (a ++ K.data) ++ ':' :: y := by simp
  rw [he, e] at hs
  exact noNewlineAfterColon_colon _ _ _ hs

theorem keyColonClear_suffix (a s : List Char) (h : keyColonClear (a ++ s)) :
    keyColonClear s := by
  intro a1 K y hK he
  apply h (a ++ a1) K y hK
  rw [he]
  simp

theorem takeWhile_before_quote (p x y : List Char) :
    (p ++ '"' :: x).takeWhile isPerlSpace = (p ++ '"' :: y).takeWhile isPerlSpace := by
  induction p with
  | nil =>
    have hq : isPerlSpace '"' = false := by decide
    simp [List.takeWhile_cons, hq]
  | cons c p ih =>
    simp only [List.cons_append, List.takeWhile_cons]
    rw [ih]

/-- The quoted replacement keeps the property that no keyword with a colon is followed
by white space up to a newline. -/
theorem keyColonClear_replace1 (s : List Char) (k : Bool) (h : keyColonClear s) :
    keyColonClear (replaceAllAux reg1 repl1 0 k s) := by
  generalize hn : s.length = n
  induction n using Nat.strong_induction_on generalizing s k with
  | _ n ih =>
    cases s with
    | nil =>
      rw [replaceAllAux_nil _ _ _ reg1_run_nil]
      exact h
    | cons c cs =>
      by_cases hq : quotedAt (c :: cs)
      · obtain ⟨K0, hK0, w, v, rest, hs, hw, hv⟩ := hq
        rw [hs, replace1_quoted K0 hK0 w v rest k hw hv]
        have hrest : keyColonClear rest := by
          rw [hs] at h
          have e1 : '"' :: (K0.data ++ '"' :: ':' :: (w ++ '"' :: (v ++ '"' :: rest)))
              = ('"' :: (K0.data ++ '"' :: ':' :: (w ++ '"' :: (v ++ ['"'])))) ++ rest := by
            simp
          rw [e1] at h
          exact keyColonClear_suffix _ _ h
        have hlen : rest.length < n := by
          rw [← hn, hs]
          simp only [List.length_cons, List.length_append]
          omega
        have hr := ih rest.length hlen rest true hrest rfl
        intro a K y hK he
        have e2 : '"' :: (K0.data ++ '"' :: ':' :: ' ' :: '"' ::
              (mask ++ '"' :: replaceAllAux reg1 repl1 0 true rest))
            = ('"' :: (K0.data ++ '"' :: ':' :: ' ' :: '"' :: (mask ++ ['"']))) ++
              replaceAllAux reg1 repl1 0 true rest := by simp
        rw [e2] at he
        rcases List.append_eq_append_iff.mp he with ⟨a1, h1, h2⟩ | ⟨c1, h1, h2⟩
        · exact hr a1 K y hK h2
        · cases c1 with
          | nil =>
            rw [List.nil_append] at h2
            exact hr [] K y hK (by rw [← h2]; rfl)
          | cons z c2 =>
            exact (masked_no_key_inside a (z :: c2) K0 K hK0 hK y _ (List.cons_ne_nil _ _)
              h1 h2).elim
      · have hrun := (reg1_run_nil_iff _).mpr hq
        rw [replaceAllAux_no_match _ _ _ _ _ hrun]
        have hcs : keyColonClear cs := keyColonClear_suffix [c] cs h
        have hr := ih cs.length (by rw [← hn]; simp) cs false hcs rfl
        intro a K y hK he
        cases a with
        | cons z a1 =>
          rw [List.cons_append, List.cons.injEq] at he
          exact hr a1 K y hK he.2
        | nil =>
          rw [List.nil_append] at he
          rcases replace1_first_difference cs false with e | ⟨p, K1, x0, y0, _, e1, e2⟩
          · rw [e] at he
            exact h [] K y hK he
          · rw [e2] at he
            have he1 : (c :: p) ++ '"' :: (K1.data ++ '"' :: y0) = (K.data ++ [':']) ++ y := by
              rw [List.cons_append, he]
              simp
            rcases List.append_eq_append_iff.mp he1 with ⟨a1, h1, h2⟩ | ⟨c1, h1, h2⟩
            · cases a1 with
              | nil =>
                rw [List.append_nil] at h1
                rw [List.nil_append] at h2
                have hs0 : c :: cs = [] ++ (K.data ++ ':' :: ('"' :: (K1.data ++ '"' :: x0))) := by
                  rw [e1, ← List.cons_append, ← h1]
                  simp
                have := h [] K _ hK hs0
                rw [← h2]
                rw [List.takeWhile_cons] at this ⊢
                exact this
              | cons z a2 =>
                exfalso
                simp only [List.cons_append, List.cons.injEq] at h2
                apply keyword_colon_no_quote K hK
                rw [h1, ← h2.1]
                simp
            · have hs0 : c :: cs = [] ++ (K.data ++ ':' :: (c1 ++ '"' :: (K1.data ++ '"' :: x0))) := by
                rw [e1, ← List.cons_append, h1]
                simp
              have := h [] K _ hK hs0
              rw [h2, takeWhile_before_quote c1 _ (K1.data ++ '"' :: x0)]
              exact this

/-- Redaction applied twice gives what redaction applied once gives, for every text in
which no keyword with a colon is followed by white space up to a newline. -/
theorem removeSensitiveChars_idem_of_keyColonClear (s : List Char) (hs : keyColonClear s) :
    removeSensitiveChars (removeSensitiveChars s) = removeSensitiveChars s := by
  unfold removeSensitiveChars ReplaceAllString
  simp only []
  have h1 : Stable1 (replaceAllAux reg1 repl1 0 false s) := stable1_replace s false
  have hq := keyColonClear_replace1 s false hs
  have h2 := stable1_replace2_general _ h1
  rw [stable1_fixed _ h2 false]
  rcases replace2_cases_general (replaceAllAux reg1 repl1 0 false s) with
    h0 | ⟨a, K, x, hK, e1, hx, e2, hfail⟩
  · rw [h0, h0]
  · rw [e2]
    have ht := hq a K x hK e1
    have hxn : '\n' ∉ x := by
      intro hm
      rw [← List.takeWhile_append_dropWhile isPerlSpace x] at hm
      rcases List.mem_append.mp hm with hh | hh
      · exact ht hh
      · exact hx hh
    exact replace2_fixed_after_cut a K hK x hxn hfail

/-! ## C20: redaction applied twice -/

/-- C20 (as the code behaves): redaction of the two-line text `data: x data:` / `y`
masks from the second keyword on and joins the lines, giving `data: x data: ******`;
redaction of that text masks from the first keyword on, giving `data: ******`.  The
second application changes the text. -/
theorem C20_second_redaction_changes_a_two_line_text :
    removeSensitive "data: x data:\ny" = "data: x data: ******" ∧
    removeSensitive (removeSensitive "data: x data:\ny") = "data: ******" ∧
    removeSensitive (removeSensitive "data: x data:\ny") ≠ removeSensitive "data: x data:\ny" := by
  decide

/-- C20 (amended): redaction is idempotent on every string in which no sensitive
keyword with a colon behind it is followed by white space that runs up to a newline:
for every such string `s`, `removeSensitive (removeSensitive s) = removeSensitive s`.
Every string without a newline is such a string, and so is every text that JSON
pretty-printing (`json.Indent` with empty prefix and one space as indent) gives for
valid JSON; hence the equation holds for every string that `prettyPrintJsonLines`
passes to `removeSensitive`. -/
theorem C20_redaction_is_idempotent_unless_a_keyword_runs_to_a_newline :
    (∀ s : String, keyColonClear s.data →
      removeSensitive (removeSensitive s) = removeSensitive s) ∧
    (∀ s : String, '\n' ∉ s.data →
      removeSensitive (removeSensitive s) = removeSensitive s) ∧
    (∀ p : List Char, Json.Valid p = true →
      removeSensitive (removeSensitive (String.mk (Json.Indent p [] [' '])))
        = removeSensitive (String.mk (Json.Indent p [] [' ']))) ∧
    (∀ b : String, ∀ p ∈ splitLines b.data,
      removeSensitiveChars (removeSensitiveChars
          (if Json.Valid p then Json.Indent p [] [' '] else p))
        = removeSensitiveChars (if Json.Valid p then Json.Indent p [] [' '] else p)) := by
  refine ⟨?_, ?_, ?_, ?_⟩
  · intro s hs
    apply String.ext
    exact removeSensitiveChars_idem_of_keyColonClear s.data hs
  · intro s hs
    apply String.ext
    exact removeSensitiveChars_idem_of_keyColonClear s.data
      (keyColonClear_of_no_newline s.data hs)
  · intro p hp
    apply String.ext
    exact removeSensitiveChars_idem_of_keyColonClear _
      (keyColonClear_of_noNewlineAfterColon _ (Indent_noNewlineAfterColon p hp))
  · intro b p hp
    by_cases hv : Json.Valid p = true
    · rw [if_pos hv]
      exact removeSensitiveChars_idem_of_keyColonClear _
        (keyColonClear_of_noNewlineAfterColon _ (Indent_noNewlineAfterColon p hv))
    · rw [if_neg hv]
      exact removeSensitiveChars_idem_of_keyColonClear p
        (keyColonClear_of_no_newline p (splitLines_no_newline b.data p hp))

theorem C20_witness :
    keyColonClear "\"data\": \"x\"\nAuthorization: abc\r\ndata: y".data ∧
    removeSensitive (removeSensitive "\"data\": \"x\"\nAuthorization: abc\r\ndata: y")
      = removeSensitive "\"data\": \"x\"\nAuthorization: abc\r\ndata: y" ∧
    '\n' ∉ "\"data\":\t\"x\" \"kind\": \"Secret\" Authorization: abc data: y".data ∧
    removeSensitive (removeSensitive
        "\"data\":\t\"x\" \"kind\": \"Secret\" Authorization: abc data: y")
      = removeSensitive "\"data\":\t\"x\" \"kind\": \"Secret\" Authorization: abc data: y" ∧
    Json.Valid "\x7b\"data\":\x7b\"k\":[1,\"data: x\",null]\x7d,\"stringData\":\"a\\\"b\"\x7d".data
      = true ∧
    removeSensitive (removeSensitive (String.mk (Json.Indent
        "\x7b\"data\":\x7b\"k\":[1,\"data: x\",null]\x7d,\"stringData\":\"a\\\"b\"\x7d".data
        [] [' '])))
      = removeSensitive (String.mk (Json.Indent
        "\x7b\"data\":\x7b\"k\":[1,\"data: x\",null]\x7d,\"stringData\":\"a\\\"b\"\x7d".data
        [] [' '])) :=
  ⟨keyColonClear_of_noNewlineAfterColon _ (by decide),
   C20_redaction_is_idempotent_unless_a_keyword_runs_to_a_newline.1
     "\"data\": \"x\"\nAuthorization: abc\r\ndata: y"
     (keyColonClear_of_noNewlineAfterColon _ (by decide)),
   by decide,
   C20_redaction_is_idempotent_unless_a_keyword_runs_to_a_newline.2.1
     "\"data\":\t\"x\" \"kind\": \"Secret\" Authorization: abc data: y" (by decide),
   by decide,
   C20_redaction_is_idempotent_unless_a_keyword_runs_to_a_newline.2.2.1
     "\x7b\"data\":\x7b\"k\":[1,\"data: x\",null]\x7d,\"stringData\":\"a\\\"b\"\x7d".data
     (by decide)⟩

end K8sTransport
